import Mathlib

/-!
Verification of the bit-packed array family (src/internal/math/bitvector/array.go)
and the Euclid-LSH nearest-neighbour index (src/internal/nearest/euclid_lsh.go).

Machine words are embedded as Nat with explicit bounds (< 2 ^ 64); Go slices
backed by a capacity are embedded as a full-capacity list (store) plus the
slice length, since the Go allocator zero-fills fresh capacity and reslicing
within capacity re-exposes the underlying memory.  Go int indices are embedded
as Int so that the negative-index checks of the source remain meaningful.
Fallible operations return Except Err; operations that mutate the receiver
return the updated structure.  float32 / float64 quantities of the LSH layer
are embedded as rationals, with the transcendental primitives (cos, sqrt, pi)
and the seeded per-dimension Gaussian draws abstracted as parameters, since
those live outside the translated code.
-/

namespace Jub

/-- Word width of the machine (Go wordBits, a 64-bit platform). -/
def wordBits : Nat := 64

/-- Modelled from the spec: helper of the bitvector package (its file is not in
src/); mask of the n least-significant bits, as used by array.go. -/
def leastBits (n : Nat) : Nat := 2 ^ n - 1

/-- 64-bit bitwise complement (Go unary ^ on a word). -/
def compl64 (x : Nat) : Nat := (2 ^ 64 - 1) ^^^ x

/-- Modelled from the spec: the bitvector package helper set(w, offset, v, nbits)
(its file is not in src/): write the nbits least bits of v into w at offset. -/
def setB (w : Nat) (offset : Nat) (v : Nat) (nbits : Nat) : Nat :=
  (w &&& compl64 (leastBits nbits <<< offset)) ||| ((v &&& leastBits nbits) <<< offset)

/-- Go maxInt helper. -/
def maxInt (a b : Nat) : Nat := max a b

/-- Go minInt helper. -/
def minInt (a b : Nat) : Nat := min a b

/-- Modelled from the spec: nWords(bitNum, len) = ceil(bitNum*len/64), the number
of words needed to store len elements of bitNum bits (spec section 3). -/
def nWords (bitNum len : Nat) : Nat := (bitNum * len + 63) / 64

/-- Go copy(dst[start:], src): overwrite dst from position start with the
elements of src, stopping at the end of dst. -/
def copyRegion : List Nat → Nat → List Nat → List Nat
  | d, _, [] => d
  | d, s, w :: ws => if s < d.length then copyRegion (d.set s w) (s + 1) ws else d

/-- Bit j of a word buffer, reading absent words as zero. -/
def bitAt (d : List Nat) (j : Nat) : Bool := (d.getD (j / 64) 0).testBit (j % 64)

/-- Number of set bits among the w least-significant bits. -/
def popcountW (w n : Nat) : Nat := ((List.range w).filter (fun i => n.testBit i)).length

/-- Modelled from the spec: bitcount of a 64-bit word (bitvector package helper,
its file is not in src/). -/
def bitcount (x : Nat) : Nat := popcountW 64 x

/-- Modelled from the spec: popcount of a uint16. -/
def bitcount16 (x : Nat) : Nat := popcountW 16 x

/-- Modelled from the spec: popcount of a uint32. -/
def bitcount32 (x : Nat) : Nat := popcountW 32 x

/-- Value of a little-endian list of 64-bit words. -/
def valW (ws : List Nat) : Nat := ws.foldr (fun w acc => w + acc * 2 ^ 64) 0

/-- Modelled from the spec: the bitvector Vector (its file is not in src/): a
fixed-width bit-vector of width bitNum backed by ceil(bitNum/64) words. -/
structure Vector where
  data : List Nat
  bitNum : Nat
deriving DecidableEq

/-- Modelled from the spec: zero-filled vector of the given width. -/
def NewVector (bitNum : Nat) : Vector :=
  ⟨List.replicate (nWords bitNum 1) 0, bitNum⟩

/-- Modelled from the spec: set bit i of a vector. -/
def Vector.setBit (v : Vector) (i : Nat) : Vector :=
  ⟨v.data.set (i / 64) (v.data.getD (i / 64) 0 ||| (1 <<< (i % 64))), v.bitNum⟩

/-- Modelled from the spec: bitwise XOR of two equal-width vectors. -/
def Vector.xorV (v u : Vector) : Vector :=
  ⟨v.data.zipWith (fun a b => a ^^^ b) u.data, v.bitNum⟩

/-- Popcount of a vector: sum of the per-word popcounts. -/
def popcountV (v : Vector) : Nat := (v.data.map bitcount).sum

/-- Value of a vector as a natural number. -/
def Vector.val (v : Vector) : Nat := valW v.data

/-- Well-formedness of a vector: the backing buffer has exactly
ceil(bitNum/64) words, each a 64-bit word, and the value fits in bitNum bits.
Every vector built by the source satisfies this. -/
def VWf (v : Vector) : Prop :=
  v.data.length = nWords v.bitNum 1 ∧ (∀ w ∈ v.data, w < 2 ^ 64) ∧ valW v.data < 2 ^ v.bitNum

instance : DecidablePred VWf := fun v => by unfold VWf; infer_instance

/-- Error kinds returned by the packed-array operations (spec section 7). -/
inductive Err where
  | indexOutOfRange
  | bitWidthMismatch
  | invalidBitNum
  | unsupportedFormatVersion
deriving DecidableEq

/-- Persisted form of a packed array: version byte plus the encoded record
{data, bitNum, len}.  The msgpack encoding itself is a third-party library and
is abstracted as this record. -/
structure SavedArray where
  formatVersion : Nat
  data : List Nat
  bitNum : Nat
  len : Nat
deriving DecidableEq

/-- Go generalArray (array.go): full cross-word splice logic. data is the full
backing buffer (the Go slice always has its full length), len is the logical
element count. -/
structure GeneralArray where
  data : List Nat
  bitNum : Nat
  len : Nat
deriving DecidableEq

namespace GeneralArray

/-- generalArray.cap. -/
def cap (a : GeneralArray) : Nat := a.data.length * 64 / a.bitNum

/-- generalArray.reserve: grow the backing buffer with capacity doubling. -/
def reserve (a : GeneralArray) (n : Nat) : GeneralArray :=
  if n ≤ a.cap then a
  else
    { a with data := copyRegion (List.replicate (nWords a.bitNum (maxInt n (2 * a.cap))) 0) 0 a.data }

/-- generalArray.Resize. -/
def resize (a : GeneralArray) (n : Nat) : GeneralArray :=
  { a.reserve n with len := n }

/-- The body of generalArray.Get after its index check. -/
def getCore (d : List Nat) (b : Nat) (n : Nat) : Vector :=
  let lbit := n * b
  let rbit := lbit + b
  let l := lbit / 64
  let r := rbit / 64
  if l = r ∨ (l + 1 = r ∧ rbit % 64 = 0) then
    ⟨[(d.getD l 0 >>> (lbit % 64)) &&& leastBits b], b⟩
  else if lbit % 64 = 0 then
    let retLen := nWords b 1
    let retBuf := copyRegion (List.replicate retLen 0) 0 ((d.drop l).take retLen)
    let nTrailingBits := rbit % 64
    let retBuf :=
      if nTrailingBits ≠ 0 then
        retBuf.set (retLen - 1) (retBuf.getD (retLen - 1) 0 &&& leastBits nTrailingBits)
      else retBuf
    ⟨retBuf, b⟩
  else
    let retLen := nWords b 1
    let leftOffset := lbit % 64
    let nLeftBits := 64 - leftOffset
    let leftBits := d.getD l 0 >>> leftOffset
    let nRightBits := rbit % 64
    let nTrailingBits := b % 64
    let retBuf := copyRegion (List.replicate retLen 0) 0 ((d.drop (l + 1)).take (r - (l + 1)))
    if nRightBits = 0 then
      ⟨retBuf.set (retLen - 1) leftBits, b⟩
    else if nLeftBits + nRightBits ≤ 64 then
      let w := setB (setB (retBuf.getD (retLen - 1) 0) 0 (d.getD r 0) nRightBits)
        nRightBits leftBits nLeftBits
      ⟨retBuf.set (retLen - 1) w, b⟩
    else
      let w2 := setB (setB (retBuf.getD (retLen - 2) 0) 0 (d.getD r 0) nRightBits)
        nRightBits leftBits (64 - nRightBits)
      let w1 := setB (retBuf.getD (retLen - 1) 0) 0 (leftBits >>> (64 - nRightBits)) nTrailingBits
      ⟨(retBuf.set (retLen - 2) w2).set (retLen - 1) w1, b⟩

/-- generalArray.Get. -/
def get (a : GeneralArray) (n : Int) : Except Err Vector :=
  if n < 0 ∨ (a.len : Int) ≤ n then .error .indexOutOfRange
  else .ok (getCore a.data a.bitNum n.toNat)

/-- The body of generalArray.Set after its checks: the updated buffer. -/
def setCore (d : List Nat) (b : Nat) (n : Nat) (v : Vector) : List Nat :=
  let lbit := n * b
  let rbit := lbit + b
  let l := lbit / 64
  let r := rbit / 64
  if l = r ∨ (l + 1 = r ∧ rbit % 64 = 0) then
    d.set l (setB (d.getD l 0) (lbit % 64) (v.data.getD 0 0) b)
  else if lbit % 64 = 0 then
    if rbit % 64 = 0 then
      copyRegion d l v.data
    else
      let vl := v.data.length
      let d1 := copyRegion d l (v.data.take (vl - 1))
      d1.set r (setB (d1.getD r 0) 0 (v.data.getD (vl - 1) 0) (b % 64))
  else
    let d1 := copyRegion d (l + 1) (v.data.take (r - (l + 1)))
    let lOffset := lbit % 64
    let leftNBits := 64 - lOffset
    let rightNBits := rbit % 64
    let bitNumRes := b % 64
    let vl := v.data.length
    if leftNBits < bitNumRes then
      let d2 := d1.set r (setB (d1.getD r 0) 0 (v.data.getD (vl - 1) 0) rightNBits)
      d2.set l (setB (d2.getD l 0) lOffset (v.data.getD (vl - 1) 0 >>> rightNBits) leftNBits)
    else if leftNBits = bitNumRes then
      d1.set l (setB (d1.getD l 0) lOffset (v.data.getD (vl - 1) 0) leftNBits)
    else
      let d2 := d1.set r (setB (d1.getD r 0) 0 (v.data.getD (vl - 2) 0) rightNBits)
      let d3 := d2.set l (setB (d2.getD l 0) lOffset (v.data.getD (vl - 2) 0 >>> rightNBits) (64 - rightNBits))
      d3.set l (setB (d3.getD l 0) (64 - bitNumRes) (v.data.getD (vl - 1) 0) bitNumRes)

/-- generalArray.Set. -/
def set (a : GeneralArray) (n : Int) (v : Vector) : Except Err GeneralArray :=
  if a.bitNum ≠ v.bitNum then .error .bitWidthMismatch
  else if n < 0 ∨ (a.len : Int) ≤ n then .error .indexOutOfRange
  else .ok { a with data := setCore a.data a.bitNum n.toNat v }

/-- Modelled from the spec: the package-level HammingDistance(a, n, v) called by
generalArray.HammingDistance (its file is not in src/): fails with
BitWidthMismatch / IndexOutOfRange as in section 4.2, else returns the popcount
of get(i) XOR v.  Throughout, a HammingDistance outcome is an
Option (Except Err Nat): some carries the (value, error) pair the Go method
returns, none marks a run that panics instead of returning; this variant
always returns. -/
def hammingDistance (a : GeneralArray) (n : Int) (v : Vector) :
    Option (Except Err Nat) :=
  some (if a.bitNum ≠ v.bitNum then .error .bitWidthMismatch
    else (a.get n).map (fun g => popcountV (g.xorV v)))

/-- generalArray.Save: version byte plus the {data, bitNum, len} record. -/
def save (a : GeneralArray) : SavedArray := ⟨1, a.data, a.bitNum, a.len⟩

end GeneralArray

/-- The single-word extraction shared by the smallBitsArray get and
HammingDistance code paths (array.go lines 294-349): either the element lies
inside one word, or its two pieces are recombined with the piece from the
right word in the low bits. -/
def extractW (d : List Nat) (b n : Nat) : Nat :=
  let lbit := n * b
  let rbit := lbit + b
  let l := lbit / 64
  let r := rbit / 64
  let nRightBits := rbit % 64
  let loffset := lbit % 64
  if l = r ∨ nRightBits = 0 then (d.getD l 0 >>> loffset) &&& leastBits b
  else (d.getD r 0 &&& leastBits nRightBits) ||| ((d.getD l 0 >>> loffset) <<< nRightBits)

/-- Go smallBitsArray: bitNum < 64, not handled by the power-of-two path. -/
structure SmallBitsArray where
  ga : GeneralArray
deriving DecidableEq

namespace SmallBitsArray

/-- smallBitsArray.Resize. -/
def resize (a : SmallBitsArray) (n : Nat) : SmallBitsArray := ⟨a.ga.resize n⟩

/-- The word extracted by smallBitsArray.get / HammingDistance for row n. -/
def extract (a : SmallBitsArray) (n : Nat) : Nat := extractW a.ga.data a.ga.bitNum n

/-- smallBitsArray.HammingDistance (both checks present; never panics). -/
def hammingDistance (a : SmallBitsArray) (n : Int) (v : Vector) :
    Option (Except Err Nat) :=
  some (if a.ga.bitNum ≠ v.bitNum then .error .bitWidthMismatch
    else if n < 0 ∨ (a.ga.len : Int) ≤ n then .error .indexOutOfRange
    else .ok (bitcount (a.extract n.toNat ^^^ v.data.getD 0 0)))

/-- smallBitsArray.Get (via the lowercase get). -/
def get (a : SmallBitsArray) (n : Int) : Except Err Vector :=
  if n < 0 ∨ (a.ga.len : Int) ≤ n then .error .indexOutOfRange
  else
    let v := NewVector a.ga.bitNum
    .ok ⟨v.data.set 0 (a.extract n.toNat), v.bitNum⟩

/-- The body of smallBitsArray.Set after its checks: the updated buffer. -/
def setCore (d : List Nat) (b : Nat) (n : Nat) (v : Vector) : List Nat :=
  let lbit := n * b
  let rbit := lbit + b
  let l := lbit / 64
  let r := rbit / 64
  let nRightBits := rbit % 64
  if l = r ∨ nRightBits = 0 then
    d.set l (setB (d.getD l 0) (lbit % 64) (v.data.getD 0 0) b)
  else
    let d1 := d.set r (setB (d.getD r 0) 0 (v.data.getD 0 0) nRightBits)
    d1.set l (setB (d1.getD l 0) (lbit % 64) (v.data.getD 0 0 >>> nRightBits) (b - nRightBits))

/-- smallBitsArray.Set. -/
def set (a : SmallBitsArray) (n : Int) (v : Vector) : Except Err SmallBitsArray :=
  if a.ga.bitNum ≠ v.bitNum then .error .bitWidthMismatch
  else if n < 0 ∨ (a.ga.len : Int) ≤ n then .error .indexOutOfRange
  else .ok ⟨{ a.ga with data := setCore a.ga.data a.ga.bitNum n.toNat v }⟩

/-- smallBitsArray.Save delegates to the wrapped generalArray. -/
def save (a : SmallBitsArray) : SavedArray := a.ga.save

end SmallBitsArray

/-- Go wordArray: one word per element.  The Go slice is embedded as the full
underlying allocation (store, zero-filled by the allocator at creation) plus
the slice length dataLen; reslicing within capacity re-exposes store. -/
structure WordArray where
  store : List Nat
  dataLen : Nat
deriving DecidableEq

namespace WordArray

/-- The Go slice a.data. -/
def dataW (a : WordArray) : List Nat := a.store.take a.dataLen

/-- wordArray.Resize. -/
def resize (a : WordArray) (n : Nat) : WordArray :=
  if n ≤ a.store.length then { a with dataLen := n }
  else ⟨copyRegion (List.replicate (2 * maxInt a.store.length n) 0) 0 a.dataW, n⟩

/-- wordArray.HammingDistance (both checks present; never panics). -/
def hammingDistance (a : WordArray) (n : Int) (v : Vector) :
    Option (Except Err Nat) :=
  some (if v.bitNum ≠ 64 then .error .bitWidthMismatch
    else if n < 0 ∨ (a.dataLen : Int) ≤ n then .error .indexOutOfRange
    else .ok (bitcount (a.dataW.getD n.toNat 0 ^^^ v.data.getD 0 0)))

/-- wordArray.Get: returns a view of the word at row n. -/
def get (a : WordArray) (n : Int) : Except Err Vector :=
  if n < 0 ∨ (a.dataLen : Int) ≤ n then .error .indexOutOfRange
  else .ok ⟨[a.dataW.getD n.toNat 0], 64⟩

/-- wordArray.Set. -/
def set (a : WordArray) (n : Int) (v : Vector) : Except Err WordArray :=
  if v.bitNum ≠ 64 then .error .bitWidthMismatch
  else if n < 0 ∨ (a.dataLen : Int) ≤ n then .error .indexOutOfRange
  else .ok { a with store := a.store.set n.toNat (v.data.getD 0 0) }

/-- wordArray.Save (through a temporary generalArray). -/
def save (a : WordArray) : SavedArray := ⟨1, a.dataW, 64, a.dataLen⟩

end WordArray

/-- Go smallPowerOfTwoBitsArray: bitNum in {1,2,4,8,16,32}; elements never
straddle a word. -/
structure SmallPow2Array where
  data : List Nat
  bitNum : Nat
  len : Nat
deriving DecidableEq

namespace SmallPow2Array

/-- smallPowerOfTwoBitsArray.Resize. -/
def resize (a : SmallPow2Array) (n : Nat) : SmallPow2Array :=
  let newDataLen := nWords a.bitNum n
  if newDataLen ≤ a.data.length then { a with len := n }
  else ⟨copyRegion (List.replicate (2 * maxInt a.data.length newDataLen) 0) 0 a.data, a.bitNum, n⟩

/-- smallPowerOfTwoBitsArray.get (lowercase): shift and mask within one word. -/
def getWord (a : SmallPow2Array) (n : Nat) : Nat :=
  let nelems := 64 / a.bitNum
  (a.data.getD (n / nelems) 0 >>> (n % nelems * a.bitNum)) &&& leastBits a.bitNum

/-- smallPowerOfTwoBitsArray.Get. -/
def get (a : SmallPow2Array) (n : Int) : Except Err Vector :=
  if n < 0 ∨ (a.len : Int) ≤ n then .error .indexOutOfRange
  else
    let v := NewVector a.bitNum
    .ok ⟨v.data.set 0 (a.getWord n.toNat), v.bitNum⟩

/-- smallPowerOfTwoBitsArray.HammingDistance: per-width fixed popcount paths.
The uint16 / uint32 casts of the source are the explicit mod-2^16 / mod-2^32.
Both checks present; never panics. -/
def hammingDistance (a : SmallPow2Array) (n : Int) (v : Vector) :
    Option (Except Err Nat) :=
  some (
    if a.bitNum ≠ v.bitNum then .error .bitWidthMismatch
    else if n < 0 ∨ (a.len : Int) ≤ n then .error .indexOutOfRange
    else
      let n := n.toNat
      let v0 := v.data.getD 0 0
      if a.bitNum = 1 then .ok (((a.data.getD (n / 64) 0 >>> (n % 64)) &&& 1) ^^^ v0)
      else if a.bitNum = 2 then
        .ok (bitcount16 ((((a.data.getD (n / 32) 0 >>> (2 * (n % 32))) &&& 3) ^^^ v0) % 2 ^ 16))
      else if a.bitNum = 4 then
        .ok (bitcount16 ((((a.data.getD (n / 16) 0 >>> (4 * (n % 16))) &&& 15) ^^^ v0) % 2 ^ 16))
      else if a.bitNum = 8 then
        .ok (bitcount16 ((((a.data.getD (n / 8) 0 >>> (8 * (n % 8))) &&& 255) ^^^ v0) % 2 ^ 16))
      else if a.bitNum = 16 then
        .ok (bitcount16 ((a.data.getD (n / 4) 0 >>> (16 * (n % 4))) % 2 ^ 16 ^^^ v0 % 2 ^ 16))
      else if a.bitNum = 32 then
        .ok (bitcount32 ((a.data.getD (n / 2) 0 >>> (32 * (n % 2))) % 2 ^ 32 ^^^ v0 % 2 ^ 32))
      else .error .invalidBitNum)

/-- The body of smallPowerOfTwoBitsArray.Set after its checks: the updated
buffer (clear the slot with the complemented shifted mask, then or in). -/
def setCore (d : List Nat) (b : Nat) (n : Nat) (v : Vector) : List Nat :=
  let nelems := 64 / b
  let mask := leastBits b
  let offset := n % nelems * b
  let w := (d.getD (n / nelems) 0 &&& compl64 (mask <<< offset)) ||| (v.data.getD 0 0 <<< offset)
  d.set (n / nelems) w

/-- smallPowerOfTwoBitsArray.Set. -/
def set (a : SmallPow2Array) (n : Int) (v : Vector) : Except Err SmallPow2Array :=
  if a.bitNum ≠ v.bitNum then .error .bitWidthMismatch
  else if n < 0 ∨ (a.len : Int) ≤ n then .error .indexOutOfRange
  else .ok { a with data := setCore a.data a.bitNum n.toNat v }

/-- smallPowerOfTwoBitsArray.Save (through a temporary generalArray). -/
def save (a : SmallPow2Array) : SavedArray := ⟨1, a.data, a.bitNum, a.len⟩

end SmallPow2Array

/-- Go multipleOfWordBitsArray: each element spans exactly bitNum/64 words.
Slice embedded as store plus slice length dataLen, as for wordArray. -/
structure MultiWordArray where
  store : List Nat
  dataLen : Nat
  bitNum : Nat
deriving DecidableEq

namespace MultiWordArray

/-- The Go slice a.data. -/
def dataW (a : MultiWordArray) : List Nat := a.store.take a.dataLen

/-- multipleOfWordBitsArray.Len. -/
def lenA (a : MultiWordArray) : Nat := a.dataLen / (a.bitNum / 64)

/-- multipleOfWordBitsArray.Resize. -/
def resize (a : MultiWordArray) (n : Nat) : MultiWordArray :=
  let newLen := n * (a.bitNum / 64)
  if newLen ≤ a.store.length then { a with dataLen := newLen }
  else ⟨copyRegion (List.replicate (2 * maxInt a.store.length newLen) 0) 0 a.dataW, newLen, a.bitNum⟩

/-- multipleOfWordBitsArray.HammingDistance.  The source deliberately omits the
upper-bound index check (its comment: omit n >= a.Len() because a.Len() is
slow); only n < 0 is rejected, and the loop then indexes a.data[n*nw+i]
directly for i < nw.  When the last of those indices, n*nw+nw-1, falls at or
beyond the slice length, the source panics at run time with index out of
range; that crash is the none outcome, a normal return is some. -/
def hammingDistance (a : MultiWordArray) (n : Int) (v : Vector) :
    Option (Except Err Nat) :=
  if a.bitNum ≠ v.bitNum then some (.error .bitWidthMismatch)
  else if n < 0 then some (.error .indexOutOfRange)
  else
    let n := n.toNat
    let nw := a.bitNum / 64
    if n * nw + nw ≤ a.dataLen then
      some (.ok (((List.range nw).map
        (fun i => bitcount (a.dataW.getD (n * nw + i) 0 ^^^ v.data.getD i 0))).sum))
    else none

/-- multipleOfWordBitsArray.Get. -/
def get (a : MultiWordArray) (n : Int) : Except Err Vector :=
  if n < 0 ∨ (a.lenA : Int) ≤ n then .error .indexOutOfRange
  else
    let n := n.toNat
    let nw := a.bitNum / 64
    let v := NewVector a.bitNum
    .ok ⟨copyRegion v.data 0 ((a.dataW.drop (n * nw)).take v.data.length), a.bitNum⟩

/-- multipleOfWordBitsArray.Set. -/
def set (a : MultiWordArray) (n : Int) (v : Vector) : Except Err MultiWordArray :=
  if a.bitNum ≠ v.bitNum then .error .bitWidthMismatch
  else if n < 0 ∨ (a.lenA : Int) ≤ n then .error .indexOutOfRange
  else
    let nw := a.bitNum / 64
    let start := n.toNat * nw
    .ok { a with store := copyRegion a.store start (v.data.take (a.dataLen - start)) }

/-- multipleOfWordBitsArray.Save (through a temporary generalArray). -/
def save (a : MultiWordArray) : SavedArray := ⟨1, a.dataW, a.bitNum, a.lenA⟩

end MultiWordArray

/-- The closed set of packed-array specializations behind the Array interface. -/
inductive Arr where
  | general (g : GeneralArray)
  | smallBits (s : SmallBitsArray)
  | word (w : WordArray)
  | smallPow2 (p : SmallPow2Array)
  | multiWord (m : MultiWordArray)
deriving DecidableEq

namespace Arr

/-- Array.Len. -/
def lenA : Arr → Nat
  | general g => g.len
  | smallBits s => s.ga.len
  | word w => w.dataLen
  | smallPow2 p => p.len
  | multiWord m => m.lenA

/-- Array.BitNum. -/
def bitNumA : Arr → Nat
  | general g => g.bitNum
  | smallBits s => s.ga.bitNum
  | word _ => 64
  | smallPow2 p => p.bitNum
  | multiWord m => m.bitNum

/-- The visible word buffer (what Save persists as data). -/
def raw : Arr → List Nat
  | general g => g.data
  | smallBits s => s.ga.data
  | word w => w.dataW
  | smallPow2 p => p.data
  | multiWord m => m.dataW

/-- Array.Resize. -/
def resize : Arr → Nat → Arr
  | general g, n => general (g.resize n)
  | smallBits s, n => smallBits (s.resize n)
  | word w, n => word (w.resize n)
  | smallPow2 p, n => smallPow2 (p.resize n)
  | multiWord m, n => multiWord (m.resize n)

/-- Array.Get. -/
def get : Arr → Int → Except Err Vector
  | general g, n => g.get n
  | smallBits s, n => s.get n
  | word w, n => w.get n
  | smallPow2 p, n => p.get n
  | multiWord m, n => m.get n

/-- Array.Set. -/
def set : Arr → Int → Vector → Except Err Arr
  | general g, n, v => (g.set n v).map general
  | smallBits s, n, v => (s.set n v).map smallBits
  | word w, n, v => (w.set n v).map word
  | smallPow2 p, n, v => (p.set n v).map smallPow2
  | multiWord m, n, v => (m.set n v).map multiWord

/-- Array.HammingDistance (none marks the multiple-of-word panic path). -/
def hammingDistance : Arr → Int → Vector → Option (Except Err Nat)
  | general g, n, v => g.hammingDistance n v
  | smallBits s, n, v => s.hammingDistance n v
  | word w, n, v => w.hammingDistance n v
  | smallPow2 p, n, v => p.hammingDistance n v
  | multiWord m, n, v => m.hammingDistance n v

/-- Array.Save. -/
def save : Arr → SavedArray
  | general g => g.save
  | smallBits s => s.save
  | word w => w.save
  | smallPow2 p => p.save
  | multiWord m => m.save

/-- Whether this is the multi-word-aligned specialization. -/
def isMultiWord : Arr → Bool
  | multiWord _ => true
  | _ => false

/-- Whether this is the power-of-two-packed specialization. -/
def isSmallPow2 : Arr → Bool
  | smallPow2 _ => true
  | _ => false

/-- Whether this is the small general-packed specialization. -/
def isSmallBits : Arr → Bool
  | smallBits _ => true
  | _ => false

/-- The general-packed baseline view of an array's raw storage: the cross-check
reference of the spec compares every specialization against the general
algorithm run on the same buffer, bit width and length. -/
def baseline (a : Arr) : GeneralArray := ⟨a.raw, a.bitNumA, a.lenA⟩

end Arr

/-- createArray (array.go): dispatch on bitNum.  Note the power-of-two test of
the source is bitNum XOR (bitNum-1) == 0 (Go ^ is XOR).  A non-positive bitNum
yields nil (none); len is embedded as Nat so the len < 0 rejection of the
source cannot fire. -/
def createArray (data : List Nat) (bitNum : Nat) (len : Nat) : Option Arr :=
  if bitNum = 0 then none
  else if bitNum < 64 then
    if bitNum ^^^ (bitNum - 1) = 0 then some (.smallPow2 ⟨data, bitNum, len⟩)
    else some (.smallBits ⟨⟨data, bitNum, len⟩⟩)
  else if bitNum = 64 then some (.word ⟨data, data.length⟩)
  else if bitNum % 64 = 0 then some (.multiWord ⟨data, data.length, bitNum⟩)
  else some (.general ⟨data, bitNum, len⟩)

/-- NewArray (array.go). -/
def NewArray (bitNum : Nat) : Option Arr := createArray [] bitNum 0

/-- LoadArray (array.go): version dispatch, then createArray from the decoded
record. -/
def loadArray (s : SavedArray) : Except Err (Option Arr) :=
  if s.formatVersion = 1 then .ok (createArray s.data s.bitNum s.len)
  else .error .unsupportedFormatVersion

/-- Well-formedness of an array value, as established by its construction:
64-bit words in the buffer, a bitNum legal for the variant, and the slice
bookkeeping of the Go representation. -/
def ArrWf : Arr → Prop
  | .general g => 1 ≤ g.bitNum ∧ g.bitNum % 64 ≠ 0 ∧ ∀ w ∈ g.data, w < 2 ^ 64
  | .smallBits s => 1 ≤ s.ga.bitNum ∧ s.ga.bitNum < 64 ∧ ∀ w ∈ s.ga.data, w < 2 ^ 64
  | .word w => w.dataLen ≤ w.store.length ∧ ∀ x ∈ w.store, x < 2 ^ 64
  | .smallPow2 p =>
      (p.bitNum = 1 ∨ p.bitNum = 2 ∨ p.bitNum = 4 ∨ p.bitNum = 8 ∨ p.bitNum = 16 ∨ p.bitNum = 32) ∧
      ∀ w ∈ p.data, w < 2 ^ 64
  | .multiWord m => 128 ≤ m.bitNum ∧ m.bitNum % 64 = 0 ∧ m.dataLen ≤ m.store.length ∧
      (m.bitNum / 64) ∣ m.dataLen ∧ ∀ w ∈ m.store, w < 2 ^ 64

instance : DecidablePred ArrWf := fun a => by cases a <;> (unfold ArrWf; infer_instance)

/-- Every bit at or beyond the logical end of the array reads as zero — for the
slice-backed variants this covers the hidden capacity of the store as well.
This holds along histories whose logical length never shrinks. -/
def ZeroTail : Arr → Prop
  | .general g => ∀ j, g.len * g.bitNum ≤ j → bitAt g.data j = false
  | .smallBits s => ∀ j, s.ga.len * s.ga.bitNum ≤ j → bitAt s.ga.data j = false
  | .word w => ∀ j, w.dataLen ≤ j → w.store.getD j 0 = 0
  | .smallPow2 p => ∀ j, p.len * p.bitNum ≤ j → bitAt p.data j = false
  | .multiWord m => ∀ j, m.dataLen ≤ j → m.store.getD j 0 = 0

/-!  The Euclid-LSH layer (src/internal/nearest/euclid_lsh.go).  Float values
are embedded as rationals; the float32 arithmetic of randomProjection carries
explicit IEEE-754 binary32 rounding (round32 / addF32 / mulF32 below: every
operation is the correctly rounded exact result, round to nearest, ties to
even).  cos, sqrt and pi, and the deterministic per-dimension-name Gaussian
draws (calcStringHash feeding a seeded rand.NormFloat64 stream, whose files
are not in src/) are abstracted as the parameter structure RealOps: draw j
for dimension name d is gauss d j, a pure function of the name and the index,
which is exactly the determinism the spec requires of it. -/

/-- Abstracted real-valued primitives of the LSH layer. -/
structure RealOps where
  cosF : ℚ → ℚ
  sqrtF : ℚ → ℚ
  piF : ℚ
  gauss : String → Nat → ℚ

/-- Modelled from the spec: a feature vector is a sequence of
(dimension name, weight) entries (nearest package type, file not in src/). -/
def FeatureVector : Type := List (String × ℚ)

/-- Modelled from the spec: an (external row id, distance) result pair
(nearest package type IDist, file not in src/). -/
structure IDist where
  id : Nat
  dist : ℚ
deriving DecidableEq

/-- Ordering used by sortByDist: ascending by the Dist field. -/
def distLe (a b : IDist) : Prop := a.dist ≤ b.dist

instance : DecidableRel distLe := fun a b => by unfold distLe; infer_instance

instance : IsTotal IDist distLe := ⟨fun a b => le_total a.dist b.dist⟩

instance : IsTrans IDist distLe := ⟨fun _ _ _ hab hbc => le_trans hab hbc⟩

/-- Modelled from the spec: sort.Sort(sortByDist(buf)) sorts ascending by
score (nearest package helper, file not in src/). -/
def sortByDist (l : List IDist) : List IDist := List.insertionSort distLe l

/-- EuclidLSH state: the sketch array and the parallel norms sequence.
The norms slice is embedded as a plain list: every growth path of the source
zero-fills fresh capacity and the norms length never shrinks. -/
structure EuclidLSH where
  lshs : Arr
  norms : List ℚ

/-- NewEuclidLSH (euclid_lsh.go); none when NewArray rejects hashNum <= 0. -/
def NewEuclidLSH (hashNum : Nat) : Option EuclidLSH :=
  (NewArray hashNum).map (fun a => ⟨a, []⟩)

/-- Floor of the base-2 logarithm of a rational, exact for positive input:
flog2 a is the e with 2^e <= a < 2^(e+1). -/
def flog2 (a : ℚ) : Int :=
  let c : Int := (Nat.log2 a.num.toNat : Int) - (Nat.log2 a.den : Int)
  if 2 ^ c ≤ a then c else c - 1

/-- Round a rational to an integer: nearest, ties to even. -/
def rne (q : ℚ) : Int :=
  let f := ⌊q⌋
  let r := q - f
  if r < 1 / 2 then f
  else if 1 / 2 < r then f + 1
  else if f % 2 = 0 then f else f + 1

/-- IEEE-754 binary32 rounding of a positive rational: snap to the grid of
spacing 2^(e-23) where e is the exponent of a, clamped below at -126 (the
subnormal range), rounding to nearest with ties to even.  The overflow to
infinity beyond the finite float32 range is not modelled: the grid continues
upward, and nothing proved below depends on that region. -/
def round32Pos (a : ℚ) : ℚ :=
  let e := max (flog2 a) (-126)
  (rne (a / 2 ^ (e - 23)) : ℚ) * 2 ^ (e - 23)

/-- binary32 rounding of a rational: the float32 conversion, and the rounding
step of each float32 arithmetic operation (IEEE operations return the
correctly rounded exact result). -/
def round32 (q : ℚ) : ℚ :=
  if q = 0 then 0
  else if q < 0 then -(round32Pos (-q)) else round32Pos q

/-- float32 addition: the exact sum, correctly rounded. -/
def addF32 (x y : ℚ) : ℚ := round32 (x + y)

/-- float32 multiplication: the exact product, correctly rounded. -/
def mulF32 (x y : ℚ) : ℚ := round32 (x * y)

/-- randomProjection (euclid_lsh.go): for each (dim, weight) entry, the
float64 draw gauss(dim, j) is converted to float32 and multiplied by the
weight in float32, and proj[j] += accumulates the products in float32, in
entry order. -/
def randomProjection (R : RealOps) (v : FeatureVector) (hashNum : Nat) : List ℚ :=
  v.foldl (fun proj p => proj.mapIdx (fun j acc =>
      addF32 acc (mulF32 p.2 (round32 (R.gauss p.1 j)))))
    (List.replicate hashNum 0)

/-- Go loop of binarize: set bit i when proj[i] > 0. -/
def binarizeAux : Vector → List ℚ → Nat → Vector
  | ret, [], _ => ret
  | ret, x :: rest, i => binarizeAux (if 0 < x then ret.setBit i else ret) rest (i + 1)

/-- binarize (euclid_lsh.go). -/
def binarize (proj : List ℚ) : Vector := binarizeAux (NewVector proj.length) proj 0

/-- cosineLSH (euclid_lsh.go). -/
def cosineLSH (R : RealOps) (v : FeatureVector) (hashNum : Nat) : Vector :=
  binarize (randomProjection R v hashNum)

/-- squaredL2Norm (euclid_lsh.go). -/
def squaredL2Norm (v : FeatureVector) : ℚ := v.foldl (fun acc p => acc + p.2 * p.2) 0

/-- l2Norm (euclid_lsh.go), with sqrt32 abstracted. -/
def l2Norm (R : RealOps) (v : FeatureVector) : ℚ := R.sqrtF (squaredL2Norm v)

/-- Go slice-resize of the norms sequence inside extend: reslice within
capacity (re-exposing zero-filled memory) or allocate, copy and zero-fill. -/
def normsResize (ns : List ℚ) (n : Nat) : List ℚ :=
  ns.take n ++ List.replicate (n - ns.length) 0

/-- EuclidLSH.extend (euclid_lsh.go): grow sketch array and norms together. -/
def extend (e : EuclidLSH) (n : Nat) : EuclidLSH :=
  if e.lshs.lenA < n then ⟨e.lshs.resize n, normsResize e.norms n⟩ else e

/-- The internal sketch-array Set call of SetRow, whose error result the
source discards. -/
def setRowSetCall (R : RealOps) (e1 : EuclidLSH) (id : Nat) (v : FeatureVector) :
    Except Err Arr :=
  e1.lshs.set ((id : Int) - 1) (cosineLSH R v e1.lshs.bitNumA)

/-- EuclidLSH.SetRow (euclid_lsh.go).  The Set error is discarded; on error the
array is left unchanged. -/
def SetRow (R : RealOps) (e : EuclidLSH) (id : Nat) (v : FeatureVector) : EuclidLSH :=
  let e1 := if e.norms.length < id then extend e id else e
  ⟨(setRowSetCall R e1 id v).toOption.getD e1.lshs,
    e1.norms.set (id - 1) (l2Norm R v)⟩

/-- How the query loop consumes a HammingDistance outcome: the source uses the
returned value as a plain int; the error and, for the multiple-of-word
variant, the panic outcome read as 0 here, and both are unreachable for the
states the claims quantify over (the loop index i stays below Len and the
query sketch has the array's width). -/
def hamValue (o : Option (Except Err Nat)) : Nat :=
  (o.getD (.ok 0)).toOption.getD 0

/-- EuclidLSH.neighborRowFromHash (euclid_lsh.go).  The Hamming distance is
consumed as a plain value by the source. -/
def neighborRowFromHash (R : RealOps) (e : EuclidLSH) (x : Vector) (norm : ℚ)
    (size : Nat) : List IDist :=
  let buf := (List.range e.norms.length).map (fun (i : Nat) =>
    let hDist := hamValue (e.lshs.hammingDistance (Int.ofNat i) x)
    let theta := (hDist : ℚ) * R.piF / (e.lshs.bitNumA : ℚ)
    ⟨i + 1, e.norms.getD i 0 * (e.norms.getD i 0 - 2 * norm * R.cosF theta)⟩)
  let sorted := sortByDist buf
  (sorted.take (minInt size sorted.length)).map
    (fun p => ⟨p.id, R.sqrtF (norm * norm + p.dist)⟩)

/-- EuclidLSH.NeighborRowFromID (euclid_lsh.go): look the sketch and norm up,
then run the scan; a Get failure propagates. -/
def NeighborRowFromID (R : RealOps) (e : EuclidLSH) (id : Nat) (size : Nat) :
    Except Err (List IDist) :=
  (e.lshs.get ((id : Int) - 1)).map
    (fun g => neighborRowFromHash R e g (e.norms.getD (id - 1) 0) size)

/-- EuclidLSH.NeighborRowFromFV (euclid_lsh.go). -/
def NeighborRowFromFV (R : RealOps) (e : EuclidLSH) (v : FeatureVector) (size : Nat) :
    List IDist :=
  neighborRowFromHash R e (cosineLSH R v e.lshs.bitNumA) (l2Norm R v) size

/-- NeighborRowFromFV with its post-state: the method body of the source
performs no assignment to the receiver, so the post-state is the receiver. -/
def NeighborRowFromFVS (R : RealOps) (e : EuclidLSH) (v : FeatureVector) (size : Nat) :
    List IDist × EuclidLSH :=
  (NeighborRowFromFV R e v size, e)

/-- NeighborRowFromID with its post-state; as for NeighborRowFromFVS the source
method only reads the receiver. -/
def NeighborRowFromIDS (R : RealOps) (e : EuclidLSH) (id : Nat) (size : Nat) :
    Except Err (List IDist) × EuclidLSH :=
  (NeighborRowFromID R e id size, e)

/-- Persisted form of an EuclidLSH: the {formatVersion, norms} record followed
by the packed array's own persisted bytes. -/
structure SavedLSH where
  formatVersion : Nat
  norms : List ℚ
  arr : SavedArray

/-- EuclidLSH.save (euclid_lsh.go). -/
def saveLSH (e : EuclidLSH) : SavedLSH := ⟨1, e.norms, e.lshs.save⟩

/-- loadEuclidLSH (euclid_lsh.go).  A record whose bitNum makes createArray
return nil is mapped to an error here (the source would construct an index
with a nil array, unusable on any later call); this is unreachable from saved
states. -/
def loadLSH (s : SavedLSH) : Except Err EuclidLSH :=
  if s.formatVersion = 1 then
    match loadArray s.arr with
    | .error e => .error e
    | .ok none => .error .invalidBitNum
    | .ok (some a) => .ok ⟨a, s.norms⟩
  else .error .unsupportedFormatVersion

/-- States of the LSH index reachable through its public lifecycle:
construction, SetRow, and reloading a persisted state. -/
inductive Reach (R : RealOps) : EuclidLSH → Prop
  | new (hashNum : Nat) (a : Arr) : createArray [] hashNum 0 = some a → Reach R ⟨a, []⟩
  | setRow (e : EuclidLSH) (id : Nat) (v : FeatureVector) :
      Reach R e → 1 ≤ id → Reach R (SetRow R e id v)
  | load (e e' : EuclidLSH) : Reach R e → loadLSH (saveLSH e) = .ok e' → Reach R e'

/-- The structural facts every reachable LSH state enjoys. -/
def StateWf (e : EuclidLSH) : Prop :=
  ArrWf e.lshs ∧ e.norms.length = e.lshs.lenA ∧ 1 ≤ e.lshs.bitNumA

instance : DecidablePred StateWf := fun e => by unfold StateWf; infer_instance

/-- Packed arrays reachable from a fresh array by resize/set histories in
which the logical length never shrinks.  Fresh power-of-two arrays are
included directly since createArray's dispatch never produces them. -/
inductive MonoReach : Arr → Prop
  | new (bitNum : Nat) (a : Arr) : createArray [] bitNum 0 = some a → MonoReach a
  | newPow2 (b : Nat) :
      (b = 1 ∨ b = 2 ∨ b = 4 ∨ b = 8 ∨ b = 16 ∨ b = 32) →
      MonoReach (.smallPow2 ⟨[], b, 0⟩)
  | resizeStep (a : Arr) (n : Nat) : MonoReach a → a.lenA ≤ n → MonoReach (a.resize n)
  | setStep (a : Arr) (n : Int) (v : Vector) (a' : Arr) :
      MonoReach a → VWf v → a.set n v = .ok a' → MonoReach a'

/-! Toolkit lemmas: list reads, copyRegion, testBit reasoning, setB, valW,
popcountW. -/

theorem getD_set (l : List Nat) (i j x : Nat) :
    (l.set i x).getD j 0 = if i = j ∧ i < l.length then x else l.getD j 0 := by
  simp only [List.getD_eq_getElem?_getD, List.getElem?_set]
  by_cases h : i = j
  · subst h
    by_cases h2 : i < l.length
    · simp [h2]
    · have h3 : l[i]? = none := List.getElem?_eq_none (by omega)
      simp [h2, h3]
  · rw [if_neg h, if_neg (fun hc => h hc.1)]

theorem getD_drop (l : List Nat) (i j : Nat) : (l.drop i).getD j 0 = l.getD (i + j) 0 := by
  simp [List.getD_eq_getElem?_getD, List.getElem?_drop]

theorem getD_take (l : List Nat) (n j : Nat) :
    (l.take n).getD j 0 = if j < n then l.getD j 0 else 0 := by
  simp only [List.getD_eq_getElem?_getD, List.getElem?_take]
  split <;> rfl

theorem getD_replicate (n j : Nat) : (List.replicate n (0 : Nat)).getD j 0 = 0 := by
  simp only [List.getD_eq_getElem?_getD, List.getElem?_replicate]
  split <;> rfl

theorem getD_beyond (l : List Nat) (j : Nat) (h : l.length ≤ j) : l.getD j 0 = 0 := by
  simp [List.getD_eq_getElem?_getD, List.getElem?_eq_none h]

theorem copyRegion_length (src d : List Nat) (s : Nat) :
    (copyRegion d s src).length = d.length := by
  induction src generalizing d s with
  | nil => rfl
  | cons w ws ih =>
    unfold copyRegion
    split
    · rw [ih, List.length_set]
    · rfl

theorem copyRegion_getD (src d : List Nat) (s j : Nat) :
    (copyRegion d s src).getD j 0 =
      if s ≤ j ∧ j < s + src.length ∧ j < d.length then src.getD (j - s) 0
      else d.getD j 0 := by
  induction src generalizing d s with
  | nil =>
    have hc : ¬ (s ≤ j ∧ j < s + ([] : List Nat).length ∧ j < d.length) := by
      simp only [List.length_nil, Nat.add_zero]
      omega
    rw [if_neg hc]
    rfl
  | cons w ws ih =>
    unfold copyRegion
    split
    · next hs =>
      rw [ih, List.length_set, getD_set]
      simp only [List.length_cons]
      split_ifs with h1 h2 h3 h4 h5
      · have : j - s = (j - (s + 1)) + 1 := by omega
        rw [this]
        rfl
      · omega
      · have : j - s = 0 := by omega
        rw [this]
        rfl
      · omega
      · omega
      · rfl
    · next hs =>
      rw [if_neg (by omega)]

theorem copyRegion_replicate_getD (L : Nat) (src : List Nat) (j : Nat) :
    (copyRegion (List.replicate L 0) 0 src).getD j 0 = if j < L then src.getD j 0 else 0 := by
  rw [copyRegion_getD]
  simp only [List.length_replicate, Nat.zero_le, true_and, Nat.zero_add]
  by_cases hL : j < L
  · by_cases hs : j < src.length
    · rw [if_pos ⟨hs, hL⟩, if_pos hL]
      simp
    · rw [if_neg (by omega), if_pos hL, getD_replicate, getD_beyond _ _ (by omega)]
  · rw [if_neg (by omega), if_neg hL, getD_replicate]

theorem testBit_high {x n i : Nat} (h : x < 2 ^ n) (hi : n ≤ i) : x.testBit i = false :=
  Nat.testBit_eq_false_of_lt (lt_of_lt_of_le h (Nat.pow_le_pow_right (by norm_num) hi))

theorem lt_two_pow_of_high {x n : Nat} (h : ∀ i, n ≤ i → x.testBit i = false) : x < 2 ^ n := by
  have hx : x % 2 ^ n = x := by
    refine Nat.eq_of_testBit_eq fun i => ?_
    rw [Nat.testBit_mod_two_pow]
    by_cases hi : i < n
    · simp [hi]
    · simp [hi, h i (le_of_not_lt hi)]
  calc x = x % 2 ^ n := hx.symm
    _ < 2 ^ n := Nat.mod_lt _ (by positivity)

theorem testBit_add_mul_pow {a b k : Nat} (ha : a < 2 ^ k) (j : Nat) :
    (a + b * 2 ^ k).testBit j = if j < k then a.testBit j else b.testBit (j - k) := by
  by_cases hj : j < k
  · rw [if_pos hj]
    have h1 : (a + b * 2 ^ k) % 2 ^ k = a := by
      rw [Nat.add_mul_mod_self_right, Nat.mod_eq_of_lt ha]
    have h2 : a.testBit j = (decide (j < k) && (a + b * 2 ^ k).testBit j) := by
      rw [← Nat.testBit_mod_two_pow, h1]
    simp only [hj] at h2
    simpa using h2.symm
  · rw [if_neg hj]
    have hd : (a + b * 2 ^ k) >>> k = b := by
      rw [Nat.shiftRight_eq_div_pow, Nat.add_mul_div_right _ _ (by positivity),
        Nat.div_eq_of_lt ha, Nat.zero_add]
    have h3 := @Nat.testBit_shiftRight k (j - k) (a + b * 2 ^ k)
    rw [hd] at h3
    have hj' : k + (j - k) = j := by omega
    rw [hj'] at h3
    exact h3.symm

theorem valW_cons (w : Nat) (ws : List Nat) : valW (w :: ws) = w + valW ws * 2 ^ 64 := rfl

theorem valW_testBit (ws : List Nat) (h : ∀ w ∈ ws, w < 2 ^ 64) (j : Nat) :
    (valW ws).testBit j = (ws.getD (j / 64) 0).testBit (j % 64) := by
  induction ws generalizing j with
  | nil => simp [valW, Nat.zero_testBit]
  | cons w ws ih =>
    rw [valW_cons, testBit_add_mul_pow (h w (by simp))]
    by_cases hj : j < 64
    · rw [if_pos hj, Nat.div_eq_of_lt hj, Nat.mod_eq_of_lt hj]
      simp
    · rw [if_neg hj, ih (fun x hx => h x (by simp [hx])) (j - 64)]
      have e1 : j / 64 = (j - 64) / 64 + 1 := by omega
      have e2 : j % 64 = (j - 64) % 64 := by omega
      rw [e1, e2]
      simp

theorem valW_lt (ws : List Nat) (h : ∀ w ∈ ws, w < 2 ^ 64) :
    valW ws < 2 ^ (64 * ws.length) := by
  refine lt_two_pow_of_high fun i hi => ?_
  rw [valW_testBit ws h]
  have hd : ws.length ≤ i / 64 := (Nat.le_div_iff_mul_le (by norm_num)).mpr (by omega)
  rw [getD_beyond _ _ hd]
  exact Nat.zero_testBit _

theorem valW_zero (ws : List Nat) (h : ∀ w ∈ ws, w = 0) : valW ws = 0 := by
  induction ws with
  | nil => rfl
  | cons w rest ih =>
    rw [valW_cons, h w (by simp), ih (fun x hx => h x (by simp [hx]))]
    simp

theorem leastBits_testBit (n i : Nat) : (leastBits n).testBit i = decide (i < n) :=
  Nat.testBit_two_pow_sub_one n i

theorem and_leastBits_of_lt {v n : Nat} (h : v < 2 ^ n) : v &&& leastBits n = v := by
  refine Nat.eq_of_testBit_eq fun i => ?_
  rw [Nat.testBit_land, leastBits_testBit]
  by_cases hi : i < n
  · simp [hi]
  · simp [hi, testBit_high h (le_of_not_lt hi)]

theorem and_leastBits_eq_mod (v n : Nat) : v &&& leastBits n = v % 2 ^ n := by
  refine Nat.eq_of_testBit_eq fun i => ?_
  rw [Nat.testBit_land, leastBits_testBit, Nat.testBit_mod_two_pow, Bool.and_comm]

theorem shiftRight_lt_pow {x m n : Nat} (h : x < 2 ^ m) : x >>> n < 2 ^ (m - n) := by
  refine lt_two_pow_of_high fun i hi => ?_
  rw [Nat.testBit_shiftRight]
  exact testBit_high h (by omega)

theorem lor_lt_pow {x y n : Nat} (hx : x < 2 ^ n) (hy : y < 2 ^ n) : x ||| y < 2 ^ n := by
  refine lt_two_pow_of_high fun i hi => ?_
  rw [Nat.testBit_lor, testBit_high hx hi, testBit_high hy hi]
  rfl

theorem and_lt_pow {x y n : Nat} (hx : x < 2 ^ n) : x &&& y < 2 ^ n := by
  refine lt_two_pow_of_high fun i hi => ?_
  rw [Nat.testBit_land, testBit_high hx hi]
  rfl

theorem shiftLeft_lt_pow {x s a : Nat} (hx : x < 2 ^ a) : x <<< s < 2 ^ (s + a) := by
  refine lt_two_pow_of_high fun i hi => ?_
  rw [Nat.testBit_shiftLeft]
  by_cases hs : s ≤ i
  · have hh := testBit_high hx (show a ≤ i - s by omega)
    simp [hs, hh]
  · simp [hs]

theorem testBit_setB {w off v nb : Nat} (hw : w < 2 ^ 64) (hn : off + nb ≤ 64) (k : Nat) :
    (setB w off v nb).testBit k =
      if off ≤ k ∧ k < off + nb then v.testBit (k - off) else w.testBit k := by
  unfold setB compl64 leastBits
  simp only [Nat.testBit_lor, Nat.testBit_land, Nat.testBit_xor, Nat.testBit_shiftLeft,
    Nat.testBit_two_pow_sub_one, ge_iff_le]
  by_cases h1 : off ≤ k ∧ k < off + nb
  · rw [if_pos h1]
    have hk64 : k < 64 := by omega
    simp [h1.1, hk64, show k - off < nb by omega]
  · rw [if_neg h1]
    by_cases hko : off ≤ k
    · have h2 : ¬ (k - off < nb) := by omega
      by_cases hk64 : k < 64
      · simp [hko, h2, hk64]
      · simp [hko, h2, hk64, testBit_high hw (le_of_not_lt hk64)]
    · by_cases hk64 : k < 64
      · simp [hko, hk64]
      · simp [hko, hk64, testBit_high hw (le_of_not_lt hk64)]

theorem setB_lt {w off v nb : Nat} (hw : w < 2 ^ 64) (hn : off + nb ≤ 64) :
    setB w off v nb < 2 ^ 64 := by
  refine lt_two_pow_of_high fun i hi => ?_
  rw [testBit_setB hw hn, if_neg (by omega)]
  exact testBit_high hw hi

theorem popcountW_congr {w w' n : Nat} (h : n < 2 ^ w) (hw : w ≤ w') :
    popcountW w' n = popcountW w n := by
  unfold popcountW
  have hsplit : w' = w + (w' - w) := by omega
  rw [hsplit, List.range_add, List.filter_append, List.length_append]
  have : (List.filter (fun i => n.testBit i) ((List.range (w' - w)).map (fun x => w + x))) = [] := by
    rw [List.filter_eq_nil_iff]
    intro a ha
    simp only [List.mem_map, List.mem_range] at ha
    obtain ⟨x, _, rfl⟩ := ha
    simp [testBit_high h (Nat.le_add_right _ _)]
  rw [this]
  rfl

theorem popcountW_small {y : Nat} (h : y < 2) (w : Nat) (hw : 1 ≤ w) : popcountW w y = y := by
  interval_cases y
  · unfold popcountW
    have : (List.filter (fun i => Nat.testBit 0 i) (List.range w)) = [] := by
      rw [List.filter_eq_nil_iff]
      intro a _
      simp [Nat.zero_testBit]
    rw [this]
    rfl
  · unfold popcountW
    have hsplit : w = 1 + (w - 1) := by omega
    rw [hsplit, List.range_add, List.filter_append, List.length_append]
    have h1 : (List.filter (fun i => Nat.testBit 1 i) (List.range 1)) = [0] := by decide
    have h2 : (List.filter (fun i => Nat.testBit 1 i) ((List.range (w - 1)).map (fun x => 1 + x))) = [] := by
      rw [List.filter_eq_nil_iff]
      intro a ha
      simp only [List.mem_map, List.mem_range] at ha
      obtain ⟨x, _, rfl⟩ := ha
      simp [testBit_high (show 1 < 2 ^ 1 by norm_num) (Nat.le_add_right _ _)]
    rw [h1, h2]
    rfl

theorem sum_map_range_eq_zipWith (f : Nat → Nat → Nat) (xs ys : List Nat) (n : Nat)
    (hx : xs.length = n) (hy : ys.length = n) :
    ((List.range n).map (fun i => f (xs.getD i 0) (ys.getD i 0))).sum =
      (List.zipWith f xs ys).sum := by
  induction n generalizing xs ys with
  | zero =>
    have : xs = [] := List.length_eq_zero.mp hx
    subst this
    simp
  | succ n ih =>
    cases xs with
    | nil => simp at hx
    | cons x xs =>
      cases ys with
      | nil => simp at hy
      | cons y ys =>
        rw [List.range_succ_eq_map, List.map_cons, List.map_map, List.zipWith_cons_cons,
          List.sum_cons, List.sum_cons]
        congr 1
        rw [← ih xs ys (by simpa using hx) (by simpa using hy)]
        congr 1

/-! Word-extraction algebra: the general splice code, the small-bits code and
the power-of-two code all extract the same word for their overlapping
configurations. -/

theorem getD_lt (d : List Nat) (hw : ∀ w ∈ d, w < 2 ^ 64) (j : Nat) : d.getD j 0 < 2 ^ 64 := by
  by_cases hj : j < d.length
  · have he : d.getD j 0 = d[j] := by
      rw [List.getD_eq_getElem?_getD, List.getElem?_eq_getElem hj]
      rfl
    rw [he]
    exact hw _ (List.getElem_mem _)
  · rw [getD_beyond _ _ (by omega)]
    positivity

theorem setB_zero_word (v nb : Nat) : setB 0 0 v nb = v &&& leastBits nb := by
  unfold setB
  simp [Nat.zero_and, Nat.zero_or, Nat.shiftLeft_zero]

theorem and_leastBits_lt (x n : Nat) : x &&& leastBits n < 2 ^ n := by
  rw [and_leastBits_eq_mod]
  exact Nat.mod_lt _ (by positivity)

theorem setB_or_of_lt {A v off nb : Nat} (hA : A < 2 ^ off) (hv : v < 2 ^ nb)
    (h : off + nb ≤ 64) : setB A off v nb = A ||| (v <<< off) := by
  refine Nat.eq_of_testBit_eq fun k => ?_
  have hA64 : A < 2 ^ 64 := lt_of_lt_of_le hA (Nat.pow_le_pow_right (by norm_num) (by omega))
  rw [testBit_setB hA64 h, Nat.testBit_lor, Nat.testBit_shiftLeft]
  by_cases h1 : off ≤ k ∧ k < off + nb
  · rw [if_pos h1]
    have hfA : A.testBit k = false := testBit_high hA h1.1
    simp [hfA, h1.1]
  · rw [if_neg h1]
    by_cases hko : off ≤ k
    · have hfv : v.testBit (k - off) = false := testBit_high hv (by omega)
      simp [hko, hfv]
    · simp [hko]

theorem nWords_one {b : Nat} (h1 : 1 ≤ b) (h2 : b ≤ 64) : nWords b 1 = 1 := by
  unfold nWords
  rw [Nat.mul_one]
  omega

theorem newVector_set_one {b : Nat} (x : Nat) (h1 : 1 ≤ b) (h2 : b ≤ 64) :
    (NewVector b).data.set 0 x = [x] := by
  show (List.replicate (nWords b 1) 0).set 0 x = [x]
  rw [nWords_one h1 h2]
  rfl

theorem getCore_small (d : List Nat) (b i : Nat)
    (hb1 : 1 ≤ b) (hb : b ≤ 64) (hw : ∀ w ∈ d, w < 2 ^ 64) :
    GeneralArray.getCore d b i = ⟨[extractW d b i], b⟩ := by
  simp only [GeneralArray.getCore, extractW]
  by_cases hc1 : i * b / 64 = (i * b + b) / 64 ∨
      (i * b / 64 + 1 = (i * b + b) / 64 ∧ (i * b + b) % 64 = 0)
  · rw [if_pos hc1, if_pos (by omega)]
  · rw [if_neg hc1]
    have hl : ¬ (i * b % 64 = 0) := by omega
    have hr : (i * b + b) / 64 = i * b / 64 + 1 := by omega
    have hnr : ¬ ((i * b + b) % 64 = 0) := by omega
    rw [if_neg hl, if_neg (by omega : ¬ (i * b / 64 = (i * b + b) / 64 ∨ (i * b + b) % 64 = 0))]
    rw [if_neg hnr, if_pos (by omega : 64 - i * b % 64 + (i * b + b) % 64 ≤ 64)]
    rw [hr]
    simp only [Nat.sub_self, List.take_zero]
    have hbuf : copyRegion (List.replicate (nWords b 1) 0) 0 [] =
        List.replicate (nWords b 1) (0 : Nat) := rfl
    rw [hbuf, nWords_one hb1 hb]
    simp only [show (1 : Nat) - 1 = 0 from rfl]
    have hg0 : (List.replicate 1 (0 : Nat)).getD 0 0 = 0 := rfl
    rw [hg0, setB_zero_word]
    have hA : d.getD (i * b / 64 + 1) 0 &&& leastBits ((i * b + b) % 64) <
        2 ^ ((i * b + b) % 64) := and_leastBits_lt _ _
    have hLB : d.getD (i * b / 64) 0 >>> (i * b % 64) < 2 ^ (64 - i * b % 64) :=
      shiftRight_lt_pow (getD_lt d hw _)
    rw [setB_or_of_lt hA hLB (by omega)]
    rfl

theorem ofNat_toNat (n : Nat) : (Int.ofNat n).toNat = n := rfl

theorem guard_false {len : Nat} (i : Nat) (hi : i < len) :
    ¬ (Int.ofNat i < 0 ∨ (len : Int) ≤ Int.ofNat i) := by
  have he : Int.ofNat i = (i : Int) := rfl
  rw [he]
  omega

theorem general_get_eq (a : GeneralArray) (i : Nat) (hi : i < a.len) :
    a.get (Int.ofNat i) = .ok (GeneralArray.getCore a.data a.bitNum i) := by
  unfold GeneralArray.get
  rw [if_neg (guard_false i hi), ofNat_toNat]

theorem smallBits_get_eq (a : SmallBitsArray) (i : Nat) (hi : i < a.ga.len)
    (hb1 : 1 ≤ a.ga.bitNum) (hb : a.ga.bitNum ≤ 64) :
    a.get (Int.ofNat i) = .ok ⟨[extractW a.ga.data a.ga.bitNum i], a.ga.bitNum⟩ := by
  unfold SmallBitsArray.get
  rw [if_neg (guard_false i hi), ofNat_toNat]
  show Except.ok (⟨(NewVector a.ga.bitNum).data.set 0 (a.extract i), a.ga.bitNum⟩ : Vector) = _
  rw [newVector_set_one _ hb1 hb]
  rfl

theorem word_get_eq (a : WordArray) (i : Nat) (hi : i < a.dataLen) :
    a.get (Int.ofNat i) = .ok ⟨[a.dataW.getD i 0], 64⟩ := by
  unfold WordArray.get
  rw [if_neg (guard_false i hi), ofNat_toNat]

theorem pow2_get_eq (a : SmallPow2Array) (i : Nat) (hi : i < a.len)
    (hb1 : 1 ≤ a.bitNum) (hb : a.bitNum ≤ 64) :
    a.get (Int.ofNat i) = .ok ⟨[a.getWord i], a.bitNum⟩ := by
  unfold SmallPow2Array.get
  rw [if_neg (guard_false i hi), ofNat_toNat]
  show Except.ok (⟨(NewVector a.bitNum).data.set 0 (a.getWord i), a.bitNum⟩ : Vector) = _
  rw [newVector_set_one _ hb1 hb]

theorem mw_get_eq (a : MultiWordArray) (i : Nat) (hi : i < a.lenA) :
    a.get (Int.ofNat i) = .ok ⟨copyRegion (List.replicate (nWords a.bitNum 1) 0) 0
      ((a.dataW.drop (i * (a.bitNum / 64))).take (nWords a.bitNum 1)), a.bitNum⟩ := by
  unfold MultiWordArray.get
  rw [if_neg (guard_false i hi), ofNat_toNat]
  show Except.ok (⟨copyRegion (List.replicate (nWords a.bitNum 1) 0) 0
      ((a.dataW.drop (i * (a.bitNum / 64))).take
        (List.replicate (nWords a.bitNum 1) (0 : Nat)).length), a.bitNum⟩ : Vector) = _
  rw [List.length_replicate]

theorem pow2_getWord_eq_extractW (a : SmallPow2Array) (n : Nat)
    (hb : a.bitNum = 1 ∨ a.bitNum = 2 ∨ a.bitNum = 4 ∨ a.bitNum = 8 ∨
      a.bitNum = 16 ∨ a.bitNum = 32) :
    a.getWord n = extractW a.data a.bitNum n := by
  obtain ⟨d, b, len⟩ := a
  simp only at hb
  simp only [SmallPow2Array.getWord, extractW]
  rcases hb with hb | hb | hb | hb | hb | hb
  · subst hb
    rw [if_pos (by omega)]
    have e1 : n * 1 / 64 = n / (64 / 1) := by omega
    have e2 : n * 1 % 64 = n % (64 / 1) * 1 := by omega
    rw [e1, e2]
  · subst hb
    rw [if_pos (by omega)]
    have e1 : n * 2 / 64 = n / (64 / 2) := by omega
    have e2 : n * 2 % 64 = n % (64 / 2) * 2 := by omega
    rw [e1, e2]
  · subst hb
    rw [if_pos (by omega)]
    have e1 : n * 4 / 64 = n / (64 / 4) := by omega
    have e2 : n * 4 % 64 = n % (64 / 4) * 4 := by omega
    rw [e1, e2]
  · subst hb
    rw [if_pos (by omega)]
    have e1 : n * 8 / 64 = n / (64 / 8) := by omega
    have e2 : n * 8 % 64 = n % (64 / 8) * 8 := by omega
    rw [e1, e2]
  · subst hb
    rw [if_pos (by omega)]
    have e1 : n * 16 / 64 = n / (64 / 16) := by omega
    have e2 : n * 16 % 64 = n % (64 / 16) * 16 := by omega
    rw [e1, e2]
  · subst hb
    rw [if_pos (by omega)]
    have e1 : n * 32 / 64 = n / (64 / 32) := by omega
    have e2 : n * 32 % 64 = n % (64 / 32) * 32 := by omega
    rw [e1, e2]

theorem extractW_word (d : List Nat) (i : Nat) (hw : ∀ w ∈ d, w < 2 ^ 64) :
    extractW d 64 i = d.getD i 0 := by
  simp only [extractW]
  rw [if_pos (by omega)]
  have e1 : i * 64 / 64 = i := by omega
  have e2 : i * 64 % 64 = 0 := by omega
  rw [e1, e2, Nat.shiftRight_zero, and_leastBits_of_lt (getD_lt d hw i)]

theorem getCore_multi (d : List Nat) (b i m : Nat) (hm : b = 64 * m) (h2 : 2 ≤ m) :
    GeneralArray.getCore d b i =
      ⟨copyRegion (List.replicate (nWords b 1) 0) 0 ((d.drop (i * m)).take (nWords b 1)), b⟩ := by
  have hib : i * b = (i * m) * 64 := by rw [hm]; ring
  simp only [GeneralArray.getCore]
  rw [if_neg (by rw [hib, hm]; omega), if_pos (by rw [hib]; omega),
    if_neg (by rw [hib, hm]; push_neg; omega)]
  have hl : i * b / 64 = i * m := by rw [hib]; omega
  rw [hl]

/-! Vector well-formedness consequences and per-variant Hamming-distance
characterizations. -/

theorem valW_single (x : Nat) : valW [x] = x := by
  simp [valW]

theorem vwf_single {v : Vector} (h : VWf v) (hb1 : 1 ≤ v.bitNum) (hb : v.bitNum ≤ 64) :
    v.data = [v.data.getD 0 0] := by
  have h1 : v.data.length = 1 := by rw [h.1, nWords_one hb1 hb]
  obtain ⟨a, ha⟩ := List.length_eq_one.mp h1
  rw [ha]
  rfl

theorem vwf_v0_lt {v : Vector} (h : VWf v) (hb1 : 1 ≤ v.bitNum) (hb : v.bitNum ≤ 64) :
    v.data.getD 0 0 < 2 ^ v.bitNum := by
  have hs := vwf_single h hb1 hb
  have hv := h.2.2
  rw [hs, valW_single] at hv
  exact hv

theorem xor_lt_pow {x y n : Nat} (hx : x < 2 ^ n) (hy : y < 2 ^ n) : x ^^^ y < 2 ^ n := by
  refine lt_two_pow_of_high fun i hi => ?_
  rw [Nat.testBit_xor, testBit_high hx hi, testBit_high hy hi]
  rfl

theorem popcountV_single_xor (x v0 b : Nat) :
    popcountV (Vector.xorV ⟨[x], b⟩ ⟨[v0], b⟩) = bitcount (x ^^^ v0) := by
  simp [popcountV, Vector.xorV]

theorem ne_guard {b bv : Nat} (h : bv = b) : ¬ (b ≠ bv) := by omega

theorem some_ok_congr {A B : Nat} (h : A = B) :
    (some (Except.ok A) : Option (Except Err Nat)) = some (.ok B) := by
  rw [h]

theorem smallBits_ham_eq (a : SmallBitsArray) (v : Vector) (i : Nat) (hi : i < a.ga.len)
    (hwid : v.bitNum = a.ga.bitNum) :
    a.hammingDistance (Int.ofNat i) v =
      some (.ok (bitcount (extractW a.ga.data a.ga.bitNum i ^^^ v.data.getD 0 0))) := by
  unfold SmallBitsArray.hammingDistance
  rw [if_neg (ne_guard hwid), if_neg (guard_false i hi), ofNat_toNat]
  rfl

theorem word_ham_eq (a : WordArray) (v : Vector) (i : Nat) (hi : i < a.dataLen)
    (hwid : v.bitNum = 64) :
    a.hammingDistance (Int.ofNat i) v =
      some (.ok (bitcount (a.dataW.getD i 0 ^^^ v.data.getD 0 0))) := by
  unfold WordArray.hammingDistance
  rw [if_neg (by omega), if_neg (guard_false i hi), ofNat_toNat]

/-- The multiple-of-word elements indexed by row i < Len lie inside the slice,
so the fast path returns rather than panics. -/
theorem mw_range_of_lt (m : MultiWordArray) (hnw : 1 ≤ m.bitNum / 64)
    (hdvd : (m.bitNum / 64) ∣ m.dataLen) (i : Nat) (hi : i < m.lenA) :
    i * (m.bitNum / 64) + m.bitNum / 64 ≤ m.dataLen := by
  obtain ⟨k, hk⟩ := hdvd
  have hkk : m.dataLen / (m.bitNum / 64) = k := by
    rw [hk]
    exact Nat.mul_div_cancel_left k (by omega)
  have hik : i < k := by
    have hx : i < m.dataLen / (m.bitNum / 64) := hi
    omega
  have hle : m.bitNum / 64 * (i + 1) ≤ m.bitNum / 64 * k := Nat.mul_le_mul_left _ (by omega)
  have hd1 : m.bitNum / 64 * (i + 1) = m.bitNum / 64 * i + m.bitNum / 64 := by ring
  have hcomm : i * (m.bitNum / 64) = m.bitNum / 64 * i := Nat.mul_comm _ _
  omega

theorem mw_ham_eq (a : MultiWordArray) (v : Vector) (i : Nat)
    (hwid : v.bitNum = a.bitNum)
    (hrange : i * (a.bitNum / 64) + a.bitNum / 64 ≤ a.dataLen) :
    a.hammingDistance (Int.ofNat i) v = some (.ok (((List.range (a.bitNum / 64)).map
      (fun j => bitcount (a.dataW.getD (i * (a.bitNum / 64) + j) 0 ^^^ v.data.getD j 0))).sum)) := by
  simp only [MultiWordArray.hammingDistance]
  have hneg : ¬ (Int.ofNat i < 0) := by
    have he : Int.ofNat i = (i : Int) := rfl
    rw [he]
    omega
  rw [if_neg (ne_guard hwid), if_neg hneg, ofNat_toNat, if_pos hrange]

theorem general_ham_eq (a : GeneralArray) (v : Vector) (i : Nat) (hi : i < a.len)
    (hwid : v.bitNum = a.bitNum) :
    a.hammingDistance (Int.ofNat i) v =
      some (.ok (popcountV ((GeneralArray.getCore a.data a.bitNum i).xorV v))) := by
  unfold GeneralArray.hammingDistance
  rw [if_neg (ne_guard hwid), general_get_eq a i hi]
  rfl

theorem bitcount_eq_bitcount16 {y : Nat} (h : y < 2 ^ 16) : bitcount16 y = bitcount y :=
  (popcountW_congr h (by norm_num)).symm

theorem bitcount_eq_bitcount32 {y : Nat} (h : y < 2 ^ 32) : bitcount32 y = bitcount y :=
  (popcountW_congr h (by norm_num)).symm

theorem bc16_mask_case (x v0 b : Nat) (hb : b ≤ 8) (hv0 : v0 < 2 ^ b) :
    bitcount16 (((x &&& leastBits b) ^^^ v0) % 2 ^ 16) = bitcount ((x &&& leastBits b) ^^^ v0) := by
  have hx : (x &&& leastBits b) ^^^ v0 < 2 ^ b := xor_lt_pow (and_leastBits_lt _ _) hv0
  have h16 : (x &&& leastBits b) ^^^ v0 < 2 ^ 16 :=
    lt_of_lt_of_le hx (Nat.pow_le_pow_right (by norm_num) (by omega))
  rw [Nat.mod_eq_of_lt h16]
  exact bitcount_eq_bitcount16 h16

theorem pow2_ham_eq (a : SmallPow2Array) (v : Vector) (i : Nat) (hi : i < a.len)
    (hb : a.bitNum = 1 ∨ a.bitNum = 2 ∨ a.bitNum = 4 ∨ a.bitNum = 8 ∨
      a.bitNum = 16 ∨ a.bitNum = 32)
    (hv0 : v.data.getD 0 0 < 2 ^ a.bitNum)
    (hwid : v.bitNum = a.bitNum) :
    a.hammingDistance (Int.ofNat i) v =
      some (.ok (bitcount (a.getWord i ^^^ v.data.getD 0 0))) := by
  simp only [SmallPow2Array.hammingDistance, SmallPow2Array.getWord]
  rw [if_neg (ne_guard hwid), if_neg (guard_false i hi), ofNat_toNat]
  rcases hb with hb | hb | hb | hb | hb | hb <;> rw [hb] at hv0 ⊢
  · rw [if_pos rfl]
    refine some_ok_congr ?_
    rw [show (64 : Nat) / 1 = 64 by norm_num, show leastBits 1 = 1 by decide, Nat.mul_one]
    have hy : a.data.getD (i / 64) 0 >>> (i % 64) &&& 1 ^^^ v.data.getD 0 0 < 2 := by
      have hp1 : a.data.getD (i / 64) 0 >>> (i % 64) &&& 1 < 2 ^ 1 :=
        lt_of_le_of_lt Nat.and_le_right (by norm_num)
      have := xor_lt_pow hp1 hv0
      omega
    exact (popcountW_small hy 64 (by norm_num)).symm
  · rw [if_neg (by norm_num), if_pos rfl]
    refine some_ok_congr ?_
    rw [show (64 : Nat) / 2 = 32 by norm_num, show leastBits 2 = 3 by decide,
      Nat.mul_comm (i % 32) 2]
    have h1 : a.data.getD (i / 32) 0 >>> (2 * (i % 32)) &&& 3 < 2 ^ 2 :=
      lt_of_le_of_lt Nat.and_le_right (by norm_num)
    have hy : a.data.getD (i / 32) 0 >>> (2 * (i % 32)) &&& 3 ^^^ v.data.getD 0 0 < 2 ^ 2 :=
      xor_lt_pow h1 hv0
    have hy16 : a.data.getD (i / 32) 0 >>> (2 * (i % 32)) &&& 3 ^^^ v.data.getD 0 0 < 2 ^ 16 :=
      lt_of_lt_of_le hy (Nat.pow_le_pow_right (by norm_num) (by norm_num))
    rw [Nat.mod_eq_of_lt hy16]
    exact bitcount_eq_bitcount16 hy16
  · rw [if_neg (by norm_num), if_neg (by norm_num), if_pos rfl]
    refine some_ok_congr ?_
    rw [show (64 : Nat) / 4 = 16 by norm_num, show leastBits 4 = 15 by decide,
      Nat.mul_comm (i % 16) 4]
    have h1 : a.data.getD (i / 16) 0 >>> (4 * (i % 16)) &&& 15 < 2 ^ 4 :=
      lt_of_le_of_lt Nat.and_le_right (by norm_num)
    have hy16 : a.data.getD (i / 16) 0 >>> (4 * (i % 16)) &&& 15 ^^^ v.data.getD 0 0 < 2 ^ 16 :=
      lt_of_lt_of_le (xor_lt_pow h1 hv0) (Nat.pow_le_pow_right (by norm_num) (by norm_num))
    rw [Nat.mod_eq_of_lt hy16]
    exact bitcount_eq_bitcount16 hy16
  · rw [if_neg (by norm_num), if_neg (by norm_num), if_neg (by norm_num), if_pos rfl]
    refine some_ok_congr ?_
    rw [show (64 : Nat) / 8 = 8 by norm_num, show leastBits 8 = 255 by decide,
      Nat.mul_comm (i % 8) 8]
    have h1 : a.data.getD (i / 8) 0 >>> (8 * (i % 8)) &&& 255 < 2 ^ 8 :=
      lt_of_le_of_lt Nat.and_le_right (by norm_num)
    have hy16 : a.data.getD (i / 8) 0 >>> (8 * (i % 8)) &&& 255 ^^^ v.data.getD 0 0 < 2 ^ 16 :=
      lt_of_lt_of_le (xor_lt_pow h1 hv0) (Nat.pow_le_pow_right (by norm_num) (by norm_num))
    rw [Nat.mod_eq_of_lt hy16]
    exact bitcount_eq_bitcount16 hy16
  · rw [if_neg (by norm_num), if_neg (by norm_num), if_neg (by norm_num),
      if_neg (by norm_num), if_pos rfl]
    refine some_ok_congr ?_
    rw [show (64 : Nat) / 16 = 4 by norm_num, Nat.mul_comm (i % 4) 16,
      ← and_leastBits_eq_mod (a.data.getD (i / 4) 0 >>> (16 * (i % 4))) 16,
      Nat.mod_eq_of_lt hv0]
    have hy16 : a.data.getD (i / 4) 0 >>> (16 * (i % 4)) &&& leastBits 16 ^^^
        v.data.getD 0 0 < 2 ^ 16 := xor_lt_pow (and_leastBits_lt _ _) hv0
    exact bitcount_eq_bitcount16 hy16
  · rw [if_neg (by norm_num), if_neg (by norm_num), if_neg (by norm_num),
      if_neg (by norm_num), if_neg (by norm_num), if_pos rfl]
    refine some_ok_congr ?_
    rw [show (64 : Nat) / 32 = 2 by norm_num, Nat.mul_comm (i % 2) 32,
      ← and_leastBits_eq_mod (a.data.getD (i / 2) 0 >>> (32 * (i % 2))) 32,
      Nat.mod_eq_of_lt hv0]
    have hy32 : a.data.getD (i / 2) 0 >>> (32 * (i % 2)) &&& leastBits 32 ^^^
        v.data.getD 0 0 < 2 ^ 32 := xor_lt_pow (and_leastBits_lt _ _) hv0
    exact bitcount_eq_bitcount32 hy32

theorem nWords_multi {b q : Nat} (hm : b = 64 * q) (_h1 : 1 ≤ q) : nWords b 1 = q := by
  unfold nWords
  subst hm
  omega

theorem take_words_lt {d : List Nat} {k : Nat} (hw : ∀ w ∈ d, w < 2 ^ 64) :
    ∀ w ∈ d.take k, w < 2 ^ 64 := fun w hwm => hw w (List.mem_of_mem_take hwm)

/-- The Hamming value computed on a multi-word get result is the per-word
popcount sum the multi-word fast path computes. -/
theorem mw_popcount_sum (dataW : List Nat) (v : Vector) (i q : Nat)
    (hv : v.data.length = q) :
    popcountV ((⟨copyRegion (List.replicate q 0) 0 ((dataW.drop (i * q)).take q), v.bitNum⟩ :
        Vector).xorV v) =
      ((List.range q).map
        (fun j => bitcount (dataW.getD (i * q + j) 0 ^^^ v.data.getD j 0))).sum := by
  unfold popcountV Vector.xorV
  simp only
  rw [List.map_zipWith]
  rw [← sum_map_range_eq_zipWith (fun x y => bitcount (x ^^^ y)) _ _ q
    (by rw [copyRegion_length, List.length_replicate]) hv]
  refine congrArg _ (List.map_congr_left fun j hj => ?_)
  rw [List.mem_range] at hj
  rw [copyRegion_replicate_getD, if_pos hj, getD_take, if_pos hj, getD_drop]

/-- Per-variant conjunction used by the cross-check claims: the fast Hamming
path equals popcount of get XOR v, and equals the general baseline run on the
same raw storage. -/
theorem ham_spec (a : Arr) (v : Vector) (i : Nat) (hwf : ArrWf a) (hv : VWf v)
    (hwid : v.bitNum = a.bitNumA) (hi : i < a.lenA) :
    ∃ g, a.get (Int.ofNat i) = .ok g ∧
      a.hammingDistance (Int.ofNat i) v = some (.ok (popcountV (g.xorV v))) ∧
      a.hammingDistance (Int.ofNat i) v = (a.baseline).hammingDistance (Int.ofNat i) v := by
  cases a with
  | general g =>
    simp only [Arr.hammingDistance, Arr.get, Arr.lenA, Arr.bitNumA, Arr.baseline, Arr.raw]
      at hwid hi ⊢
    exact ⟨GeneralArray.getCore g.data g.bitNum i, general_get_eq g i hi,
      general_ham_eq g v i hi hwid, by trivial⟩
  | smallBits s =>
    simp only [Arr.hammingDistance, Arr.get, Arr.lenA, Arr.bitNumA, Arr.baseline, Arr.raw]
      at hwid hi ⊢
    obtain ⟨hb1, hblt, hw⟩ := hwf
    have hble : s.ga.bitNum ≤ 64 := by omega
    have hvone : v.data = [v.data.getD 0 0] := vwf_single hv (by omega) (by omega)
    have hxv : ∀ x : Nat, Vector.xorV ⟨[x], s.ga.bitNum⟩ v =
        Vector.xorV ⟨[x], s.ga.bitNum⟩ ⟨[v.data.getD 0 0], s.ga.bitNum⟩ := by
      intro x
      unfold Vector.xorV
      rw [← hvone]
    refine ⟨⟨[extractW s.ga.data s.ga.bitNum i], s.ga.bitNum⟩,
      smallBits_get_eq s i hi hb1 hble, ?_, ?_⟩
    · rw [smallBits_ham_eq s v i hi hwid, hxv, popcountV_single_xor]
    · rw [smallBits_ham_eq s v i hi hwid,
        general_ham_eq ⟨s.ga.data, s.ga.bitNum, s.ga.len⟩ v i hi hwid]
      show _ = some (Except.ok (popcountV ((GeneralArray.getCore s.ga.data s.ga.bitNum i).xorV v)))
      rw [getCore_small s.ga.data s.ga.bitNum i hb1 hble hw, hxv, popcountV_single_xor]
  | word w =>
    simp only [Arr.hammingDistance, Arr.get, Arr.lenA, Arr.bitNumA, Arr.baseline, Arr.raw]
      at hwid hi ⊢
    obtain ⟨hlen, hw⟩ := hwf
    have hwd : ∀ x ∈ w.dataW, x < 2 ^ 64 := take_words_lt hw
    have hvone : v.data = [v.data.getD 0 0] := vwf_single hv (by omega) (by omega)
    have hxv : ∀ x : Nat, Vector.xorV ⟨[x], (64 : Nat)⟩ v =
        Vector.xorV ⟨[x], (64 : Nat)⟩ ⟨[v.data.getD 0 0], 64⟩ := by
      intro x
      unfold Vector.xorV
      rw [← hvone]
    refine ⟨⟨[w.dataW.getD i 0], 64⟩, word_get_eq w i hi, ?_, ?_⟩
    · rw [word_ham_eq w v i hi hwid, hxv, popcountV_single_xor]
    · rw [word_ham_eq w v i hi hwid,
        general_ham_eq ⟨w.dataW, 64, w.dataLen⟩ v i hi hwid]
      show _ = some (Except.ok (popcountV ((GeneralArray.getCore w.dataW 64 i).xorV v)))
      rw [getCore_small w.dataW 64 i (by norm_num) (by norm_num) hwd,
        extractW_word w.dataW i hwd, hxv, popcountV_single_xor]
  | smallPow2 p =>
    simp only [Arr.hammingDistance, Arr.get, Arr.lenA, Arr.bitNumA, Arr.baseline, Arr.raw]
      at hwid hi ⊢
    obtain ⟨hb, hw⟩ := hwf
    have hb1 : 1 ≤ p.bitNum := by rcases hb with h|h|h|h|h|h <;> omega
    have hble : p.bitNum ≤ 64 := by rcases hb with h|h|h|h|h|h <;> omega
    have hv0 : v.data.getD 0 0 < 2 ^ p.bitNum := by
      have hx := vwf_v0_lt hv (by omega) (by omega)
      rwa [hwid] at hx
    have hvone : v.data = [v.data.getD 0 0] := vwf_single hv (by omega) (by omega)
    have hxv : ∀ x : Nat, Vector.xorV ⟨[x], p.bitNum⟩ v =
        Vector.xorV ⟨[x], p.bitNum⟩ ⟨[v.data.getD 0 0], p.bitNum⟩ := by
      intro x
      unfold Vector.xorV
      rw [← hvone]
    refine ⟨⟨[p.getWord i], p.bitNum⟩, pow2_get_eq p i hi hb1 hble, ?_, ?_⟩
    · rw [pow2_ham_eq p v i hi hb hv0 hwid, hxv, popcountV_single_xor]
    · rw [pow2_ham_eq p v i hi hb hv0 hwid,
        general_ham_eq ⟨p.data, p.bitNum, p.len⟩ v i hi hwid]
      show _ = some (Except.ok (popcountV ((GeneralArray.getCore p.data p.bitNum i).xorV v)))
      rw [getCore_small p.data p.bitNum i hb1 hble hw,
        ← pow2_getWord_eq_extractW p i hb, hxv, popcountV_single_xor]
  | multiWord m =>
    simp only [Arr.hammingDistance, Arr.get, Arr.lenA, Arr.bitNumA, Arr.baseline, Arr.raw]
      at hwid hi ⊢
    obtain ⟨hb128, hbmod, hlen, hdvd, hw⟩ := hwf
    have hq : m.bitNum = 64 * (m.bitNum / 64) := by omega
    have hq2 : 2 ≤ m.bitNum / 64 := by omega
    have hnw : nWords m.bitNum 1 = m.bitNum / 64 := nWords_multi hq (by omega)
    have hvlen : v.data.length = m.bitNum / 64 := by
      rw [hv.1, hwid]
      exact hnw
    have hget := mw_get_eq m i hi
    rw [hnw] at hget
    have hrange : i * (m.bitNum / 64) + m.bitNum / 64 ≤ m.dataLen :=
      mw_range_of_lt m (by omega) hdvd i hi
    have hx : (⟨copyRegion (List.replicate (m.bitNum / 64) 0) 0
        ((m.dataW.drop (i * (m.bitNum / 64))).take (m.bitNum / 64)), m.bitNum⟩ : Vector) =
        ⟨copyRegion (List.replicate (m.bitNum / 64) 0) 0
        ((m.dataW.drop (i * (m.bitNum / 64))).take (m.bitNum / 64)), v.bitNum⟩ := by
      rw [hwid]
    refine ⟨⟨copyRegion (List.replicate (m.bitNum / 64) 0) 0
      ((m.dataW.drop (i * (m.bitNum / 64))).take (m.bitNum / 64)), m.bitNum⟩, hget, ?_, ?_⟩
    · rw [mw_ham_eq m v i hwid hrange, hx, mw_popcount_sum m.dataW v i (m.bitNum / 64) hvlen]
    · rw [mw_ham_eq m v i hwid hrange,
        general_ham_eq ⟨m.dataW, m.bitNum, m.lenA⟩ v i hi hwid]
      show _ = some (Except.ok (popcountV ((GeneralArray.getCore m.dataW m.bitNum i).xorV v)))
      rw [getCore_multi m.dataW m.bitNum i (m.bitNum / 64) hq hq2, hnw, hx,
        mw_popcount_sum m.dataW v i (m.bitNum / 64) hvlen]

/-! Bookkeeping lemmas: resize, set, createArray and reload. -/

theorem reserve_bitNum (a : GeneralArray) (n : Nat) : (a.reserve n).bitNum = a.bitNum := by
  unfold GeneralArray.reserve
  split <;> rfl

theorem reserve_len (a : GeneralArray) (n : Nat) : (a.reserve n).len = a.len := by
  unfold GeneralArray.reserve
  split <;> rfl

theorem len_resize (a : Arr) (hwf : ArrWf a) (n : Nat) : (a.resize n).lenA = n := by
  cases a with
  | general g => rfl
  | smallBits s => rfl
  | word w =>
    simp only [Arr.resize, Arr.lenA, WordArray.resize]
    split <;> rfl
  | smallPow2 p =>
    simp only [Arr.resize, Arr.lenA, SmallPow2Array.resize]
    split <;> rfl
  | multiWord m =>
    obtain ⟨hb128, hbmod, _, _, _⟩ := hwf
    have hnw : 0 < m.bitNum / 64 := by omega
    simp only [Arr.resize, Arr.lenA, MultiWordArray.resize, MultiWordArray.lenA]
    split <;> exact Nat.mul_div_cancel n hnw

theorem bitNum_resize (a : Arr) (n : Nat) : (a.resize n).bitNumA = a.bitNumA := by
  cases a with
  | general g =>
    simp only [Arr.resize, Arr.bitNumA, GeneralArray.resize]
    exact reserve_bitNum g n
  | smallBits s =>
    simp only [Arr.resize, Arr.bitNumA, SmallBitsArray.resize, GeneralArray.resize]
    exact reserve_bitNum s.ga n
  | word w => rfl
  | smallPow2 p =>
    simp only [Arr.resize, Arr.bitNumA, SmallPow2Array.resize]
    split <;> rfl
  | multiWord m =>
    simp only [Arr.resize, Arr.bitNumA, MultiWordArray.resize]
    split <;> rfl

theorem set_ok (a : Arr) (v : Vector) (i : Nat) (hwid : v.bitNum = a.bitNumA)
    (hi : i < a.lenA) : ∃ a', a.set (Int.ofNat i) v = .ok a' := by
  cases a with
  | general g =>
    simp only [Arr.bitNumA] at hwid
    simp only [Arr.lenA] at hi
    have h : (Arr.general g).set (Int.ofNat i) v = .ok (.general { g with data := GeneralArray.setCore g.data g.bitNum i v }) := by
      simp only [Arr.set, GeneralArray.set]
      rw [if_neg (ne_guard hwid), if_neg (guard_false i hi), ofNat_toNat]
      rfl
    exact ⟨_, h⟩
  | smallBits s =>
    simp only [Arr.bitNumA] at hwid
    simp only [Arr.lenA] at hi
    have h : (Arr.smallBits s).set (Int.ofNat i) v = .ok (.smallBits ⟨{ s.ga with data := SmallBitsArray.setCore s.ga.data s.ga.bitNum i v }⟩) := by
      simp only [Arr.set, SmallBitsArray.set]
      rw [if_neg (ne_guard hwid), if_neg (guard_false i hi), ofNat_toNat]
      rfl
    exact ⟨_, h⟩
  | word w =>
    simp only [Arr.bitNumA] at hwid
    simp only [Arr.lenA] at hi
    have h : (Arr.word w).set (Int.ofNat i) v = .ok (.word { w with store := w.store.set i (v.data.getD 0 0) }) := by
      simp only [Arr.set, WordArray.set]
      rw [if_neg (by omega), if_neg (guard_false i hi), ofNat_toNat]
      rfl
    exact ⟨_, h⟩
  | smallPow2 p =>
    simp only [Arr.bitNumA] at hwid
    simp only [Arr.lenA] at hi
    have h : (Arr.smallPow2 p).set (Int.ofNat i) v = .ok (.smallPow2 { p with data := SmallPow2Array.setCore p.data p.bitNum i v }) := by
      simp only [Arr.set, SmallPow2Array.set]
      rw [if_neg (ne_guard hwid), if_neg (guard_false i hi), ofNat_toNat]
      rfl
    exact ⟨_, h⟩
  | multiWord m =>
    simp only [Arr.bitNumA] at hwid
    simp only [Arr.lenA] at hi
    have h : (Arr.multiWord m).set (Int.ofNat i) v = .ok (.multiWord { m with store := copyRegion m.store (i * (m.bitNum / 64)) (v.data.take (m.dataLen - i * (m.bitNum / 64))) }) := by
      simp only [Arr.set, MultiWordArray.set]
      rw [if_neg (ne_guard hwid), if_neg (guard_false i hi), ofNat_toNat]
      rfl
    exact ⟨_, h⟩

theorem set_len_bitNum {a a' : Arr} {n : Int} {v : Vector} (h : a.set n v = .ok a') :
    a'.lenA = a.lenA ∧ a'.bitNumA = a.bitNumA := by
  cases a with
  | general g =>
    simp only [Arr.set, GeneralArray.set] at h
    split_ifs at h
    · exact absurd h (by simp [Except.map])
    · exact absurd h (by simp [Except.map])
    · simp only [Except.map, Except.ok.injEq] at h
      subst h
      exact ⟨rfl, rfl⟩
  | smallBits s =>
    simp only [Arr.set, SmallBitsArray.set] at h
    split_ifs at h
    · exact absurd h (by simp [Except.map])
    · exact absurd h (by simp [Except.map])
    · simp only [Except.map, Except.ok.injEq] at h
      subst h
      exact ⟨rfl, rfl⟩
  | word w =>
    simp only [Arr.set, WordArray.set] at h
    split_ifs at h
    · exact absurd h (by simp [Except.map])
    · exact absurd h (by simp [Except.map])
    · simp only [Except.map, Except.ok.injEq] at h
      subst h
      exact ⟨rfl, rfl⟩
  | smallPow2 p =>
    simp only [Arr.set, SmallPow2Array.set] at h
    split_ifs at h
    · exact absurd h (by simp [Except.map])
    · exact absurd h (by simp [Except.map])
    · simp only [Except.map, Except.ok.injEq] at h
      subst h
      exact ⟨rfl, rfl⟩
  | multiWord m =>
    simp only [Arr.set, MultiWordArray.set] at h
    split_ifs at h
    · exact absurd h (by simp [Except.map])
    · exact absurd h (by simp [Except.map])
    · simp only [Except.map, Except.ok.injEq] at h
      subst h
      exact ⟨rfl, rfl⟩

theorem xor_pred_ne {b : Nat} (h : 1 ≤ b) : b ^^^ (b - 1) ≠ 0 := by
  intro hc
  have := Nat.xor_eq_zero.mp hc
  omega

theorem createArray_small (data : List Nat) (b len : Nat) (h1 : 1 ≤ b) (hlt : b < 64) :
    createArray data b len = some (.smallBits ⟨⟨data, b, len⟩⟩) := by
  unfold createArray
  rw [if_neg (by omega), if_pos hlt, if_neg (xor_pred_ne h1)]

theorem createArray_word (data : List Nat) (len : Nat) :
    createArray data 64 len = some (.word ⟨data, data.length⟩) := by
  unfold createArray
  rw [if_neg (by omega), if_neg (by omega), if_pos rfl]

theorem createArray_multi (data : List Nat) (b len : Nat) (h128 : 128 ≤ b)
    (hmod : b % 64 = 0) :
    createArray data b len = some (.multiWord ⟨data, data.length, b⟩) := by
  unfold createArray
  rw [if_neg (by omega), if_neg (by omega), if_neg (by omega), if_pos hmod]

theorem createArray_general (data : List Nat) (b len : Nat) (h64 : 64 < b)
    (hmod : b % 64 ≠ 0) :
    createArray data b len = some (.general ⟨data, b, len⟩) := by
  unfold createArray
  rw [if_neg (by omega), if_neg (by omega), if_neg (by omega), if_neg hmod]

theorem dataW_length (w : WordArray) (h : w.dataLen ≤ w.store.length) :
    w.dataW.length = w.dataLen := by
  unfold WordArray.dataW
  rw [List.length_take]
  exact min_eq_left h

theorem take_dataW (w : WordArray) (h : w.dataLen ≤ w.store.length) :
    w.dataW.take w.dataLen = w.dataW := by
  rw [show w.dataLen = w.dataW.length from (dataW_length w h).symm, List.take_length]

theorem mw_dataW_length (m : MultiWordArray) (h : m.dataLen ≤ m.store.length) :
    m.dataW.length = m.dataLen := by
  unfold MultiWordArray.dataW
  rw [List.length_take]
  exact min_eq_left h

theorem mw_take_dataW (m : MultiWordArray) (h : m.dataLen ≤ m.store.length) :
    m.dataW.take m.dataLen = m.dataW := by
  rw [show m.dataLen = m.dataW.length from (mw_dataW_length m h).symm, List.take_length]

/-- Reloading the persisted record of a well-formed array reconstructs an
array (possibly of a different specialization) with the same length, bit width
and element reads. -/
theorem reload_spec (a : Arr) (hwf : ArrWf a) :
    ∃ a', createArray (a.save).data (a.save).bitNum (a.save).len = some a' ∧ ArrWf a' ∧
      a'.lenA = a.lenA ∧ a'.bitNumA = a.bitNumA ∧
      ∀ i : Nat, i < a.lenA → a'.get (Int.ofNat i) = a.get (Int.ofNat i) := by
  cases a with
  | general g =>
    obtain ⟨hb1, hmod, hw⟩ := hwf
    simp only [Arr.save, GeneralArray.save, Arr.lenA, Arr.bitNumA]
    rcases Nat.lt_or_ge g.bitNum 64 with hlt | hge
    · refine ⟨.smallBits ⟨⟨g.data, g.bitNum, g.len⟩⟩,
        createArray_small g.data g.bitNum g.len hb1 hlt, ⟨hb1, hlt, hw⟩, rfl, rfl, ?_⟩
      intro i hi
      simp only [Arr.get]
      rw [smallBits_get_eq ⟨⟨g.data, g.bitNum, g.len⟩⟩ i hi hb1 (show g.bitNum ≤ 64 by omega),
        general_get_eq g i hi, getCore_small g.data g.bitNum i hb1 (by omega) hw]
    · have h64 : 64 < g.bitNum := by omega
      refine ⟨.general ⟨g.data, g.bitNum, g.len⟩,
        createArray_general g.data g.bitNum g.len h64 hmod, ⟨hb1, hmod, hw⟩, rfl, rfl, ?_⟩
      intro i _
      rfl
  | smallBits s =>
    obtain ⟨hb1, hlt, hw⟩ := hwf
    simp only [Arr.save, SmallBitsArray.save, GeneralArray.save]
    exact ⟨.smallBits ⟨⟨s.ga.data, s.ga.bitNum, s.ga.len⟩⟩,
      createArray_small s.ga.data s.ga.bitNum s.ga.len hb1 hlt, ⟨hb1, hlt, hw⟩, rfl, rfl,
      fun i _ => rfl⟩
  | word w =>
    obtain ⟨hlen, hw⟩ := hwf
    simp only [Arr.save, WordArray.save, Arr.lenA, Arr.bitNumA]
    have hdl := dataW_length w hlen
    refine ⟨.word ⟨w.dataW, w.dataW.length⟩, createArray_word w.dataW w.dataLen,
      ⟨le_refl _, take_words_lt hw⟩, hdl, rfl, ?_⟩
    intro i hi
    simp only [Arr.get]
    rw [word_get_eq w i hi, word_get_eq ⟨w.dataW, w.dataW.length⟩ i
      (show i < (⟨w.dataW, w.dataW.length⟩ : WordArray).dataLen by rw [hdl]; exact hi)]
    show Except.ok (⟨[(w.dataW.take w.dataW.length).getD i 0], (64 : Nat)⟩ : Vector) = _
    rw [List.take_length]
  | smallPow2 p =>
    obtain ⟨hb, hw⟩ := hwf
    have hb1 : 1 ≤ p.bitNum := by rcases hb with h|h|h|h|h|h <;> omega
    have hlt : p.bitNum < 64 := by rcases hb with h|h|h|h|h|h <;> omega
    simp only [Arr.save, SmallPow2Array.save, Arr.lenA, Arr.bitNumA]
    refine ⟨.smallBits ⟨⟨p.data, p.bitNum, p.len⟩⟩,
      createArray_small p.data p.bitNum p.len hb1 hlt, ⟨hb1, hlt, hw⟩, rfl, rfl, ?_⟩
    intro i hi
    simp only [Arr.get]
    rw [smallBits_get_eq ⟨⟨p.data, p.bitNum, p.len⟩⟩ i hi hb1 (show p.bitNum ≤ 64 by omega),
      pow2_get_eq p i hi hb1 (by omega), pow2_getWord_eq_extractW p i hb]
  | multiWord m =>
    obtain ⟨hb128, hmod, hlen, hdvd, hw⟩ := hwf
    simp only [Arr.save, MultiWordArray.save, Arr.lenA, Arr.bitNumA]
    have hdl := mw_dataW_length m hlen
    have hlenA : (⟨m.dataW, m.dataW.length, m.bitNum⟩ : MultiWordArray).lenA = m.lenA := by
      simp only [MultiWordArray.lenA]
      rw [hdl]
    refine ⟨.multiWord ⟨m.dataW, m.dataW.length, m.bitNum⟩,
      createArray_multi m.dataW m.bitNum m.lenA hb128 hmod,
      ⟨hb128, hmod, le_refl _, by rw [hdl]; exact hdvd, take_words_lt hw⟩, hlenA, rfl, ?_⟩
    intro i hi
    simp only [Arr.get]
    rw [mw_get_eq m i hi, mw_get_eq ⟨m.dataW, m.dataW.length, m.bitNum⟩ i
      (show i < (⟨m.dataW, m.dataW.length, m.bitNum⟩ : MultiWordArray).lenA by
        rw [hlenA]; exact hi)]
    show Except.ok (⟨copyRegion (List.replicate (nWords m.bitNum 1) 0) 0
      (((m.dataW.take m.dataW.length).drop (i * (m.bitNum / 64))).take (nWords m.bitNum 1)),
      m.bitNum⟩ : Vector) = _
    rw [List.take_length]

/-! LSH-layer lemmas: projection, binarize, norms bookkeeping. -/

/-! Facts about the binary32 rounding model. -/

theorem two_zpow_pos (e : Int) : (0 : ℚ) < 2 ^ e := zpow_pos (by norm_num) e

theorem two_zpow_mono {m n : Int} (h : m ≤ n) : (2 : ℚ) ^ m ≤ 2 ^ n :=
  zpow_le_zpow_right₀ (by norm_num) h

theorem nat_log2_le {n : Nat} (h : n ≠ 0) : 2 ^ Nat.log2 n ≤ n := Nat.log2_self_le h

theorem nat_lt_log2 (n : Nat) : n < 2 ^ (Nat.log2 n + 1) := Nat.lt_log2_self

theorem flog2_spec (a : ℚ) (ha : 0 < a) :
    (2 : ℚ) ^ flog2 a ≤ a ∧ a < 2 ^ (flog2 a + 1) := by
  have hnum : 0 < a.num := Rat.num_pos.mpr ha
  have hden : 0 < a.den := a.pos
  set nn := a.num.toNat with hnn
  set d := a.den with hd
  have hn1 : nn ≠ 0 := by omega
  have hd1 : d ≠ 0 := by omega
  set ln := Nat.log2 nn with hln
  set ld := Nat.log2 d with hld
  have hnq : ((nn : ℚ)) = (a.num : ℚ) := by
    have h := Int.toNat_of_nonneg (le_of_lt hnum)
    rw [hnn]
    exact_mod_cast h
  have haeq : a = (nn : ℚ) / (d : ℚ) := by
    rw [hnq, hd, Rat.num_div_den]
  have hdq : (0 : ℚ) < (d : ℚ) := by exact_mod_cast hden
  -- nat window bounds as ℚ zpow
  have hb1 : (2 : ℚ) ^ (ln : Int) ≤ (nn : ℚ) := by
    rw [zpow_natCast]
    exact_mod_cast nat_log2_le hn1
  have hb2 : (nn : ℚ) < 2 ^ ((ln : Int) + 1) := by
    have : ((ln : Int) + 1) = ((ln + 1 : Nat) : Int) := by push_cast; ring
    rw [this, zpow_natCast]
    exact_mod_cast nat_lt_log2 nn
  have hb3 : (2 : ℚ) ^ (ld : Int) ≤ (d : ℚ) := by
    rw [zpow_natCast]
    exact_mod_cast nat_log2_le hd1
  have hb4 : (d : ℚ) < 2 ^ ((ld : Int) + 1) := by
    have : ((ld : Int) + 1) = ((ld + 1 : Nat) : Int) := by push_cast; ring
    rw [this, zpow_natCast]
    exact_mod_cast nat_lt_log2 d
  set c : Int := (ln : Int) - (ld : Int) with hc
  -- window: 2^(c-1) <= a < 2^(c+1)
  have hlow : (2 : ℚ) ^ (c - 1) ≤ a := by
    rw [haeq, le_div_iff₀ hdq]
    calc (2 : ℚ) ^ (c - 1) * (d : ℚ)
        ≤ 2 ^ (c - 1) * 2 ^ ((ld : Int) + 1) := by
          exact mul_le_mul_of_nonneg_left (le_of_lt hb4) (le_of_lt (two_zpow_pos _))
      _ = 2 ^ (ln : Int) := by
          rw [← zpow_add₀ (by norm_num : (2:ℚ) ≠ 0)]
          congr 1
          omega
      _ ≤ (nn : ℚ) := hb1
  have hhigh : a < 2 ^ (c + 1) := by
    rw [haeq, div_lt_iff₀ hdq]
    calc (nn : ℚ) < 2 ^ ((ln : Int) + 1) := hb2
      _ = 2 ^ (c + 1) * 2 ^ (ld : Int) := by
          rw [← zpow_add₀ (by norm_num : (2:ℚ) ≠ 0)]
          congr 1
          omega
      _ ≤ 2 ^ (c + 1) * (d : ℚ) := by
          exact mul_le_mul_of_nonneg_left hb3 (le_of_lt (two_zpow_pos _))
  -- conclude by the definition's final comparison
  have hfv : flog2 a = if (2 : ℚ) ^ c ≤ a then c else c - 1 := by
    simp only [flog2, ← hnn, ← hd, ← hln, ← hld, ← hc]
  rw [hfv]
  split_ifs with hca
  · exact ⟨hca, hhigh⟩
  · refine ⟨hlow, ?_⟩
    have hcc : c - 1 + 1 = c := by ring
    rw [hcc]
    exact lt_of_not_ge hca

theorem flog2_eq_of (a : ℚ) (e : Int) (h1 : (2 : ℚ) ^ e ≤ a) (h2 : a < 2 ^ (e + 1)) :
    flog2 a = e := by
  have ha : 0 < a := lt_of_lt_of_le (two_zpow_pos e) h1
  obtain ⟨hl, hh⟩ := flog2_spec a ha
  by_contra hne
  rcases lt_or_gt_of_ne hne with hlt | hgt
  · have : a < a := lt_of_lt_of_le (lt_of_lt_of_le hh (two_zpow_mono (by omega))) h1
    exact absurd this (lt_irrefl a)
  · have : a < a := lt_of_lt_of_le (lt_of_lt_of_le h2 (two_zpow_mono (by omega))) hl
    exact absurd this (lt_irrefl a)

theorem rne_intCast (m : Int) : rne (m : ℚ) = m := by
  simp only [rne]
  rw [Int.floor_intCast]
  norm_num

theorem rne_floor_le (q : ℚ) : ⌊q⌋ ≤ rne q := by
  simp only [rne]
  split_ifs <;> omega

theorem rne_le_floor_add_one (q : ℚ) : rne q ≤ ⌊q⌋ + 1 := by
  simp only [rne]
  split_ifs <;> omega

theorem rne_div_self (m : Int) (u : ℚ) (hu : u ≠ 0) : rne ((m : ℚ) * u / u) = m := by
  rw [mul_div_assoc, div_self hu, mul_one, rne_intCast]

theorem round32Pos_eval (a : ℚ) (e : Int) (he : -126 ≤ e)
    (h1 : (2 : ℚ) ^ e ≤ a) (h2 : a < 2 ^ (e + 1)) :
    round32Pos a = (rne (a / 2 ^ (e - 23)) : ℚ) * 2 ^ (e - 23) := by
  simp only [round32Pos]
  rw [flog2_eq_of a e h1 h2, max_eq_left he]

theorem round32Pos_fix (m : Int) (e : Int) (he : -126 ≤ e)
    (hm1 : 2 ^ 23 ≤ m) (hm2 : m < 2 ^ 24) :
    round32Pos ((m : ℚ) * 2 ^ (e - 23)) = (m : ℚ) * 2 ^ (e - 23) := by
  have hu : (0 : ℚ) < 2 ^ (e - 23) := two_zpow_pos _
  have hmq1 : ((2 : ℚ) ^ (23 : Nat)) ≤ (m : ℚ) := by exact_mod_cast hm1
  have hmq2 : ((m : ℚ)) < 2 ^ (24 : Nat) := by exact_mod_cast hm2
  have h1 : (2 : ℚ) ^ e ≤ (m : ℚ) * 2 ^ (e - 23) := by
    calc (2 : ℚ) ^ e = 2 ^ (23 : Int) * 2 ^ (e - 23) := by
          rw [← zpow_add₀ (by norm_num : (2:ℚ) ≠ 0)]
          congr 1
          omega
      _ ≤ (m : ℚ) * 2 ^ (e - 23) := by
          refine mul_le_mul_of_nonneg_right ?_ (le_of_lt hu)
          rw [show ((23 : Int)) = ((23 : Nat) : Int) by rfl, zpow_natCast]
          exact hmq1
  have h2 : (m : ℚ) * 2 ^ (e - 23) < 2 ^ (e + 1) := by
    calc (m : ℚ) * 2 ^ (e - 23) < 2 ^ (24 : Int) * 2 ^ (e - 23) := by
          refine mul_lt_mul_of_pos_right ?_ hu
          rw [show ((24 : Int)) = ((24 : Nat) : Int) by rfl, zpow_natCast]
          exact hmq2
      _ = 2 ^ (e + 1) := by
          rw [← zpow_add₀ (by norm_num : (2:ℚ) ≠ 0)]
          congr 1
          omega
  rw [round32Pos_eval _ e he h1 h2, rne_div_self m _ (ne_of_gt hu)]

theorem flog2_le_of_lt (a : ℚ) (ha : 0 < a) (e : Int) (h : a < 2 ^ e) :
    flog2 a < e := by
  obtain ⟨hl, _⟩ := flog2_spec a ha
  by_contra hge
  have : (2 : ℚ) ^ e ≤ 2 ^ flog2 a := two_zpow_mono (by omega)
  have : a < a := lt_of_lt_of_le (lt_of_lt_of_le h this) hl
  exact absurd this (lt_irrefl a)

theorem round32Pos_fix_sub (m : Int) (hm0 : 0 < m) (hm2 : m < 2 ^ 23) :
    round32Pos ((m : ℚ) * 2 ^ (-149 : Int)) = (m : ℚ) * 2 ^ (-149 : Int) := by
  have hu : (0 : ℚ) < 2 ^ (-149 : Int) := two_zpow_pos _
  have hmq0 : (0 : ℚ) < (m : ℚ) := by exact_mod_cast hm0
  have hmq2 : ((m : ℚ)) < 2 ^ (23 : Nat) := by exact_mod_cast hm2
  have ha : 0 < (m : ℚ) * 2 ^ (-149 : Int) := mul_pos hmq0 hu
  have hlt : (m : ℚ) * 2 ^ (-149 : Int) < 2 ^ (-126 : Int) := by
    calc (m : ℚ) * 2 ^ (-149 : Int) < 2 ^ (23 : Int) * 2 ^ (-149 : Int) := by
          refine mul_lt_mul_of_pos_right ?_ hu
          rw [show ((23 : Int)) = ((23 : Nat) : Int) by rfl, zpow_natCast]
          exact hmq2
      _ = 2 ^ (-126 : Int) := by
          rw [← zpow_add₀ (by norm_num : (2:ℚ) ≠ 0)]
          norm_num
  have hf : flog2 ((m : ℚ) * 2 ^ (-149 : Int)) < -126 :=
    flog2_le_of_lt _ ha _ hlt
  simp only [round32Pos]
  rw [max_eq_right (by omega)]
  rw [show (-126 : Int) - 23 = -149 by norm_num]
  rw [rne_div_self m _ (ne_of_gt hu)]

theorem round32Pos_zero : round32Pos 0 = 0 := by
  simp only [round32Pos]
  rw [zero_div]
  have h0 : rne 0 = 0 := by
    simp only [rne]
    norm_num
  rw [h0]
  norm_num

theorem rne_nonneg (q : ℚ) (h : 0 ≤ q) : 0 ≤ rne q := by
  have : (0 : Int) ≤ ⌊q⌋ := Int.floor_nonneg.mpr h
  have := rne_floor_le q
  omega

theorem round32Pos_nonneg (a : ℚ) (ha : 0 ≤ a) : 0 ≤ round32Pos a := by
  simp only [round32Pos]
  refine mul_nonneg ?_ (le_of_lt (two_zpow_pos _))
  have hq : (0 : ℚ) ≤ a / 2 ^ (max (flog2 a) (-126) - 23) :=
    div_nonneg ha (le_of_lt (two_zpow_pos _))
  exact_mod_cast rne_nonneg _ hq

theorem round32Pos_idem (a : ℚ) (ha : 0 < a) :
    round32Pos (round32Pos a) = round32Pos a := by
  set e := max (flog2 a) (-126) with hedef
  set m := rne (a / 2 ^ (e - 23)) with hmdef
  have hback : round32Pos a = (m : ℚ) * 2 ^ (e - 23) := by
    rw [hmdef, hedef]
    rfl
  have he126 : -126 ≤ e := le_max_right _ _
  have hu : (0 : ℚ) < 2 ^ (e - 23) := two_zpow_pos _
  have hm0 : 0 ≤ m := by
    rw [hmdef]
    exact rne_nonneg _ (div_nonneg (le_of_lt ha) (le_of_lt hu))
  rcases eq_or_lt_of_le hm0 with hmz | hmpos
  · -- rounded to zero
    rw [hback, ← hmz]
    norm_num [round32Pos_zero]
  · -- m >= 1
    obtain ⟨hfl, hfh⟩ := flog2_spec a ha
    have hm24 : m ≤ 2 ^ 24 := by
      -- q = a / u < 2^24 in both the normal and the subnormal case
      have hq24 : a / 2 ^ (e - 23) < 2 ^ (24 : Int) := by
        rw [div_lt_iff₀ hu, ← zpow_add₀ (by norm_num : (2:ℚ) ≠ 0)]
        have hae : a < 2 ^ (e + 1) :=
          lt_of_lt_of_le hfh (two_zpow_mono (by omega))
        exact lt_of_lt_of_le hae (two_zpow_mono (by omega))
      have hfq : ⌊a / 2 ^ (e - 23)⌋ < 2 ^ 24 := by
        have := Int.floor_le (a / 2 ^ (e - 23))
        have h2 : ((2 ^ 24 : Int) : ℚ) = 2 ^ (24 : Int) := by
          rw [show ((24 : Int)) = ((24 : Nat) : Int) by rfl, zpow_natCast]
          push_cast
          ring
        have : (⌊a / 2 ^ (e - 23)⌋ : ℚ) < ((2 ^ 24 : Int) : ℚ) := by
          rw [h2]
          exact lt_of_le_of_lt this hq24
        exact_mod_cast this
      have := rne_le_floor_add_one (a / 2 ^ (e - 23))
      rw [← hmdef] at this
      omega
    rcases le_or_lt (-126) (flog2 a) with hnormal | hsub
    · -- normal: e = flog2 a, and m >= 2^23
      have hee : e = flog2 a := by rw [hedef]; exact max_eq_left hnormal
      have hm23 : 2 ^ 23 ≤ m := by
        have hq23 : (2 : ℚ) ^ (23 : Int) ≤ a / 2 ^ (e - 23) := by
          rw [le_div_iff₀ hu, ← zpow_add₀ (by norm_num : (2:ℚ) ≠ 0)]
          rw [hee]
          exact le_trans (two_zpow_mono (by omega)) hfl
        have hfq : 2 ^ 23 ≤ ⌊a / 2 ^ (e - 23)⌋ := by
          rw [Int.le_floor]
          have h2 : ((2 ^ 23 : Int) : ℚ) = 2 ^ (23 : Int) := by
            rw [show ((23 : Int)) = ((23 : Nat) : Int) by rfl, zpow_natCast]
            push_cast
            ring
          rw [h2]
          exact hq23
        have := rne_floor_le (a / 2 ^ (e - 23))
        rw [← hmdef] at this
        omega
      rcases eq_or_lt_of_le hm24 with hmtop | hmlt
      · -- m = 2^24: the value is the power 2^(e+1), still a grid point
        rw [hback, hmtop]
        have hrw : ((2 ^ 24 : Int) : ℚ) * 2 ^ (e - 23) =
            ((2 ^ 23 : Int) : ℚ) * 2 ^ ((e + 1) - 23) := by
          push_cast
          rw [show ((e : Int) + 1 - 23) = (e - 23) + 1 by ring,
            zpow_add₀ (by norm_num : (2:ℚ) ≠ 0)]
          ring
        rw [hrw]
        exact round32Pos_fix _ (e + 1) (by omega) (by norm_num) (by norm_num)
      · rw [hback]
        exact round32Pos_fix m e he126 hm23 hmlt
    · -- subnormal: e = -126 and m <= 2^23
      have hee : e = -126 := by rw [hedef]; exact max_eq_right (by omega)
      have hm23 : m ≤ 2 ^ 23 := by
        have hq23 : a / 2 ^ (e - 23) < 2 ^ (23 : Int) := by
          rw [div_lt_iff₀ hu, ← zpow_add₀ (by norm_num : (2:ℚ) ≠ 0)]
          have hae : a < 2 ^ (-126 : Int) :=
            lt_of_lt_of_le hfh (two_zpow_mono (by omega))
          rw [hee]
          exact lt_of_lt_of_le hae (two_zpow_mono (by omega))
        have hfq : ⌊a / 2 ^ (e - 23)⌋ < 2 ^ 23 := by
          have := Int.floor_le (a / 2 ^ (e - 23))
          have h2 : ((2 ^ 23 : Int) : ℚ) = 2 ^ (23 : Int) := by
            rw [show ((23 : Int)) = ((23 : Nat) : Int) by rfl, zpow_natCast]
            push_cast
            ring
          have hx : (⌊a / 2 ^ (e - 23)⌋ : ℚ) < ((2 ^ 23 : Int) : ℚ) := by
            rw [h2]
            exact lt_of_le_of_lt this hq23
          exact_mod_cast hx
        have := rne_le_floor_add_one (a / 2 ^ (e - 23))
        rw [← hmdef] at this
        omega
      rcases eq_or_lt_of_le hm23 with hmtop | hmlt
      · -- m = 2^23: grid point at the bottom of the normal range
        rw [hback, hmtop, hee]
        exact round32Pos_fix _ (-126) (by omega) (by norm_num) (by norm_num)
      · rw [hback, hee]
        rw [show (-126 : Int) - 23 = -149 by norm_num]
        exact round32Pos_fix_sub m hmpos hmlt

theorem round32_zero : round32 0 = 0 := by
  unfold round32
  rw [if_pos rfl]

theorem round32_idem (q : ℚ) : round32 (round32 q) = round32 q := by
  by_cases h0 : q = 0
  · rw [h0, round32_zero, round32_zero]
  · by_cases hneg : q < 0
    · have hq : round32 q = -(round32Pos (-q)) := by
        unfold round32
        rw [if_neg h0, if_pos hneg]
      have hpos : 0 < -q := by linarith
      have hrnn : 0 ≤ round32Pos (-q) := round32Pos_nonneg _ (le_of_lt hpos)
      rcases eq_or_lt_of_le hrnn with hz | hp
      · rw [hq, ← hz]
        norm_num [round32_zero]
      · rw [hq]
        unfold round32
        rw [if_neg (by intro hc; rw [neg_eq_zero] at hc; exact absurd hc (ne_of_gt hp)),
          if_pos (by linarith), neg_neg, round32Pos_idem _ hpos]
    · have hqpos : 0 < q := lt_of_le_of_ne (not_lt.mp hneg) (Ne.symm h0)
      have hq : round32 q = round32Pos q := by
        unfold round32
        rw [if_neg h0, if_neg hneg]
      have hrnn : 0 ≤ round32Pos q := round32Pos_nonneg _ (le_of_lt hqpos)
      rcases eq_or_lt_of_le hrnn with hz | hp
      · rw [hq, ← hz, round32_zero]
      · rw [hq]
        unfold round32
        rw [if_neg (ne_of_gt hp), if_neg (not_lt.mpr (le_of_lt hp))]
        exact round32Pos_idem _ hqpos

theorem addF32_comm (x y : ℚ) : addF32 x y = addF32 y x := by
  unfold addF32
  rw [add_comm]

theorem addF32_zero_round (x : ℚ) : addF32 0 (round32 x) = round32 x := by
  unfold addF32
  rw [zero_add, round32_idem]

theorem mulF32_round (x y : ℚ) : round32 (mulF32 x y) = mulF32 x y := by
  unfold mulF32
  rw [round32_idem]

theorem round32_pos_eq (a : ℚ) (ha : 0 < a) : round32 a = round32Pos a := by
  unfold round32
  rw [if_neg (ne_of_gt ha), if_neg (not_lt.mpr (le_of_lt ha))]

theorem round32_neg_eq (q : ℚ) (h : 0 < q) : round32 (-q) = -(round32 q) := by
  unfold round32
  rw [if_neg (by intro hc; rw [neg_eq_zero] at hc; exact absurd hc (ne_of_gt h)),
    if_pos (by linarith), neg_neg, if_neg (ne_of_gt h), if_neg (not_lt.mpr (le_of_lt h))]

theorem round32_fix_pos (m : Int) (e : Int) (he : -126 ≤ e)
    (hm1 : 2 ^ 23 ≤ m) (hm2 : m < 2 ^ 24) :
    round32 ((m : ℚ) * 2 ^ (e - 23)) = (m : ℚ) * 2 ^ (e - 23) := by
  have hm0 : (0 : ℚ) < (m : ℚ) := by exact_mod_cast lt_of_lt_of_le (by norm_num) hm1
  have hpos : 0 < (m : ℚ) * 2 ^ (e - 23) := mul_pos hm0 (two_zpow_pos _)
  rw [round32_pos_eq _ hpos, round32Pos_fix m e he hm1 hm2]

theorem round32_one : round32 1 = 1 := by
  have h : (1 : ℚ) = ((2 ^ 23 : Int) : ℚ) * 2 ^ ((0 : Int) - 23) := by
    rw [show ((0 : Int) - 23) = -((23 : Nat) : Int) by norm_num, zpow_neg, zpow_natCast]
    push_cast
    norm_num
  rw [h, round32_fix_pos _ 0 (by norm_num) (by norm_num) (by norm_num)]

theorem round32_neg_one : round32 (-1) = -1 := by
  rw [round32_neg_eq 1 one_pos, round32_one]

theorem round32_eps : round32 (1 / 2 ^ 25) = 1 / 2 ^ 25 := by
  have h : (1 / 2 ^ 25 : ℚ) = ((2 ^ 23 : Int) : ℚ) * 2 ^ ((-25 : Int) - 23) := by
    rw [show ((-25 : Int) - 23) = -((48 : Nat) : Int) by norm_num, zpow_neg, zpow_natCast]
    push_cast
    norm_num
  rw [h, round32_fix_pos _ (-25) (by norm_num) (by norm_num) (by norm_num)]

theorem rne_eval_lo (q : ℚ) (f : Int) (h1 : (f : ℚ) ≤ q) (h2 : q < (f : ℚ) + 1 / 2) :
    rne q = f := by
  have hfl : ⌊q⌋ = f := by
    rw [Int.floor_eq_iff]
    exact ⟨h1, by linarith⟩
  simp only [rne]
  rw [hfl, if_pos (by linarith)]

theorem round32_one_add_eps : round32 (1 + 1 / 2 ^ 25) = 1 := by
  have hpos : (0 : ℚ) < 1 + 1 / 2 ^ 25 := by norm_num
  have h1 : (2 : ℚ) ^ (0 : Int) ≤ 1 + 1 / 2 ^ 25 := by
    rw [zpow_zero]
    norm_num
  have h2 : (1 + 1 / 2 ^ 25 : ℚ) < 2 ^ ((0 : Int) + 1) := by
    rw [show ((0 : Int) + 1) = ((1 : Nat) : Int) by norm_num, zpow_natCast]
    norm_num
  rw [round32_pos_eq _ hpos, round32Pos_eval _ 0 (by norm_num) h1 h2]
  have hq : (1 + 1 / 2 ^ 25 : ℚ) / 2 ^ ((0 : Int) - 23) = 2 ^ 23 + 1 / 4 := by
    rw [show ((0 : Int) - 23) = -((23 : Nat) : Int) by norm_num, zpow_neg, zpow_natCast,
      div_eq_mul_inv, inv_inv]
    norm_num
  rw [hq, rne_eval_lo _ (2 ^ 23) (by push_cast; norm_num) (by push_cast; norm_num)]
  rw [show ((0 : Int) - 23) = -((23 : Nat) : Int) by norm_num, zpow_neg, zpow_natCast]
  push_cast
  norm_num

theorem mulF32_one (x : ℚ) : mulF32 1 x = round32 x := by
  unfold mulF32
  rw [one_mul]

theorem addF32_zero_mulF32 (x y : ℚ) : addF32 0 (mulF32 x y) = mulF32 x y := by
  unfold addF32
  rw [zero_add]
  exact mulF32_round x y

theorem addF32_zero_one : addF32 0 1 = 1 := by
  unfold addF32
  rw [zero_add, round32_one]

theorem addF32_one_negone : addF32 1 (-1) = 0 := by
  unfold addF32
  rw [show (1 : ℚ) + -1 = 0 by norm_num, round32_zero]

theorem addF32_zero_eps : addF32 0 (1 / 2 ^ 25) = 1 / 2 ^ 25 := by
  unfold addF32
  rw [zero_add, round32_eps]

theorem addF32_one_eps : addF32 1 (1 / 2 ^ 25) = 1 := by
  unfold addF32
  exact round32_one_add_eps

theorem mapIdx_singleton (f : Nat → ℚ → ℚ) (x : ℚ) : List.mapIdx f [x] = [f 0 x] := by
  refine List.ext_getElem (by simp [List.length_mapIdx]) fun n h1 h2 => ?_
  have hn : n = 0 := by
    simp [List.length_mapIdx] at h1
    omega
  subst hn
  simp [List.getElem_mapIdx]

theorem proj_three (R : RealOps) (d1 d2 d3 : String) (w1 w2 w3 : ℚ) :
    randomProjection R [(d1, w1), (d2, w2), (d3, w3)] 1 =
      [addF32 (addF32 (addF32 0 (mulF32 w1 (round32 (R.gauss d1 0))))
        (mulF32 w2 (round32 (R.gauss d2 0)))) (mulF32 w3 (round32 (R.gauss d3 0)))] := by
  unfold randomProjection
  simp only [List.foldl_cons, List.foldl_nil]
  rw [show List.replicate 1 (0 : ℚ) = [0] from rfl, mapIdx_singleton, mapIdx_singleton,
    mapIdx_singleton]

theorem binarize_single (x : ℚ) :
    binarize [x] = if 0 < x then (NewVector 1).setBit 0 else NewVector 1 := rfl

theorem foldl_proj_length (R : RealOps) (l : FeatureVector) :
    ∀ acc : List ℚ, (l.foldl (fun proj p => proj.mapIdx
      (fun j acc2 => addF32 acc2 (mulF32 p.2 (round32 (R.gauss p.1 j))))) acc).length =
      acc.length := by
  induction l with
  | nil => intro acc; rfl
  | cons p rest ih =>
    intro acc
    rw [List.foldl_cons, ih]
    exact List.length_mapIdx

theorem randomProjection_length (R : RealOps) (v : FeatureVector) (h : Nat) :
    (randomProjection R v h).length = h := by
  unfold randomProjection
  rw [foldl_proj_length, List.length_replicate]

theorem mapIdx_map_range {α β : Type} (f : Nat → α → β) (g : Nat → α) (h : Nat) :
    List.mapIdx f ((List.range h).map g) = (List.range h).map (fun j => f j (g j)) := by
  refine List.ext_getElem (by simp [List.length_mapIdx]) fun n h1 h2 => ?_
  simp [List.getElem_mapIdx]

theorem binarizeAux_bitNum (proj : List ℚ) :
    ∀ (ret : Vector) (i : Nat), (binarizeAux ret proj i).bitNum = ret.bitNum := by
  induction proj with
  | nil => intro ret i; rfl
  | cons x rest ih =>
    intro ret i
    unfold binarizeAux
    rw [ih]
    split <;> rfl

theorem binarize_bitNum (proj : List ℚ) : (binarize proj).bitNum = proj.length := by
  unfold binarize
  rw [binarizeAux_bitNum]
  rfl

theorem cosineLSH_bitNum (R : RealOps) (v : FeatureVector) (h : Nat) :
    (cosineLSH R v h).bitNum = h := by
  unfold cosineLSH
  rw [binarize_bitNum, randomProjection_length]

theorem setBit_wf {v : Vector} (hv : VWf v) {j : Nat} (hj : j < v.bitNum) :
    VWf (v.setBit j) := by
  obtain ⟨hlen, hwords, hval⟩ := hv
  have hword : v.data.getD (j / 64) 0 ||| 1 <<< (j % 64) < 2 ^ 64 := by
    refine lor_lt_pow (getD_lt v.data hwords _) ?_
    have h1 : (1 : Nat) < 2 ^ 1 := by norm_num
    have := shiftLeft_lt_pow (s := j % 64) h1
    exact lt_of_lt_of_le this (Nat.pow_le_pow_right (by norm_num) (by omega))
  have hwords' : ∀ w ∈ (v.setBit j).data, w < 2 ^ 64 := by
    intro w hw
    unfold Vector.setBit at hw
    simp only at hw
    rcases List.mem_or_eq_of_mem_set hw with hmem | heq
    · exact hwords w hmem
    · rw [heq]
      exact hword
  refine ⟨?_, hwords', ?_⟩
  · show (v.data.set _ _).length = _
    rw [List.length_set]
    exact hlen
  · show valW (v.data.set (j / 64) (v.data.getD (j / 64) 0 ||| 1 <<< (j % 64))) < 2 ^ v.bitNum
    have hwords2 : ∀ w ∈ v.data.set (j / 64) (v.data.getD (j / 64) 0 ||| 1 <<< (j % 64)),
        w < 2 ^ 64 := hwords'
    refine lt_two_pow_of_high fun m hm => ?_
    rw [valW_testBit _ hwords2, getD_set]
    split
    · next hc =>
      rw [Nat.testBit_lor, Nat.testBit_shiftLeft]
      have hvm : (valW v.data).testBit m = false := testBit_high hval hm
      rw [valW_testBit _ hwords] at hvm
      rw [← hc.1] at hvm
      rw [hvm]
      have hne : ¬ (m % 64 - j % 64 = 0) ∨ ¬ (j % 64 ≤ m % 64) := by
        by_cases hle : j % 64 ≤ m % 64
        · left
          intro h0
          have : m % 64 = j % 64 := by omega
          have : m = j := by omega
          omega
        · right
          exact hle
      rcases hne with hne | hne
      · have : Nat.testBit 1 (m % 64 - j % 64) = false := by
          rcases Nat.eq_zero_or_pos (m % 64 - j % 64) with h0 | h0
          · exact absurd h0 hne
          · exact testBit_high (show (1 : Nat) < 2 ^ 1 by norm_num) (by omega)
        simp [this]
      · simp [hne]
    · have hvm : (valW v.data).testBit m = false := testBit_high hval hm
      rw [valW_testBit _ hwords] at hvm
      exact hvm

theorem newVector_wf (b : Nat) : VWf (NewVector b) := by
  refine ⟨by simp [NewVector], ?_, ?_⟩
  · intro w hw
    rw [List.eq_of_mem_replicate hw]
    positivity
  · have : valW (List.replicate (nWords b 1) 0) = 0 :=
      valW_zero _ fun w hw => List.eq_of_mem_replicate hw
    rw [show (NewVector b).data = List.replicate (nWords b 1) 0 from rfl, this]
    positivity

theorem binarizeAux_wf (proj : List ℚ) :
    ∀ (ret : Vector) (i : Nat), VWf ret → i + proj.length ≤ ret.bitNum →
      VWf (binarizeAux ret proj i) := by
  induction proj with
  | nil => intro ret i h _; exact h
  | cons x rest ih =>
    intro ret i hret hle
    unfold binarizeAux
    by_cases hx : 0 < x
    · rw [if_pos hx]
      refine ih _ _ (setBit_wf hret (by simp only [List.length_cons] at hle; omega)) ?_
      show i + 1 + rest.length ≤ ret.bitNum
      simp only [List.length_cons] at hle
      omega
    · rw [if_neg hx]
      refine ih _ _ hret ?_
      simp only [List.length_cons] at hle
      omega

theorem binarize_wf (proj : List ℚ) : VWf (binarize proj) := by
  unfold binarize
  exact binarizeAux_wf proj _ 0 (newVector_wf _) (by simp [NewVector])

theorem cosineLSH_wf (R : RealOps) (v : FeatureVector) (h : Nat) :
    VWf (cosineLSH R v h) := binarize_wf _

theorem normsResize_length (ns : List ℚ) (n : Nat) : (normsResize ns n).length = n := by
  unfold normsResize
  rw [List.length_append, List.length_take, List.length_replicate]
  omega

/-! Well-formedness preservation of resize. -/

theorem copyRegion_words_lt {d src : List Nat} (hd : ∀ w ∈ d, w < 2 ^ 64)
    (hs : ∀ w ∈ src, w < 2 ^ 64) (s : Nat) : ∀ w ∈ copyRegion d s src, w < 2 ^ 64 := by
  induction src generalizing d s with
  | nil => exact hd
  | cons w ws ih =>
    unfold copyRegion
    split
    · refine ih ?_ (fun x hx => hs x (by simp [hx])) (s + 1)
      intro x hx
      rcases List.mem_or_eq_of_mem_set hx with hmem | heq
      · exact hd x hmem
      · rw [heq]
        exact hs w (by simp)
    · exact hd

theorem replicate_words_lt (L : Nat) : ∀ w ∈ List.replicate L (0 : Nat), w < 2 ^ 64 := by
  intro w hw
  rw [List.eq_of_mem_replicate hw]
  positivity

theorem resize_wf (a : Arr) (hwf : ArrWf a) (n : Nat) : ArrWf (a.resize n) := by
  cases a with
  | general g =>
    obtain ⟨hb1, hmod, hw⟩ := hwf
    show ArrWf (.general (g.resize n))
    unfold GeneralArray.resize GeneralArray.reserve
    split
    · exact ⟨hb1, hmod, hw⟩
    · exact ⟨hb1, hmod, copyRegion_words_lt (replicate_words_lt _) hw 0⟩
  | smallBits s =>
    obtain ⟨hb1, hlt, hw⟩ := hwf
    show ArrWf (.smallBits (s.resize n))
    unfold SmallBitsArray.resize GeneralArray.resize GeneralArray.reserve
    split
    · exact ⟨hb1, hlt, hw⟩
    · exact ⟨hb1, hlt, copyRegion_words_lt (replicate_words_lt _) hw 0⟩
  | word w =>
    obtain ⟨hlen, hw⟩ := hwf
    show ArrWf (.word (w.resize n))
    unfold WordArray.resize
    split
    · next hc => exact ⟨hc, hw⟩
    · refine ⟨?_, copyRegion_words_lt (replicate_words_lt _) (take_words_lt hw) 0⟩
      show n ≤ (copyRegion (List.replicate (2 * maxInt w.store.length n) 0) 0 w.dataW).length
      rw [copyRegion_length, List.length_replicate]
      unfold maxInt
      omega
  | smallPow2 p =>
    obtain ⟨hb, hw⟩ := hwf
    show ArrWf (.smallPow2 (p.resize n))
    simp only [SmallPow2Array.resize]
    split
    · exact ⟨hb, hw⟩
    · exact ⟨hb, copyRegion_words_lt (replicate_words_lt _) hw 0⟩
  | multiWord m =>
    obtain ⟨hb128, hmod, hlen, hdvd, hw⟩ := hwf
    show ArrWf (.multiWord (m.resize n))
    simp only [MultiWordArray.resize]
    split
    · next hc => exact ⟨hb128, hmod, hc, ⟨n, Nat.mul_comm n (m.bitNum / 64)⟩, hw⟩
    · refine ⟨hb128, hmod, ?_, ⟨n, Nat.mul_comm n (m.bitNum / 64)⟩,
        copyRegion_words_lt (replicate_words_lt _) (take_words_lt hw) 0⟩
      show n * (m.bitNum / 64) ≤ (copyRegion (List.replicate
        (2 * maxInt m.store.length (n * (m.bitNum / 64))) 0) 0 m.dataW).length
      rw [copyRegion_length, List.length_replicate]
      unfold maxInt
      omega

/-! Frame reasoning helpers for Set and Resize. -/

theorem bitAt_set (d : List Nat) (i w j : Nat) :
    bitAt (d.set i w) j =
      if i = j / 64 ∧ i < d.length then w.testBit (j % 64) else bitAt d j := by
  unfold bitAt
  rw [getD_set]
  split <;> rfl

theorem bitAt_copyRegion_outside (d src : List Nat) (s j : Nat)
    (h : j / 64 < s ∨ s + src.length ≤ j / 64) :
    bitAt (copyRegion d s src) j = bitAt d j := by
  unfold bitAt
  rw [copyRegion_getD, if_neg (by omega)]

theorem set_words_lt {d : List Nat} (hd : ∀ w ∈ d, w < 2 ^ 64) {i x : Nat}
    (hx : x < 2 ^ 64) : ∀ w ∈ d.set i x, w < 2 ^ 64 := by
  intro w hw
  rcases List.mem_or_eq_of_mem_set hw with h | h
  · exact hd w h
  · rw [h]
    exact hx

theorem copyTrunc_map (L : Nat) (src : List Nat) :
    copyRegion (List.replicate L 0) 0 src = (List.range L).map (fun t => src.getD t 0) := by
  refine List.ext_getElem (by simp [copyRegion_length]) fun t h1 h2 => ?_
  rw [copyRegion_length, List.length_replicate] at h1
  have hg : (copyRegion (List.replicate L 0) 0 src)[t] =
      (copyRegion (List.replicate L 0) 0 src).getD t 0 := by
    rw [List.getD_eq_getElem?_getD, List.getElem?_eq_getElem (by rw [copyRegion_length, List.length_replicate]; exact h1)]
    rfl
  rw [hg, copyRegion_replicate_getD, if_pos h1]
  simp

theorem word_zero_of_bits (d : List Nat) (t : Nat) (hd : d.getD t 0 < 2 ^ 64)
    (h : ∀ k, k < 64 → bitAt d (64 * t + k) = false) : d.getD t 0 = 0 := by
  refine Nat.zero_of_testBit_eq_false fun k => ?_
  by_cases hk : k < 64
  · have := h k hk
    unfold bitAt at this
    rw [show (64 * t + k) / 64 = t by omega, show (64 * t + k) % 64 = k by omega] at this
    exact this
  · exact testBit_high hd (by omega)

theorem testBit_compl64 (x k : Nat) :
    (compl64 x).testBit k = (decide (k < 64)).xor (x.testBit k) := by
  unfold compl64
  rw [Nat.testBit_xor, Nat.testBit_two_pow_sub_one]

/-- Length, word bounds, and bit-level frame of the general splice Set: only
the bits of element n change. -/
theorem setCore_general_spec (d : List Nat) (b n : Nat) (v : Vector)
    (hb1 : 1 ≤ b) (hd : ∀ w ∈ d, w < 2 ^ 64) (hv : VWf v) (hvb : v.bitNum = b) :
    (GeneralArray.setCore d b n v).length = d.length ∧
    (∀ w ∈ GeneralArray.setCore d b n v, w < 2 ^ 64) ∧
    (∀ j, j < n * b ∨ n * b + b ≤ j →
      bitAt (GeneralArray.setCore d b n v) j = bitAt d j) := by
  have hvl : v.data.length = (b + 63) / 64 := by
    have hx := hv.1
    rw [hvb] at hx
    unfold nWords at hx
    rw [Nat.mul_one] at hx
    exact hx
  have hvw : ∀ w ∈ v.data, w < 2 ^ 64 := hv.2.1
  simp only [GeneralArray.setCore]
  generalize hl : n * b = lbit
  split_ifs with h1 h2 h3 h4 h5
  · -- single-word write
    refine ⟨List.length_set _ _ _, set_words_lt hd (setB_lt (getD_lt d hd _) (by omega)), ?_⟩
    intro j hj
    rw [bitAt_set]
    split
    · next hc =>
      rw [testBit_setB (getD_lt d hd _) (by omega), if_neg (by omega)]
      unfold bitAt
      rw [hc.1]
    · rfl
  · -- aligned, whole words
    have hb64 : b % 64 = 0 := by omega
    refine ⟨copyRegion_length _ _ _, copyRegion_words_lt hd hvw _, ?_⟩
    intro j hj
    exact bitAt_copyRegion_outside d v.data _ j (by rw [hvl]; omega)
  · -- aligned with a trailing partial word
    have hd1 : ∀ w ∈ copyRegion d (lbit / 64) (v.data.take (v.data.length - 1)), w < 2 ^ 64 :=
      copyRegion_words_lt hd (take_words_lt hvw) _
    refine ⟨by rw [List.length_set, copyRegion_length],
      set_words_lt hd1 (setB_lt (getD_lt _ hd1 _) (by omega)), ?_⟩
    intro j hj
    rw [bitAt_set]
    split
    · next hc =>
      rw [testBit_setB (getD_lt _ hd1 _) (by omega), if_neg (by omega)]
      have he : ((copyRegion d (lbit / 64) (v.data.take (v.data.length - 1))).getD
          ((lbit + b) / 64) 0).testBit (j % 64) =
          bitAt (copyRegion d (lbit / 64) (v.data.take (v.data.length - 1))) j := by
        unfold bitAt
        rw [hc.1]
      rw [he]
      exact bitAt_copyRegion_outside d _ _ j (by rw [List.length_take, hvl]; omega)
    · exact bitAt_copyRegion_outside d _ _ j (by rw [List.length_take, hvl]; omega)
  · -- unaligned, left piece shorter than the residue
    have hd1 : ∀ w ∈ copyRegion d (lbit / 64 + 1)
        (v.data.take ((lbit + b) / 64 - (lbit / 64 + 1))), w < 2 ^ 64 :=
      copyRegion_words_lt hd (take_words_lt hvw) _
    have hd2 : ∀ w ∈ (copyRegion d (lbit / 64 + 1)
        (v.data.take ((lbit + b) / 64 - (lbit / 64 + 1)))).set ((lbit + b) / 64)
          (setB ((copyRegion d (lbit / 64 + 1)
            (v.data.take ((lbit + b) / 64 - (lbit / 64 + 1)))).getD ((lbit + b) / 64) 0) 0
            (v.data.getD (v.data.length - 1) 0) ((lbit + b) % 64)), w < 2 ^ 64 :=
      set_words_lt hd1 (setB_lt (getD_lt _ hd1 _) (by omega))
    refine ⟨by rw [List.length_set, List.length_set, copyRegion_length],
      set_words_lt hd2 (setB_lt (getD_lt _ hd2 _) (by omega)), ?_⟩
    intro j hj
    rw [bitAt_set]
    split
    · next hc =>
      rw [testBit_setB (getD_lt _ hd2 _) (by omega), if_neg (by omega)]
      have he : ∀ dd : List Nat, (dd.getD (lbit / 64) 0).testBit (j % 64) = bitAt dd j := by
        intro dd
        unfold bitAt
        rw [hc.1]
      rw [he]
      rw [bitAt_set, if_neg (by omega)]
      exact bitAt_copyRegion_outside d _ _ j (by rw [List.length_take, hvl]; omega)
    · rw [bitAt_set]
      split
      · next hc2 =>
        rw [testBit_setB (getD_lt _ hd1 _) (by omega), if_neg (by omega)]
        have he : ((copyRegion d (lbit / 64 + 1)
            (v.data.take ((lbit + b) / 64 - (lbit / 64 + 1)))).getD ((lbit + b) / 64) 0).testBit
            (j % 64) = bitAt (copyRegion d (lbit / 64 + 1)
            (v.data.take ((lbit + b) / 64 - (lbit / 64 + 1)))) j := by
          unfold bitAt
          rw [hc2.1]
        rw [he]
        exact bitAt_copyRegion_outside d _ _ j (by rw [List.length_take, hvl]; omega)
      · exact bitAt_copyRegion_outside d _ _ j (by rw [List.length_take, hvl]; omega)
  · -- unaligned, left piece equals the residue
    have hd1 : ∀ w ∈ copyRegion d (lbit / 64 + 1)
        (v.data.take ((lbit + b) / 64 - (lbit / 64 + 1))), w < 2 ^ 64 :=
      copyRegion_words_lt hd (take_words_lt hvw) _
    refine ⟨by rw [List.length_set, copyRegion_length],
      set_words_lt hd1 (setB_lt (getD_lt _ hd1 _) (by omega)), ?_⟩
    intro j hj
    rw [bitAt_set]
    split
    · next hc =>
      rw [testBit_setB (getD_lt _ hd1 _) (by omega), if_neg (by omega)]
      have he : ((copyRegion d (lbit / 64 + 1)
          (v.data.take ((lbit + b) / 64 - (lbit / 64 + 1)))).getD (lbit / 64) 0).testBit
          (j % 64) = bitAt (copyRegion d (lbit / 64 + 1)
          (v.data.take ((lbit + b) / 64 - (lbit / 64 + 1)))) j := by
        unfold bitAt
        rw [hc.1]
      rw [he]
      exact bitAt_copyRegion_outside d _ _ j (by rw [List.length_take, hvl]; omega)
    · exact bitAt_copyRegion_outside d _ _ j (by rw [List.length_take, hvl]; omega)
  · -- unaligned, left piece longer than the residue: three writes
    have hd1 : ∀ w ∈ copyRegion d (lbit / 64 + 1)
        (v.data.take ((lbit + b) / 64 - (lbit / 64 + 1))), w < 2 ^ 64 :=
      copyRegion_words_lt hd (take_words_lt hvw) _
    have hd2 : ∀ w ∈ (copyRegion d (lbit / 64 + 1)
        (v.data.take ((lbit + b) / 64 - (lbit / 64 + 1)))).set ((lbit + b) / 64)
          (setB ((copyRegion d (lbit / 64 + 1)
            (v.data.take ((lbit + b) / 64 - (lbit / 64 + 1)))).getD ((lbit + b) / 64) 0) 0
            (v.data.getD (v.data.length - 2) 0) ((lbit + b) % 64)), w < 2 ^ 64 :=
      set_words_lt hd1 (setB_lt (getD_lt _ hd1 _) (by omega))
    have hoff : lbit % 64 ≤ (lbit + b) % 64 := by omega
    have hd3 : ∀ w ∈ ((copyRegion d (lbit / 64 + 1)
        (v.data.take ((lbit + b) / 64 - (lbit / 64 + 1)))).set ((lbit + b) / 64)
          (setB ((copyRegion d (lbit / 64 + 1)
            (v.data.take ((lbit + b) / 64 - (lbit / 64 + 1)))).getD ((lbit + b) / 64) 0) 0
            (v.data.getD (v.data.length - 2) 0) ((lbit + b) % 64))).set (lbit / 64)
          (setB (((copyRegion d (lbit / 64 + 1)
            (v.data.take ((lbit + b) / 64 - (lbit / 64 + 1)))).set ((lbit + b) / 64)
            (setB ((copyRegion d (lbit / 64 + 1)
              (v.data.take ((lbit + b) / 64 - (lbit / 64 + 1)))).getD ((lbit + b) / 64) 0) 0
              (v.data.getD (v.data.length - 2) 0) ((lbit + b) % 64))).getD (lbit / 64) 0)
            (lbit % 64) (v.data.getD (v.data.length - 2) 0 >>> ((lbit + b) % 64))
            (64 - (lbit + b) % 64)), w < 2 ^ 64 :=
      set_words_lt hd2 (setB_lt (getD_lt _ hd2 _) (by omega))
    refine ⟨by rw [List.length_set, List.length_set, List.length_set, copyRegion_length],
      set_words_lt hd3 (setB_lt (getD_lt _ hd3 _) (by omega)), ?_⟩
    intro j hj
    rw [bitAt_set]
    split
    · next hc =>
      rw [testBit_setB (getD_lt _ hd3 _) (by omega), if_neg (by omega)]
      have he : ∀ dd : List Nat, (dd.getD (lbit / 64) 0).testBit (j % 64) = bitAt dd j := by
        intro dd
        unfold bitAt
        rw [hc.1]
      rw [he]
      rw [bitAt_set]
      have hlen : lbit / 64 < ((copyRegion d (lbit / 64 + 1)
          (v.data.take ((lbit + b) / 64 - (lbit / 64 + 1)))).set ((lbit + b) / 64)
          (setB ((copyRegion d (lbit / 64 + 1)
            (v.data.take ((lbit + b) / 64 - (lbit / 64 + 1)))).getD ((lbit + b) / 64) 0) 0
            (v.data.getD (v.data.length - 2) 0) ((lbit + b) % 64))).length := by
        have hx := hc.2
        rw [List.length_set] at hx
        exact hx
      rw [if_pos ⟨hc.1, hlen⟩]
      rw [testBit_setB (getD_lt _ hd2 _) (by omega), if_neg (by omega)]
      rw [he]
      rw [bitAt_set, if_neg (by omega)]
      exact bitAt_copyRegion_outside d _ _ j (by rw [List.length_take, hvl]; omega)
    · next hna =>
      rw [bitAt_set]
      split
      · next hc2 =>
        exact absurd ⟨hc2.1, by rw [List.length_set]; exact hc2.2⟩ hna
      · rw [bitAt_set]
        split
        · next hc3 =>
          rw [testBit_setB (getD_lt _ hd1 _) (by omega), if_neg (by omega)]
          have he : ((copyRegion d (lbit / 64 + 1)
              (v.data.take ((lbit + b) / 64 - (lbit / 64 + 1)))).getD ((lbit + b) / 64) 0).testBit
              (j % 64) = bitAt (copyRegion d (lbit / 64 + 1)
              (v.data.take ((lbit + b) / 64 - (lbit / 64 + 1)))) j := by
            unfold bitAt
            rw [hc3.1]
          rw [he]
          exact bitAt_copyRegion_outside d _ _ j (by rw [List.length_take, hvl]; omega)
        · exact bitAt_copyRegion_outside d _ _ j (by rw [List.length_take, hvl]; omega)

/-- Length, word bounds, and bit-level frame of the smallBits Set: only the
bits of element n change. -/
theorem setCore_smallBits_spec (d : List Nat) (b n : Nat) (v : Vector)
    (hb1 : 1 ≤ b) (hb : b ≤ 64) (hd : ∀ w ∈ d, w < 2 ^ 64) :
    (SmallBitsArray.setCore d b n v).length = d.length ∧
    (∀ w ∈ SmallBitsArray.setCore d b n v, w < 2 ^ 64) ∧
    (∀ j, j < n * b ∨ n * b + b ≤ j →
      bitAt (SmallBitsArray.setCore d b n v) j = bitAt d j) := by
  simp only [SmallBitsArray.setCore]
  generalize hl : n * b = lbit
  split_ifs with h1
  · refine ⟨List.length_set _ _ _, set_words_lt hd (setB_lt (getD_lt d hd _) (by omega)), ?_⟩
    intro j hj
    rw [bitAt_set]
    split
    · next hc =>
      rw [testBit_setB (getD_lt d hd _) (by omega), if_neg (by omega)]
      unfold bitAt
      rw [hc.1]
    · rfl
  · have hd1 : ∀ w ∈ d.set ((lbit + b) / 64)
        (setB (d.getD ((lbit + b) / 64) 0) 0 (v.data.getD 0 0) ((lbit + b) % 64)), w < 2 ^ 64 :=
      set_words_lt hd (setB_lt (getD_lt d hd _) (by omega))
    refine ⟨by rw [List.length_set, List.length_set],
      set_words_lt hd1 (setB_lt (getD_lt _ hd1 _) (by omega)), ?_⟩
    intro j hj
    rw [bitAt_set]
    split
    · next hc =>
      rw [testBit_setB (getD_lt _ hd1 _) (by omega), if_neg (by omega)]
      have he : ∀ dd : List Nat, (dd.getD (lbit / 64) 0).testBit (j % 64) = bitAt dd j := by
        intro dd
        unfold bitAt
        rw [hc.1]
      rw [he]
      rw [bitAt_set, if_neg (by omega)]
    · rw [bitAt_set]
      split
      · next hc2 =>
        rw [testBit_setB (getD_lt d hd _) (by omega), if_neg (by omega)]
        unfold bitAt
        rw [hc2.1]
      · rfl

/-- One masked-slot write leaves every bit outside the slot unchanged. -/
theorem testBit_pow2_word {A v0 b off : Nat} (hA : A < 2 ^ 64) (hv : v0 < 2 ^ b) (k : Nat)
    (hk : k < off ∨ off + b ≤ k) :
    ((A &&& compl64 (leastBits b <<< off)) ||| (v0 <<< off)).testBit k = A.testBit k := by
  rw [Nat.testBit_lor, Nat.testBit_and, testBit_compl64, Nat.testBit_shiftLeft,
    Nat.testBit_shiftLeft, leastBits_testBit]
  by_cases h64 : k < 64
  · rcases hk with hk | hk
    · have hno : ¬ (off ≤ k) := by omega
      simp [hno, h64]
    · have hnb : ¬ (k - off < b) := by omega
      by_cases hok : off ≤ k
      · rw [testBit_high hv (by omega)]
        simp [hok, hnb, h64]
      · simp [hok, h64]
  · rw [testBit_high hA (by omega)]
    simp [h64]
    intro h
    rw [testBit_high hv (by omega)]

/-- Core spec of the power-of-two Set, phrased over arithmetic facts the
six legal widths all satisfy. -/
theorem setCore_pow2_aux (d : List Nat) (b n : Nat) (v : Vector)
    (helem : 64 * (n / (64 / b)) + n % (64 / b) * b = n * b)
    (hoffb : n % (64 / b) * b + b ≤ 64)
    (hd : ∀ w ∈ d, w < 2 ^ 64) (hv : v.data.getD 0 0 < 2 ^ b) :
    (SmallPow2Array.setCore d b n v).length = d.length ∧
    (∀ w ∈ SmallPow2Array.setCore d b n v, w < 2 ^ 64) ∧
    (∀ j, j < n * b ∨ n * b + b ≤ j →
      bitAt (SmallPow2Array.setCore d b n v) j = bitAt d j) := by
  simp only [SmallPow2Array.setCore]
  refine ⟨List.length_set _ _ _,
    set_words_lt hd (lor_lt_pow (and_lt_pow (getD_lt d hd _))
      (Nat.lt_of_lt_of_le (shiftLeft_lt_pow hv) (Nat.pow_le_pow_right (by omega) (by omega)))),
    ?_⟩
  intro j hj
  rw [bitAt_set]
  split
  · next hc =>
    rw [testBit_pow2_word (getD_lt d hd _) hv _ (by omega)]
    unfold bitAt
    rw [hc.1]
  · rfl

/-- Length, word bounds, and bit-level frame of the power-of-two Set: only the
bits of element n change. -/
theorem setCore_pow2_spec (d : List Nat) (b n : Nat) (v : Vector)
    (hb : b = 1 ∨ b = 2 ∨ b = 4 ∨ b = 8 ∨ b = 16 ∨ b = 32)
    (hd : ∀ w ∈ d, w < 2 ^ 64) (hv : v.data.getD 0 0 < 2 ^ b) :
    (SmallPow2Array.setCore d b n v).length = d.length ∧
    (∀ w ∈ SmallPow2Array.setCore d b n v, w < 2 ^ 64) ∧
    (∀ j, j < n * b ∨ n * b + b ≤ j →
      bitAt (SmallPow2Array.setCore d b n v) j = bitAt d j) := by
  rcases hb with hb | hb | hb | hb | hb | hb <;> subst hb <;>
    exact setCore_pow2_aux d _ n v (by omega) (by omega) hd hv

/-- A word read whose bits all lie in the zero tail is zero after shifting. -/
theorem shiftRight_zero_of_tail (d : List Nat) (l off : Nat) (hw : d.getD l 0 < 2 ^ 64)
    (hz : ∀ j, 64 * l + off ≤ j → bitAt d j = false) (hoff : off < 64) :
    d.getD l 0 >>> off = 0 := by
  refine Nat.zero_of_testBit_eq_false fun k => ?_
  rw [Nat.testBit_shiftRight]
  by_cases hk : off + k < 64
  · have h := hz (64 * l + off + k) (by omega)
    unfold bitAt at h
    rw [show (64 * l + off + k) / 64 = l by omega,
      show (64 * l + off + k) % 64 = off + k by omega] at h
    exact h
  · exact testBit_high hw (by omega)

/-- A word that lies entirely at or beyond the zero tail is zero. -/
theorem word_zero_of_tail (d : List Nat) (t : Nat) (hw : d.getD t 0 < 2 ^ 64) (start : Nat)
    (hst : start ≤ 64 * t) (hz : ∀ j, start ≤ j → bitAt d j = false) : d.getD t 0 = 0 :=
  word_zero_of_bits d t hw (fun k hk => hz _ (by omega))

theorem getD_eq_zero_of_forall (L : List Nat) (h : ∀ w ∈ L, w = 0) (k : Nat) :
    L.getD k 0 = 0 := by
  by_cases hk : k < L.length
  · have he : L.getD k 0 = L[k] := by
      rw [List.getD_eq_getElem?_getD, List.getElem?_eq_getElem hk]
      rfl
    rw [he]
    exact h _ (List.getElem_mem hk)
  · exact getD_beyond L k (by omega)

theorem setB_zero_zero (off nb : Nat) : setB 0 off 0 nb = 0 := by
  unfold setB
  simp

/-- Copying a region of zero words into a zero buffer yields a zero buffer. -/
theorem copy_drop_zero (d : List Nat) (L s k : Nat)
    (h : ∀ t, d.getD (s + t) 0 = 0) :
    ∀ w ∈ copyRegion (List.replicate L 0) 0 ((d.drop s).take k), w = 0 := by
  intro w hw
  rw [copyTrunc_map] at hw
  obtain ⟨t, _, hwt⟩ := List.mem_map.mp hw
  rw [getD_take, getD_drop] at hwt
  rw [← hwt]
  split
  · exact h t
  · rfl

/-- extractW over the zero tail reads zero. -/
theorem extractW_zero (d : List Nat) (b i : Nat) (hw : ∀ w ∈ d, w < 2 ^ 64)
    (hz : ∀ j, i * b ≤ j → bitAt d j = false) (hb1 : 1 ≤ b) (hb : b ≤ 64) :
    extractW d b i = 0 := by
  simp only [extractW]
  generalize hl : i * b = lbit at hz ⊢
  have hsh : d.getD (lbit / 64) 0 >>> (lbit % 64) = 0 :=
    shiftRight_zero_of_tail d _ _ (getD_lt d hw _) (fun j hj => hz j (by omega)) (by omega)
  split
  · rw [hsh]
    exact Nat.zero_and _
  · next hcond =>
    have hr : d.getD ((lbit + b) / 64) 0 = 0 :=
      word_zero_of_tail d _ (getD_lt d hw _) lbit (by omega) hz
    rw [hsh, hr]
    simp

theorem getWord_zero_aux (d : List Nat) (b i : Nat)
    (helem : 64 * (i / (64 / b)) + i % (64 / b) * b = i * b)
    (hoffb : i % (64 / b) * b + b ≤ 64) (hb1 : 1 ≤ b)
    (hw : ∀ w ∈ d, w < 2 ^ 64) (hz : ∀ j, i * b ≤ j → bitAt d j = false) :
    (d.getD (i / (64 / b)) 0 >>> (i % (64 / b) * b)) &&& leastBits b = 0 := by
  rw [shiftRight_zero_of_tail d _ _ (getD_lt d hw _) (fun j hj => hz j (by omega)) (by omega)]
  exact Nat.zero_and _

/-- The power-of-two slot read over the zero tail is zero. -/
theorem getWord_zero (a : SmallPow2Array) (i : Nat)
    (hb : a.bitNum = 1 ∨ a.bitNum = 2 ∨ a.bitNum = 4 ∨ a.bitNum = 8 ∨
      a.bitNum = 16 ∨ a.bitNum = 32)
    (hw : ∀ w ∈ a.data, w < 2 ^ 64)
    (hz : ∀ j, i * a.bitNum ≤ j → bitAt a.data j = false) :
    a.getWord i = 0 := by
  simp only [SmallPow2Array.getWord]
  rcases hb with hb | hb | hb | hb | hb | hb <;> rw [hb] at hz ⊢ <;>
    exact getWord_zero_aux a.data _ i (by omega) (by omega) (by omega) hw hz

theorem mem_mk_data (w : Nat) (L : List Nat) (b : Nat) :
    w ∈ (Vector.mk L b).data ↔ w ∈ L := Iff.rfl

/-- The general Get over the zero tail returns a zero buffer. -/
theorem getCore_zero (d : List Nat) (b i : Nat) (hb1 : 1 ≤ b)
    (hw : ∀ w ∈ d, w < 2 ^ 64) (hz : ∀ j, i * b ≤ j → bitAt d j = false) :
    ∀ w ∈ (GeneralArray.getCore d b i).data, w = 0 := by
  simp only [GeneralArray.getCore]
  generalize hl : i * b = lbit at hz ⊢
  have hwz : ∀ t, lbit ≤ 64 * t → d.getD t 0 = 0 :=
    fun t ht => word_zero_of_tail d t (getD_lt d hw t) lbit ht hz
  have hsh : d.getD (lbit / 64) 0 >>> (lbit % 64) = 0 :=
    shiftRight_zero_of_tail d _ _ (getD_lt d hw _) (fun j hj => hz j (by omega)) (by omega)
  split_ifs with h1 h2 h3 h4 h5
  · intro w hmem
    rw [mem_mk_data, List.mem_singleton] at hmem
    rw [hmem, hsh]
    exact Nat.zero_and _
  · have hbuf : ∀ x ∈ copyRegion (List.replicate (nWords b 1) 0) 0
        ((d.drop (lbit / 64)).take (nWords b 1)), x = 0 :=
      copy_drop_zero d _ _ _ (fun t => hwz _ (by omega))
    intro w hmem
    rw [mem_mk_data] at hmem
    rcases List.mem_or_eq_of_mem_set hmem with hmem | hmem
    · exact hbuf _ hmem
    · rw [hmem, getD_eq_zero_of_forall _ hbuf]
      exact Nat.zero_and _
  · have hbuf : ∀ x ∈ copyRegion (List.replicate (nWords b 1) 0) 0
        ((d.drop (lbit / 64)).take (nWords b 1)), x = 0 :=
      copy_drop_zero d _ _ _ (fun t => hwz _ (by omega))
    intro w hmem
    rw [mem_mk_data] at hmem
    exact hbuf _ hmem
  · have hbuf : ∀ x ∈ copyRegion (List.replicate (nWords b 1) 0) 0
        ((d.drop (lbit / 64 + 1)).take ((lbit + b) / 64 - (lbit / 64 + 1))), x = 0 :=
      copy_drop_zero d _ _ _ (fun t => hwz _ (by omega))
    intro w hmem
    rw [mem_mk_data] at hmem
    rcases List.mem_or_eq_of_mem_set hmem with hmem | hmem
    · exact hbuf _ hmem
    · rw [hmem, hsh]
  · have hbuf : ∀ x ∈ copyRegion (List.replicate (nWords b 1) 0) 0
        ((d.drop (lbit / 64 + 1)).take ((lbit + b) / 64 - (lbit / 64 + 1))), x = 0 :=
      copy_drop_zero d _ _ _ (fun t => hwz _ (by omega))
    have hr : d.getD ((lbit + b) / 64) 0 = 0 := hwz _ (by omega)
    intro w hmem
    rw [mem_mk_data] at hmem
    rcases List.mem_or_eq_of_mem_set hmem with hmem | hmem
    · exact hbuf _ hmem
    · rw [hmem, hr, hsh, getD_eq_zero_of_forall _ hbuf]
      simp only [setB_zero_zero]
  · have hbuf : ∀ x ∈ copyRegion (List.replicate (nWords b 1) 0) 0
        ((d.drop (lbit / 64 + 1)).take ((lbit + b) / 64 - (lbit / 64 + 1))), x = 0 :=
      copy_drop_zero d _ _ _ (fun t => hwz _ (by omega))
    have hr : d.getD ((lbit + b) / 64) 0 = 0 := hwz _ (by omega)
    intro w hmem
    rw [mem_mk_data] at hmem
    rcases List.mem_or_eq_of_mem_set hmem with hmem | hmem
    · rcases List.mem_or_eq_of_mem_set hmem with hmem | hmem
      · exact hbuf _ hmem
      · rw [hmem, hr, hsh, getD_eq_zero_of_forall _ hbuf]
        simp only [setB_zero_zero]
    · rw [hmem, hsh, Nat.zero_shiftRight, getD_eq_zero_of_forall _ hbuf]
      simp only [setB_zero_zero]

/-- The general Get reads the buffer only through word lookups. -/
theorem getCore_congr (d d' : List Nat) (b n : Nat)
    (h : ∀ t, d.getD t 0 = d'.getD t 0) :
    GeneralArray.getCore d b n = GeneralArray.getCore d' b n := by
  simp only [GeneralArray.getCore, copyTrunc_map, getD_take, getD_drop, h]

theorem extractW_congr (d d' : List Nat) (b n : Nat)
    (h : ∀ t, d.getD t 0 = d'.getD t 0) :
    extractW d b n = extractW d' b n := by
  simp only [extractW, h]

theorem getWord_congr (p p' : SmallPow2Array) (hb : p'.bitNum = p.bitNum)
    (h : ∀ t, p'.data.getD t 0 = p.data.getD t 0) (n : Nat) :
    p'.getWord n = p.getWord n := by
  simp only [SmallPow2Array.getWord, hb, h]

theorem pow2_resize_len (p : SmallPow2Array) (n : Nat) : (p.resize n).len = n := by
  simp only [SmallPow2Array.resize]
  split <;> rfl

theorem pow2_resize_bitNum (p : SmallPow2Array) (n : Nat) : (p.resize n).bitNum = p.bitNum := by
  simp only [SmallPow2Array.resize]
  split <;> rfl

theorem word_resize_dataLen (a : WordArray) (n : Nat) : (a.resize n).dataLen = n := by
  simp only [WordArray.resize]
  split <;> rfl

theorem mw_resize_dataLen (m : MultiWordArray) (n : Nat) :
    (m.resize n).dataLen = n * (m.bitNum / 64) := by
  simp only [MultiWordArray.resize]
  split <;> rfl

theorem mw_resize_bitNum (m : MultiWordArray) (n : Nat) : (m.resize n).bitNum = m.bitNum := by
  simp only [MultiWordArray.resize]
  split <;> rfl

/-- reserve never changes the visible word reads: fresh capacity is zero and
the old buffer reads zero beyond its length. -/
theorem reserve_getD (a : GeneralArray) (hb1 : 1 ≤ a.bitNum) (n : Nat) :
    ∀ t, (a.reserve n).data.getD t 0 = a.data.getD t 0 := by
  intro t
  simp only [GeneralArray.reserve, GeneralArray.cap]
  split
  · rfl
  · next hc =>
    show (copyRegion (List.replicate
        (nWords a.bitNum (maxInt n (2 * (a.data.length * 64 / a.bitNum)))) 0) 0
        a.data).getD t 0 = a.data.getD t 0
    rw [copyRegion_replicate_getD]
    split
    · rfl
    · next hl =>
      refine ((getD_beyond a.data t ?_)).symm
      have hq := Nat.div_add_mod (a.data.length * 64) a.bitNum
      have hm : a.data.length * 64 % a.bitNum < a.bitNum := Nat.mod_lt _ (by omega)
      have h1 : a.data.length * 64 / a.bitNum + 1 ≤
          maxInt n (2 * (a.data.length * 64 / a.bitNum)) :=
        le_trans (by omega) (Nat.le_max_left n _)
      have h2 : a.bitNum * (a.data.length * 64 / a.bitNum) + a.bitNum ≤
          a.bitNum * maxInt n (2 * (a.data.length * 64 / a.bitNum)) := by
        have h3 := Nat.mul_le_mul_left a.bitNum h1
        rw [Nat.mul_add, Nat.mul_one] at h3
        exact h3
      unfold nWords at hl
      omega

/-- The power-of-two Resize never changes the visible word reads. -/
theorem pow2_resize_getD (a : SmallPow2Array) (n : Nat) :
    ∀ t, (a.resize n).data.getD t 0 = a.data.getD t 0 := by
  intro t
  simp only [SmallPow2Array.resize]
  split
  · rfl
  · show (copyRegion (List.replicate
        (2 * maxInt a.data.length (nWords a.bitNum n)) 0) 0 a.data).getD t 0 =
      a.data.getD t 0
    rw [copyRegion_replicate_getD]
    split
    · rfl
    · next hl =>
      refine (getD_beyond a.data t ?_).symm
      have := Nat.le_max_left a.data.length (nWords a.bitNum n)
      simp only [maxInt] at hl
      omega

/-- The word-array Resize never changes the store reads, given the zero tail. -/
theorem word_resize_store_getD (a : WordArray) (hlen : a.dataLen ≤ a.store.length)
    (hzt : ∀ j, a.dataLen ≤ j → a.store.getD j 0 = 0) (n : Nat) :
    ∀ t, (a.resize n).store.getD t 0 = a.store.getD t 0 := by
  intro t
  simp only [WordArray.resize]
  split
  · rfl
  · next hc =>
    show (copyRegion (List.replicate (2 * maxInt a.store.length n) 0) 0
        a.dataW).getD t 0 = a.store.getD t 0
    rw [copyRegion_replicate_getD]
    unfold WordArray.dataW
    rw [getD_take]
    split_ifs with h1 h2
    · rfl
    · exact (hzt t (by omega)).symm
    · refine (hzt t ?_).symm
      simp only [maxInt] at h1
      omega

/-- The multi-word Resize never changes the store reads, given the zero tail. -/
theorem mw_resize_store_getD (a : MultiWordArray) (hlen : a.dataLen ≤ a.store.length)
    (hzt : ∀ j, a.dataLen ≤ j → a.store.getD j 0 = 0) (n : Nat) :
    ∀ t, (a.resize n).store.getD t 0 = a.store.getD t 0 := by
  intro t
  simp only [MultiWordArray.resize]
  split
  · rfl
  · next hc =>
    show (copyRegion (List.replicate
        (2 * maxInt a.store.length (n * (a.bitNum / 64))) 0) 0 a.dataW).getD t 0 =
      a.store.getD t 0
    rw [copyRegion_replicate_getD]
    unfold MultiWordArray.dataW
    rw [getD_take]
    split_ifs with h1 h2
    · rfl
    · exact (hzt t (by omega)).symm
    · refine (hzt t ?_).symm
      simp only [maxInt] at h1
      omega

theorem bitAt_nil (j : Nat) : bitAt [] j = false := by
  unfold bitAt
  rw [getD_beyond _ _ (by simp)]
  exact Nat.zero_testBit _

theorem nil_words : ∀ w ∈ ([] : List Nat), w < 2 ^ 64 :=
  fun w hw => absurd hw (List.not_mem_nil w)

/-- A successful Set preserves well-formedness and the zero tail: the write is
confined to the bits of the target element, which lies below the logical end. -/
theorem set_wf_zt {a a' : Arr} {n : Int} {v : Vector} (hwf : ArrWf a) (hv : VWf v)
    (hzt : ZeroTail a) (h : a.set n v = .ok a') : ArrWf a' ∧ ZeroTail a' := by
  cases a with
  | general g =>
    obtain ⟨hb1, hbm, hwords⟩ := hwf
    simp only [Arr.set, GeneralArray.set] at h
    split_ifs at h with hg1 hg2
    · exact absurd h (by simp [Except.map])
    · exact absurd h (by simp [Except.map])
    · simp only [Except.map, Except.ok.injEq] at h
      subst h
      have hvb : v.bitNum = g.bitNum := by omega
      have hs := setCore_general_spec g.data g.bitNum n.toNat v hb1 hwords hv hvb
      refine ⟨⟨hb1, hbm, hs.2.1⟩, ?_⟩
      intro j hj
      have hj' : g.len * g.bitNum ≤ j := hj
      show bitAt (GeneralArray.setCore g.data g.bitNum n.toNat v) j = false
      have hmul : n.toNat * g.bitNum + g.bitNum ≤ g.len * g.bitNum := by
        have h3 : (n.toNat + 1) * g.bitNum ≤ g.len * g.bitNum :=
          Nat.mul_le_mul_right _ (by omega)
        rw [Nat.add_mul, Nat.one_mul] at h3
        exact h3
      rw [hs.2.2 j (Or.inr (by omega))]
      exact hzt j hj'
  | smallBits s =>
    obtain ⟨hb1, hblt, hwords⟩ := hwf
    simp only [Arr.set, SmallBitsArray.set] at h
    split_ifs at h with hg1 hg2
    · exact absurd h (by simp [Except.map])
    · exact absurd h (by simp [Except.map])
    · simp only [Except.map, Except.ok.injEq] at h
      subst h
      have hs := setCore_smallBits_spec s.ga.data s.ga.bitNum n.toNat v hb1 (by omega) hwords
      refine ⟨⟨hb1, hblt, hs.2.1⟩, ?_⟩
      intro j hj
      have hj' : s.ga.len * s.ga.bitNum ≤ j := hj
      show bitAt (SmallBitsArray.setCore s.ga.data s.ga.bitNum n.toNat v) j = false
      have hmul : n.toNat * s.ga.bitNum + s.ga.bitNum ≤ s.ga.len * s.ga.bitNum := by
        have h3 : (n.toNat + 1) * s.ga.bitNum ≤ s.ga.len * s.ga.bitNum :=
          Nat.mul_le_mul_right _ (by omega)
        rw [Nat.add_mul, Nat.one_mul] at h3
        exact h3
      rw [hs.2.2 j (Or.inr (by omega))]
      exact hzt j hj'
  | word w =>
    obtain ⟨hlen, hwords⟩ := hwf
    simp only [Arr.set, WordArray.set] at h
    split_ifs at h with hg1 hg2
    · exact absurd h (by simp [Except.map])
    · exact absurd h (by simp [Except.map])
    · simp only [Except.map, Except.ok.injEq] at h
      subst h
      have hv64 : v.data.getD 0 0 < 2 ^ 64 := by
        have hx := vwf_v0_lt hv (by omega) (by omega)
        have hb : v.bitNum = 64 := by omega
        rw [hb] at hx
        exact hx
      refine ⟨⟨by rw [List.length_set]; exact hlen, set_words_lt hwords hv64⟩, ?_⟩
      intro j hj
      have hj' : w.dataLen ≤ j := hj
      show (w.store.set n.toNat (v.data.getD 0 0)).getD j 0 = 0
      rw [getD_set, if_neg (by omega)]
      exact hzt j hj'
  | smallPow2 p =>
    obtain ⟨hbs, hwords⟩ := hwf
    simp only [Arr.set, SmallPow2Array.set] at h
    split_ifs at h with hg1 hg2
    · exact absurd h (by simp [Except.map])
    · exact absurd h (by simp [Except.map])
    · simp only [Except.map, Except.ok.injEq] at h
      subst h
      have hp1 : 1 ≤ p.bitNum := by rcases hbs with h | h | h | h | h | h <;> omega
      have hp64 : p.bitNum ≤ 64 := by rcases hbs with h | h | h | h | h | h <;> omega
      have hv0 : v.data.getD 0 0 < 2 ^ p.bitNum := by
        have hx := vwf_v0_lt hv (by omega) (by omega)
        have hb : v.bitNum = p.bitNum := by omega
        rw [hb] at hx
        exact hx
      have hs := setCore_pow2_spec p.data p.bitNum n.toNat v hbs hwords hv0
      refine ⟨⟨hbs, hs.2.1⟩, ?_⟩
      intro j hj
      have hj' : p.len * p.bitNum ≤ j := hj
      show bitAt (SmallPow2Array.setCore p.data p.bitNum n.toNat v) j = false
      have hmul : n.toNat * p.bitNum + p.bitNum ≤ p.len * p.bitNum := by
        have h3 : (n.toNat + 1) * p.bitNum ≤ p.len * p.bitNum :=
          Nat.mul_le_mul_right _ (by omega)
        rw [Nat.add_mul, Nat.one_mul] at h3
        exact h3
      rw [hs.2.2 j (Or.inr (by omega))]
      exact hzt j hj'
  | multiWord m =>
    obtain ⟨h128, hmod, hlen, hdvd, hwords⟩ := hwf
    simp only [Arr.set, MultiWordArray.set] at h
    split_ifs at h with hg1 hg2
    · exact absurd h (by simp [Except.map])
    · exact absurd h (by simp [Except.map])
    · simp only [Except.map, Except.ok.injEq] at h
      subst h
      refine ⟨⟨h128, hmod, by rw [copyRegion_length]; exact hlen, hdvd,
        copyRegion_words_lt hwords (take_words_lt hv.2.1) _⟩, ?_⟩
      intro j hj
      have hj' : m.dataLen ≤ j := hj
      show (copyRegion m.store (n.toNat * (m.bitNum / 64))
        (v.data.take (m.dataLen - n.toNat * (m.bitNum / 64)))).getD j 0 = 0
      rw [copyRegion_getD, if_neg (by rw [List.length_take]; omega)]
      exact hzt j hj'

/-- A non-shrinking Resize preserves the zero tail. -/
theorem resize_zt (a : Arr) (hwf : ArrWf a) (hzt : ZeroTail a) (n : Nat)
    (hn : a.lenA ≤ n) : ZeroTail (a.resize n) := by
  cases a with
  | general g =>
    obtain ⟨hb1, hbm, hwords⟩ := hwf
    intro j hj
    have hj2 : n * g.bitNum ≤ j := by
      have hj' : n * (g.reserve n).bitNum ≤ j := hj
      rw [reserve_bitNum] at hj'
      exact hj'
    show bitAt (g.reserve n).data j = false
    unfold bitAt
    rw [reserve_getD g hb1 n]
    have hz := hzt j (le_trans (Nat.mul_le_mul_right g.bitNum (show g.len ≤ n from hn)) hj2)
    unfold bitAt at hz
    exact hz
  | smallBits s =>
    obtain ⟨hb1, hblt, hwords⟩ := hwf
    intro j hj
    have hj2 : n * s.ga.bitNum ≤ j := by
      have hj' : n * (s.ga.reserve n).bitNum ≤ j := hj
      rw [reserve_bitNum] at hj'
      exact hj'
    show bitAt (s.ga.reserve n).data j = false
    unfold bitAt
    rw [reserve_getD s.ga hb1 n]
    have hz := hzt j
      (le_trans (Nat.mul_le_mul_right s.ga.bitNum (show s.ga.len ≤ n from hn)) hj2)
    unfold bitAt at hz
    exact hz
  | word w =>
    obtain ⟨hlen, hwords⟩ := hwf
    intro j hj
    rw [word_resize_dataLen] at hj
    rw [word_resize_store_getD w hlen hzt n j]
    have hn' : w.dataLen ≤ n := hn
    exact hzt j (by omega)
  | smallPow2 p =>
    obtain ⟨hbs, hwords⟩ := hwf
    intro j hj
    rw [pow2_resize_len, pow2_resize_bitNum] at hj
    unfold bitAt
    rw [pow2_resize_getD p n]
    have hz := hzt j (le_trans (Nat.mul_le_mul_right p.bitNum (show p.len ≤ n from hn)) hj)
    unfold bitAt at hz
    exact hz
  | multiWord m =>
    obtain ⟨h128, hmod, hlen, hdvd, hwords⟩ := hwf
    intro j hj
    rw [mw_resize_dataLen] at hj
    rw [mw_resize_store_getD m hlen hzt n j]
    refine hzt j ?_
    obtain ⟨k, hk⟩ := hdvd
    have hnw : 2 ≤ m.bitNum / 64 := by omega
    have hkk : m.dataLen / (m.bitNum / 64) = k := by
      rw [hk]
      exact Nat.mul_div_cancel_left k (by omega)
    have hn' : m.dataLen / (m.bitNum / 64) ≤ n := hn
    have hle : m.bitNum / 64 * k ≤ m.bitNum / 64 * n := Nat.mul_le_mul_left _ (by omega)
    have hcomm : n * (m.bitNum / 64) = m.bitNum / 64 * n := Nat.mul_comm _ _
    omega

/-- Every monotone-history array is well formed with a zero tail. -/
theorem mono_wf (a : Arr) (h : MonoReach a) : ArrWf a ∧ ZeroTail a := by
  induction h with
  | new bitNum a0 hc =>
    by_cases h0 : bitNum = 0
    · rw [h0] at hc
      exact absurd hc (by simp [createArray])
    · by_cases h1 : bitNum < 64
      · rw [createArray_small [] bitNum 0 (by omega) h1] at hc
        injection hc with hc2
        subst hc2
        refine ⟨⟨show 1 ≤ bitNum by omega, h1, nil_words⟩, ?_⟩
        intro j hj
        exact bitAt_nil j
      · by_cases h2 : bitNum = 64
        · subst h2
          rw [createArray_word [] 0] at hc
          injection hc with hc2
          subst hc2
          refine ⟨⟨by simp, nil_words⟩, ?_⟩
          intro j hj
          exact getD_beyond _ _ (by simp)
        · by_cases h3 : bitNum % 64 = 0
          · rw [createArray_multi [] bitNum 0 (by omega) h3] at hc
            injection hc with hc2
            subst hc2
            refine ⟨⟨show 128 ≤ bitNum by omega, h3, by simp, Dvd.intro 0 rfl,
              nil_words⟩, ?_⟩
            intro j hj
            exact getD_beyond _ _ (by simp)
          · rw [createArray_general [] bitNum 0 (by omega) h3] at hc
            injection hc with hc2
            subst hc2
            refine ⟨⟨show 1 ≤ bitNum by omega, h3, nil_words⟩, ?_⟩
            intro j hj
            exact bitAt_nil j
  | newPow2 b hb =>
    refine ⟨⟨hb, nil_words⟩, ?_⟩
    intro j hj
    exact bitAt_nil j
  | resizeStep a0 n ha hn ih =>
    exact ⟨resize_wf a0 ih.1 n, resize_zt a0 ih.1 ih.2 n hn⟩
  | setStep a0 n v a' ha hv hset ih =>
    exact set_wf_zt ih.1 hv ih.2 hset

theorem getCore_bitNum (d : List Nat) (b i : Nat) :
    (GeneralArray.getCore d b i).bitNum = b := by
  simp only [GeneralArray.getCore]
  split_ifs <;> rfl

theorem mw_dataLen_le (m : MultiWordArray) (h128 : 128 ≤ m.bitNum)
    (hdvd : (m.bitNum / 64) ∣ m.dataLen) (n : Nat) (hn : m.lenA ≤ n) :
    m.dataLen ≤ n * (m.bitNum / 64) := by
  obtain ⟨k, hk⟩ := hdvd
  have hnw : 2 ≤ m.bitNum / 64 := by omega
  have hkk : m.dataLen / (m.bitNum / 64) = k := by
    rw [hk]
    exact Nat.mul_div_cancel_left k (by omega)
  have hn' : m.dataLen / (m.bitNum / 64) ≤ n := hn
  have hle : m.bitNum / 64 * k ≤ m.bitNum / 64 * n := Nat.mul_le_mul_left _ (by omega)
  have hcomm : n * (m.bitNum / 64) = m.bitNum / 64 * n := Nat.mul_comm _ _
  omega

/-- The visible slice reads of a multi-word array are unchanged by a
non-shrinking Resize. -/
theorem mw_resize_dataW_getD (m : MultiWordArray) (hlen : m.dataLen ≤ m.store.length)
    (hzt : ∀ j, m.dataLen ≤ j → m.store.getD j 0 = 0) (n : Nat)
    (hgrow : m.dataLen ≤ n * (m.bitNum / 64)) :
    ∀ s, (m.resize n).dataW.getD s 0 = m.dataW.getD s 0 := by
  intro s
  unfold MultiWordArray.dataW
  rw [getD_take, getD_take, mw_resize_dataLen, mw_resize_store_getD m hlen hzt n s]
  split_ifs with h1 h2 h3
  · rfl
  · exact hzt s (by omega)
  · exact absurd h3 (by omega)
  · rfl

/-- A non-shrinking Resize preserves every visible element read. -/
theorem resize_get_preserve (a : Arr) (hwf : ArrWf a) (hzt : ZeroTail a) (n : Nat)
    (hn : a.lenA ≤ n) (i : Nat) (hi : i < a.lenA) :
    (a.resize n).get (Int.ofNat i) = a.get (Int.ofNat i) := by
  cases a with
  | general g =>
    obtain ⟨hb1, hbm, hwords⟩ := hwf
    have hi' : i < g.len := hi
    have hn' : g.len ≤ n := hn
    have hbn : (g.resize n).bitNum = g.bitNum := reserve_bitNum g n
    simp only [Arr.resize, Arr.get]
    rw [general_get_eq (g.resize n) i (show i < (g.resize n).len from (show i < n by omega)),
      general_get_eq g i hi']
    rw [hbn]
    rw [getCore_congr (g.resize n).data g.data g.bitNum i (fun t => reserve_getD g hb1 n t)]
  | smallBits s =>
    obtain ⟨hb1, hblt, hwords⟩ := hwf
    have hi' : i < s.ga.len := hi
    have hn' : s.ga.len ≤ n := hn
    have hbn : (s.resize n).ga.bitNum = s.ga.bitNum := reserve_bitNum s.ga n
    simp only [Arr.resize, Arr.get]
    rw [smallBits_get_eq (s.resize n) i
        (show i < (s.resize n).ga.len from (show i < n by omega))
        (by rw [hbn]; exact hb1) (by rw [hbn]; omega),
      smallBits_get_eq s i hi' hb1 (by omega)]
    rw [hbn]
    rw [extractW_congr (s.resize n).ga.data s.ga.data s.ga.bitNum i
      (fun t => reserve_getD s.ga hb1 n t)]
  | word w =>
    obtain ⟨hlen, hwords⟩ := hwf
    have hi' : i < w.dataLen := hi
    have hn' : w.dataLen ≤ n := hn
    simp only [Arr.resize, Arr.get]
    rw [word_get_eq (w.resize n) i (by rw [word_resize_dataLen]; omega),
      word_get_eq w i hi']
    unfold WordArray.dataW
    rw [getD_take, getD_take, word_resize_dataLen, word_resize_store_getD w hlen hzt n i,
      if_pos (by omega), if_pos (by omega)]
  | smallPow2 p =>
    obtain ⟨hbs, hwords⟩ := hwf
    have hp1 : 1 ≤ p.bitNum := by rcases hbs with h | h | h | h | h | h <;> omega
    have hp64 : p.bitNum ≤ 64 := by rcases hbs with h | h | h | h | h | h <;> omega
    have hi' : i < p.len := hi
    have hn' : p.len ≤ n := hn
    have hbn := pow2_resize_bitNum p n
    simp only [Arr.resize, Arr.get]
    rw [pow2_get_eq (p.resize n) i (by rw [pow2_resize_len]; omega)
        (by rw [hbn]; exact hp1) (by rw [hbn]; exact hp64),
      pow2_get_eq p i hi' hp1 hp64]
    rw [hbn, getWord_congr p (p.resize n) hbn (pow2_resize_getD p n) i]
  | multiWord m =>
    obtain ⟨h128, hmod, hlen, hdvd, hwords⟩ := hwf
    have hi' : i < m.lenA := hi
    have hn' : m.lenA ≤ n := hn
    have hgrow := mw_dataLen_le m h128 hdvd n hn'
    have hlenr : (m.resize n).lenA = n := by
      unfold MultiWordArray.lenA
      rw [mw_resize_dataLen, mw_resize_bitNum]
      exact Nat.mul_div_cancel _ (by omega)
    simp only [Arr.resize, Arr.get]
    rw [mw_get_eq (m.resize n) i (by rw [hlenr]; omega), mw_get_eq m i hi']
    rw [mw_resize_bitNum]
    have hdw := mw_resize_dataW_getD m hlen hzt n hgrow
    have hf : (fun t => (((m.resize n).dataW.drop (i * (m.bitNum / 64))).take
        (nWords m.bitNum 1)).getD t 0) = (fun t => ((m.dataW.drop (i * (m.bitNum / 64))).take
        (nWords m.bitNum 1)).getD t 0) := by
      funext t
      rw [getD_take, getD_take, getD_drop, getD_drop, hdw]
    rw [copyTrunc_map, copyTrunc_map, hf]

/-- Every index appended by a non-shrinking Resize reads as an all-zero
bit-vector of the array's width. -/
theorem resize_get_zero (a : Arr) (hwf : ArrWf a) (hzt : ZeroTail a) (n : Nat)
    (hn : a.lenA ≤ n) (i : Nat) (hi1 : a.lenA ≤ i) (hi2 : i < n) :
    ∃ g, (a.resize n).get (Int.ofNat i) = .ok g ∧ g.bitNum = a.bitNumA ∧
      valW g.data = 0 := by
  cases a with
  | general g =>
    obtain ⟨hb1, hbm, hwords⟩ := hwf
    have hbn : (g.resize n).bitNum = g.bitNum := reserve_bitNum g n
    have hwords' : ∀ w ∈ (g.resize n).data, w < 2 ^ 64 := by
      have hwf' := resize_wf (.general g) ⟨hb1, hbm, hwords⟩ n
      exact hwf'.2.2
    have hz' : ∀ j, i * (g.resize n).bitNum ≤ j → bitAt (g.resize n).data j = false := by
      intro j hj
      rw [hbn] at hj
      unfold bitAt
      show ((g.reserve n).data.getD (j / 64) 0).testBit (j % 64) = false
      rw [reserve_getD g hb1 n]
      have hmul : g.len * g.bitNum ≤ i * g.bitNum :=
        Nat.mul_le_mul_right _ (show g.len ≤ i from hi1)
      have hz := hzt j (by omega)
      unfold bitAt at hz
      exact hz
    simp only [Arr.resize, Arr.get]
    refine ⟨_, general_get_eq (g.resize n) i (show i < (g.resize n).len from hi2), ?_, ?_⟩
    · rw [getCore_bitNum]
      exact hbn
    · exact valW_zero _ (getCore_zero (g.resize n).data (g.resize n).bitNum i
        (by rw [hbn]; exact hb1) hwords' hz')
  | smallBits s =>
    obtain ⟨hb1, hblt, hwords⟩ := hwf
    have hbn : (s.resize n).ga.bitNum = s.ga.bitNum := reserve_bitNum s.ga n
    simp only [Arr.resize, Arr.get]
    have hx : extractW (s.resize n).ga.data (s.resize n).ga.bitNum i = 0 := by
      rw [hbn, extractW_congr (s.resize n).ga.data s.ga.data s.ga.bitNum i
        (fun t => reserve_getD s.ga hb1 n t)]
      exact extractW_zero s.ga.data s.ga.bitNum i hwords
        (fun j hj => hzt j (le_trans (Nat.mul_le_mul_right _ (show s.ga.len ≤ i from hi1)) hj))
        hb1 (by omega)
    refine ⟨_, smallBits_get_eq (s.resize n) i (show i < (s.resize n).ga.len from hi2)
      (by rw [hbn]; exact hb1) (by rw [hbn]; omega), hbn, ?_⟩
    rw [hx]
    rfl
  | word w =>
    obtain ⟨hlen, hwords⟩ := hwf
    have hn' : w.dataLen ≤ n := hn
    have hi1' : w.dataLen ≤ i := hi1
    simp only [Arr.resize, Arr.get]
    have hv0 : (w.resize n).dataW.getD i 0 = 0 := by
      unfold WordArray.dataW
      rw [getD_take, word_resize_dataLen, if_pos hi2, word_resize_store_getD w hlen hzt n i]
      exact hzt i hi1'
    refine ⟨_, word_get_eq (w.resize n) i (by rw [word_resize_dataLen]; omega), rfl, ?_⟩
    rw [hv0]
    rfl
  | smallPow2 p =>
    obtain ⟨hbs, hwords⟩ := hwf
    have hp1 : 1 ≤ p.bitNum := by rcases hbs with h | h | h | h | h | h <;> omega
    have hp64 : p.bitNum ≤ 64 := by rcases hbs with h | h | h | h | h | h <;> omega
    have hbn := pow2_resize_bitNum p n
    simp only [Arr.resize, Arr.get]
    have hx : (p.resize n).getWord i = 0 := by
      rw [getWord_congr p (p.resize n) hbn (pow2_resize_getD p n) i]
      exact getWord_zero p i hbs hwords
        (fun j hj => hzt j (le_trans (Nat.mul_le_mul_right _ (show p.len ≤ i from hi1)) hj))
    refine ⟨_, pow2_get_eq (p.resize n) i (by rw [pow2_resize_len]; omega)
      (by rw [hbn]; exact hp1) (by rw [hbn]; exact hp64), hbn, ?_⟩
    rw [hx]
    rfl
  | multiWord m =>
    obtain ⟨h128, hmod, hlen, hdvd, hwords⟩ := hwf
    have hn' : m.lenA ≤ n := hn
    have hgrow := mw_dataLen_le m h128 hdvd n hn'
    have hlenr : (m.resize n).lenA = n := by
      unfold MultiWordArray.lenA
      rw [mw_resize_dataLen, mw_resize_bitNum]
      exact Nat.mul_div_cancel _ (by omega)
    have hdw := mw_resize_dataW_getD m hlen hzt n hgrow
    have hile : m.dataLen ≤ i * (m.bitNum / 64) := by
      obtain ⟨k, hk⟩ := hdvd
      have hnw : 2 ≤ m.bitNum / 64 := by omega
      have hkk : m.dataLen / (m.bitNum / 64) = k := by
        rw [hk]
        exact Nat.mul_div_cancel_left k (by omega)
      have hi1' : m.dataLen / (m.bitNum / 64) ≤ i := hi1
      have hle : m.bitNum / 64 * k ≤ m.bitNum / 64 * i := Nat.mul_le_mul_left _ (by omega)
      have hcomm : i * (m.bitNum / 64) = m.bitNum / 64 * i := Nat.mul_comm _ _
      omega
    have hzero : ∀ w ∈ copyRegion (List.replicate (nWords (m.resize n).bitNum 1) 0) 0
        (((m.resize n).dataW.drop (i * ((m.resize n).bitNum / 64))).take
          (nWords (m.resize n).bitNum 1)), w = 0 := by
      refine copy_drop_zero _ _ _ _ (fun t => ?_)
      rw [hdw, mw_resize_bitNum]
      unfold MultiWordArray.dataW
      rw [getD_take]
      split
      · exact hzt _ (by omega)
      · rfl
    simp only [Arr.resize, Arr.get]
    refine ⟨_, mw_get_eq (m.resize n) i (by rw [hlenr]; omega), mw_resize_bitNum m n, ?_⟩
    exact valW_zero _ hzero

/-- C5: resize growth safety, amended to arrays whose operation history never
shrank the logical length (the source re-exposes stale buffer bits after a
shrink, so the claim as stated over all histories is false).  For such arrays,
after resize(newLen) with newLen > len every index below len reads the same
element as before, and every index in [len, newLen) reads as an all-zero
bit-vector of the array's width. -/
theorem C5_resize_growth_safety (a : Arr) (hm : MonoReach a) (n : Nat)
    (hgrow : a.lenA < n) :
    (∀ i : Nat, i < a.lenA → (a.resize n).get (Int.ofNat i) = a.get (Int.ofNat i)) ∧
    (∀ i : Nat, a.lenA ≤ i → i < n →
      ∃ g, (a.resize n).get (Int.ofNat i) = .ok g ∧ g.bitNum = a.bitNumA ∧
        valW g.data = 0) := by
  obtain ⟨hwf, hzt⟩ := mono_wf a hm
  exact ⟨fun i hi => resize_get_preserve a hwf hzt n (by omega) i hi,
    fun i hi1 hi2 => resize_get_zero a hwf hzt n (by omega) i hi1 hi2⟩

theorem C5_resize_growth_safety_witness :
    MonoReach (Arr.smallPow2 ⟨[], 8, 0⟩) ∧ (Arr.smallPow2 ⟨[], 8, 0⟩).lenA < 3 ∧
    ((∀ i : Nat, i < (Arr.smallPow2 ⟨[], 8, 0⟩).lenA →
        ((Arr.smallPow2 ⟨[], 8, 0⟩).resize 3).get (Int.ofNat i) =
          (Arr.smallPow2 ⟨[], 8, 0⟩).get (Int.ofNat i)) ∧
      (∀ i : Nat, (Arr.smallPow2 ⟨[], 8, 0⟩).lenA ≤ i → i < 3 →
        ∃ g, ((Arr.smallPow2 ⟨[], 8, 0⟩).resize 3).get (Int.ofNat i) = .ok g ∧
          g.bitNum = (Arr.smallPow2 ⟨[], 8, 0⟩).bitNumA ∧ valW g.data = 0)) :=
  ⟨MonoReach.newPow2 8 (by decide), by decide,
    C5_resize_growth_safety _ (MonoReach.newPow2 8 (by decide)) 3 (by decide)⟩

/-- Counterexample to C5 as stated over all histories: with bitNum 1, grow to
len 2, set element 1 to 1, shrink to len 1, grow back to len 2.  The final
grow stays within capacity, so index 1 — inside the freshly grown range —
re-reads the stale element 1 instead of an all-zero vector. -/
theorem C5_shrink_regrow_counterexample :
    ∃ a2 : Arr, ((Arr.smallBits ⟨⟨[], 1, 0⟩⟩).resize 2).set (Int.ofNat 1) ⟨[1], 1⟩ =
        .ok a2 ∧
      (a2.resize 1).lenA = 1 ∧
      ((a2.resize 1).resize 2).get (Int.ofNat 1) = .ok ⟨[1], 1⟩ ∧
      valW [1] ≠ 0 :=
  ⟨Arr.smallBits ⟨⟨[2], 1, 2⟩⟩, rfl, by decide, rfl, by decide⟩

/-- C1: every query scores each stored row i as
norms[i] * (norms[i] - 2*queryNorm*cos(hDist_i * pi / hashNum)), sorts the
scored rows ascending by score, returns exactly min(size, n) results, and the
k-th result pairs the row's external id with sqrt(queryNorm^2 + score). -/
theorem C1_query_scoring (R : RealOps) (e : EuclidLSH) (x : Vector) (norm : ℚ)
    (size : Nat) :
    ∃ sorted : List IDist,
      sorted.Perm ((List.range e.norms.length).map (fun i =>
        (⟨i + 1, e.norms.getD i 0 * (e.norms.getD i 0 - 2 * norm * R.cosF
          ((hamValue (e.lshs.hammingDistance (Int.ofNat i) x) : ℚ) * R.piF /
            (e.lshs.bitNumA : ℚ)))⟩ : IDist))) ∧
      List.Sorted distLe sorted ∧
      neighborRowFromHash R e x norm size =
        (sorted.take (minInt size e.norms.length)).map
          (fun p => ⟨p.id, R.sqrtF (norm * norm + p.dist)⟩) ∧
      (neighborRowFromHash R e x norm size).length = minInt size e.norms.length ∧
      (∀ k, k < minInt size e.norms.length →
        (neighborRowFromHash R e x norm size)[k]? =
          (sorted[k]?).map (fun p => ⟨p.id, R.sqrtF (norm * norm + p.dist)⟩)) := by
  have hlen : (sortByDist ((List.range e.norms.length).map (fun i =>
      (⟨i + 1, e.norms.getD i 0 * (e.norms.getD i 0 - 2 * norm * R.cosF
        ((hamValue (e.lshs.hammingDistance (Int.ofNat i) x) : ℚ) * R.piF /
          (e.lshs.bitNumA : ℚ)))⟩ : IDist)))).length = e.norms.length := by
    unfold sortByDist
    rw [List.length_insertionSort, List.length_map, List.length_range]
  refine ⟨sortByDist ((List.range e.norms.length).map (fun i =>
    (⟨i + 1, e.norms.getD i 0 * (e.norms.getD i 0 - 2 * norm * R.cosF
      ((hamValue (e.lshs.hammingDistance (Int.ofNat i) x) : ℚ) * R.piF /
        (e.lshs.bitNumA : ℚ)))⟩ : IDist))), ?_, ?_, ?_, ?_, ?_⟩
  · exact List.perm_insertionSort distLe _
  · exact List.sorted_insertionSort distLe _
  · simp only [neighborRowFromHash]
    rw [hlen]
  · simp only [neighborRowFromHash]
    rw [List.length_map, List.length_take, hlen]
    unfold minInt
    omega
  · intro k hk
    simp only [neighborRowFromHash]
    rw [List.getElem?_map, List.getElem?_take_of_lt (by rw [hlen]; exact hk)]

/-- C2: for every power-of-two bitNum below 64, construction — directly or by
loading a persisted record — selects the small general-packed variant, not the
power-of-two-packed one: the dispatch test bitNum ^ (bitNum-1) == 0 uses Go's
XOR, which is never 0 for bitNum >= 1, so the power-of-two branch is dead. -/
theorem C2_power_of_two_dispatch (b : Nat)
    (hb : b = 1 ∨ b = 2 ∨ b = 4 ∨ b = 8 ∨ b = 16 ∨ b = 32)
    (data : List Nat) (len : Nat) :
    createArray data b len = some (.smallBits ⟨⟨data, b, len⟩⟩) ∧
    loadArray ⟨1, data, b, len⟩ = .ok (some (.smallBits ⟨⟨data, b, len⟩⟩)) ∧
    (createArray data b len).map Arr.isSmallPow2 ≠ some true := by
  have h1 : createArray data b len = some (.smallBits ⟨⟨data, b, len⟩⟩) :=
    createArray_small data b len (by rcases hb with h | h | h | h | h | h <;> omega)
      (by rcases hb with h | h | h | h | h | h <;> omega)
  refine ⟨h1, ?_, ?_⟩
  · unfold loadArray
    rw [if_pos rfl, h1]
  · rw [h1]
    simp [Arr.isSmallPow2]

theorem C2_power_of_two_dispatch_witness :
    (8 = 1 ∨ 8 = 2 ∨ 8 = 4 ∨ 8 = 8 ∨ 8 = 16 ∨ 8 = 32) ∧
    (createArray [] 8 0 = some (.smallBits ⟨⟨[], 8, 0⟩⟩) ∧
      loadArray ⟨1, [], 8, 0⟩ = .ok (some (.smallBits ⟨⟨[], 8, 0⟩⟩)) ∧
      (createArray [] 8 0).map Arr.isSmallPow2 ≠ some true) :=
  ⟨by decide, C2_power_of_two_dispatch 8 (by decide) [] 0⟩

/-- C3: on every well-formed array, every in-range index and every matching
width vector, HammingDistance succeeds with popcount(get(i) XOR v) and agrees
with the general-packed baseline run on the same buffer, width and length. -/
theorem C3_hamming_cross_check (a : Arr) (v : Vector) (i : Nat) (hwf : ArrWf a)
    (hv : VWf v) (hwid : v.bitNum = a.bitNumA) (hi : i < a.lenA) :
    ∃ g, a.get (Int.ofNat i) = .ok g ∧
      a.hammingDistance (Int.ofNat i) v = some (.ok (popcountV (g.xorV v))) ∧
      a.hammingDistance (Int.ofNat i) v =
        (a.baseline).hammingDistance (Int.ofNat i) v :=
  ham_spec a v i hwf hv hwid hi

theorem C3_hamming_cross_check_witness :
    ArrWf (Arr.smallPow2 ⟨[5], 2, 3⟩) ∧ VWf ⟨[3], 2⟩ ∧
    (Vector.bitNum ⟨[3], 2⟩ = (Arr.smallPow2 ⟨[5], 2, 3⟩).bitNumA) ∧
    1 < (Arr.smallPow2 ⟨[5], 2, 3⟩).lenA ∧
    (∃ g, (Arr.smallPow2 ⟨[5], 2, 3⟩).get (Int.ofNat 1) = .ok g ∧
      (Arr.smallPow2 ⟨[5], 2, 3⟩).hammingDistance (Int.ofNat 1) ⟨[3], 2⟩ =
        some (.ok (popcountV (g.xorV ⟨[3], 2⟩))) ∧
      (Arr.smallPow2 ⟨[5], 2, 3⟩).hammingDistance (Int.ofNat 1) ⟨[3], 2⟩ =
        ((Arr.smallPow2 ⟨[5], 2, 3⟩).baseline).hammingDistance (Int.ofNat 1) ⟨[3], 2⟩) :=
  ⟨by decide, by decide, by decide, by decide,
    C3_hamming_cross_check (Arr.smallPow2 ⟨[5], 2, 3⟩) ⟨[3], 2⟩ 1 (by decide) (by decide)
      (by decide) (by decide)⟩

theorem save_version (a : Arr) : (a.save).formatVersion = 1 := by
  cases a <;> rfl

/-- A successful Set preserves well-formedness. -/
theorem set_wf {a a' : Arr} {n : Int} {v : Vector} (hwf : ArrWf a) (hv : VWf v)
    (h : a.set n v = .ok a') : ArrWf a' := by
  cases a with
  | general g =>
    obtain ⟨hb1, hbm, hwords⟩ := hwf
    simp only [Arr.set, GeneralArray.set] at h
    split_ifs at h with hg1 hg2
    · exact absurd h (by simp [Except.map])
    · exact absurd h (by simp [Except.map])
    · simp only [Except.map, Except.ok.injEq] at h
      subst h
      have hvb : v.bitNum = g.bitNum := by omega
      exact ⟨hb1, hbm, (setCore_general_spec g.data g.bitNum n.toNat v hb1 hwords hv hvb).2.1⟩
  | smallBits s =>
    obtain ⟨hb1, hblt, hwords⟩ := hwf
    simp only [Arr.set, SmallBitsArray.set] at h
    split_ifs at h with hg1 hg2
    · exact absurd h (by simp [Except.map])
    · exact absurd h (by simp [Except.map])
    · simp only [Except.map, Except.ok.injEq] at h
      subst h
      exact ⟨hb1, hblt,
        (setCore_smallBits_spec s.ga.data s.ga.bitNum n.toNat v hb1 (by omega) hwords).2.1⟩
  | word w =>
    obtain ⟨hlen, hwords⟩ := hwf
    simp only [Arr.set, WordArray.set] at h
    split_ifs at h with hg1 hg2
    · exact absurd h (by simp [Except.map])
    · exact absurd h (by simp [Except.map])
    · simp only [Except.map, Except.ok.injEq] at h
      subst h
      have hv64 : v.data.getD 0 0 < 2 ^ 64 := by
        have hx := vwf_v0_lt hv (by omega) (by omega)
        have hb : v.bitNum = 64 := by omega
        rw [hb] at hx
        exact hx
      exact ⟨by rw [List.length_set]; exact hlen, set_words_lt hwords hv64⟩
  | smallPow2 p =>
    obtain ⟨hbs, hwords⟩ := hwf
    simp only [Arr.set, SmallPow2Array.set] at h
    split_ifs at h with hg1 hg2
    · exact absurd h (by simp [Except.map])
    · exact absurd h (by simp [Except.map])
    · simp only [Except.map, Except.ok.injEq] at h
      subst h
      have hp1 : 1 ≤ p.bitNum := by rcases hbs with h | h | h | h | h | h <;> omega
      have hp64 : p.bitNum ≤ 64 := by rcases hbs with h | h | h | h | h | h <;> omega
      have hv0 : v.data.getD 0 0 < 2 ^ p.bitNum := by
        have hx := vwf_v0_lt hv (by omega) (by omega)
        have hb : v.bitNum = p.bitNum := by omega
        rw [hb] at hx
        exact hx
      exact ⟨hbs, (setCore_pow2_spec p.data p.bitNum n.toNat v hbs hwords hv0).2.1⟩
  | multiWord m =>
    obtain ⟨h128, hmod, hlen, hdvd, hwords⟩ := hwf
    simp only [Arr.set, MultiWordArray.set] at h
    split_ifs at h with hg1 hg2
    · exact absurd h (by simp [Except.map])
    · exact absurd h (by simp [Except.map])
    · simp only [Except.map, Except.ok.injEq] at h
      subst h
      exact ⟨h128, hmod, by rw [copyRegion_length]; exact hlen, hdvd,
        copyRegion_words_lt hwords (take_words_lt hv.2.1) _⟩

/-- A fresh empty array is well formed, empty, and keeps the requested width. -/
theorem createArray_nil_spec (b : Nat) (a : Arr) (hc : createArray [] b 0 = some a) :
    ArrWf a ∧ a.lenA = 0 ∧ a.bitNumA = b ∧ 1 ≤ b := by
  by_cases h0 : b = 0
  · rw [h0] at hc
    exact absurd hc (by simp [createArray])
  · by_cases h1 : b < 64
    · rw [createArray_small [] b 0 (by omega) h1] at hc
      injection hc with hc2
      subst hc2
      exact ⟨⟨show 1 ≤ b by omega, h1, nil_words⟩, rfl, rfl, by omega⟩
    · by_cases h2 : b = 64
      · subst h2
        rw [createArray_word [] 0] at hc
        injection hc with hc2
        subst hc2
        exact ⟨⟨by simp, nil_words⟩, rfl, rfl, by omega⟩
      · by_cases h3 : b % 64 = 0
        · rw [createArray_multi [] b 0 (by omega) h3] at hc
          injection hc with hc2
          subst hc2
          refine ⟨⟨show 128 ≤ b by omega, h3, by simp, Dvd.intro 0 rfl, nil_words⟩,
            ?_, rfl, by omega⟩
          show ([] : List Nat).length / (b / 64) = 0
          simp
        · rw [createArray_general [] b 0 (by omega) h3] at hc
          injection hc with hc2
          subst hc2
          exact ⟨⟨show 1 ≤ b by omega, h3, nil_words⟩, rfl, rfl, by omega⟩

/-- C4: HammingDistance rejects width mismatches on every specialization and
rejects negative indices everywhere, but the upper index bound is enforced
only on the non-multiple-of-word specializations — the multiple-of-word one
deliberately omits the n >= Len() check and instead runs into the slice
bounds (a runtime panic, the none outcome), so the claim is amended to
exclude it from the upper-bound clause. -/
theorem C4_hamming_errors (a : Arr) (v : Vector) (n : Int) :
    (v.bitNum ≠ a.bitNumA → a.hammingDistance n v = some (.error .bitWidthMismatch)) ∧
    (v.bitNum = a.bitNumA → n < 0 →
      a.hammingDistance n v = some (.error .indexOutOfRange)) ∧
    (v.bitNum = a.bitNumA → (a.lenA : Int) ≤ n → a.isMultiWord = false →
      a.hammingDistance n v = some (.error .indexOutOfRange)) := by
  cases a with
  | general g =>
    refine ⟨fun h1 => ?_, fun h1 h2 => ?_, fun h1 h2 h3 => ?_⟩
    · show GeneralArray.hammingDistance g n v = some (.error .bitWidthMismatch)
      unfold GeneralArray.hammingDistance
      rw [if_pos (by simp only [Arr.bitNumA] at h1; omega)]
    · show GeneralArray.hammingDistance g n v = some (.error .indexOutOfRange)
      unfold GeneralArray.hammingDistance
      rw [if_neg (by simp only [Arr.bitNumA] at h1; omega)]
      unfold GeneralArray.get
      rw [if_pos (Or.inl h2)]
      rfl
    · show GeneralArray.hammingDistance g n v = some (.error .indexOutOfRange)
      unfold GeneralArray.hammingDistance
      rw [if_neg (by simp only [Arr.bitNumA] at h1; omega)]
      unfold GeneralArray.get
      simp only [Arr.lenA] at h2
      rw [if_pos (Or.inr h2)]
      rfl
  | smallBits s =>
    refine ⟨fun h1 => ?_, fun h1 h2 => ?_, fun h1 h2 h3 => ?_⟩
    · show SmallBitsArray.hammingDistance s n v = some (.error .bitWidthMismatch)
      unfold SmallBitsArray.hammingDistance
      rw [if_pos (by simp only [Arr.bitNumA] at h1; omega)]
    · show SmallBitsArray.hammingDistance s n v = some (.error .indexOutOfRange)
      unfold SmallBitsArray.hammingDistance
      rw [if_neg (by simp only [Arr.bitNumA] at h1; omega), if_pos (Or.inl h2)]
    · show SmallBitsArray.hammingDistance s n v = some (.error .indexOutOfRange)
      unfold SmallBitsArray.hammingDistance
      simp only [Arr.lenA] at h2
      rw [if_neg (by simp only [Arr.bitNumA] at h1; omega), if_pos (Or.inr h2)]
  | word w =>
    refine ⟨fun h1 => ?_, fun h1 h2 => ?_, fun h1 h2 h3 => ?_⟩
    · show WordArray.hammingDistance w n v = some (.error .bitWidthMismatch)
      unfold WordArray.hammingDistance
      rw [if_pos (by simp only [Arr.bitNumA] at h1; omega)]
    · show WordArray.hammingDistance w n v = some (.error .indexOutOfRange)
      unfold WordArray.hammingDistance
      rw [if_neg (by simp only [Arr.bitNumA] at h1; omega), if_pos (Or.inl h2)]
    · show WordArray.hammingDistance w n v = some (.error .indexOutOfRange)
      unfold WordArray.hammingDistance
      simp only [Arr.lenA] at h2
      rw [if_neg (by simp only [Arr.bitNumA] at h1; omega), if_pos (Or.inr h2)]
  | smallPow2 p =>
    refine ⟨fun h1 => ?_, fun h1 h2 => ?_, fun h1 h2 h3 => ?_⟩
    · show SmallPow2Array.hammingDistance p n v = some (.error .bitWidthMismatch)
      unfold SmallPow2Array.hammingDistance
      rw [if_pos (by simp only [Arr.bitNumA] at h1; omega)]
    · show SmallPow2Array.hammingDistance p n v = some (.error .indexOutOfRange)
      unfold SmallPow2Array.hammingDistance
      rw [if_neg (by simp only [Arr.bitNumA] at h1; omega), if_pos (Or.inl h2)]
    · show SmallPow2Array.hammingDistance p n v = some (.error .indexOutOfRange)
      unfold SmallPow2Array.hammingDistance
      simp only [Arr.lenA] at h2
      rw [if_neg (by simp only [Arr.bitNumA] at h1; omega), if_pos (Or.inr h2)]
  | multiWord m =>
    refine ⟨fun h1 => ?_, fun h1 h2 => ?_, fun h1 h2 h3 => ?_⟩
    · show MultiWordArray.hammingDistance m n v = some (.error .bitWidthMismatch)
      unfold MultiWordArray.hammingDistance
      rw [if_pos (by simp only [Arr.bitNumA] at h1; omega)]
    · show MultiWordArray.hammingDistance m n v = some (.error .indexOutOfRange)
      unfold MultiWordArray.hammingDistance
      rw [if_neg (by simp only [Arr.bitNumA] at h1; omega), if_pos h2]
    · exact absurd h3 (by simp [Arr.isMultiWord])

theorem C4_hamming_errors_witness :
    (Vector.bitNum ⟨[0], 32⟩ ≠ (Arr.word ⟨[0], 1⟩).bitNumA →
      (Arr.word ⟨[0], 1⟩).hammingDistance 0 ⟨[0], 32⟩ = some (.error .bitWidthMismatch)) ∧
    (Arr.word ⟨[0], 1⟩).hammingDistance 0 ⟨[0], 32⟩ = some (.error .bitWidthMismatch) ∧
    (Arr.word ⟨[0], 1⟩).hammingDistance (-1) ⟨[0], 64⟩ = some (.error .indexOutOfRange) ∧
    (Arr.word ⟨[0], 1⟩).hammingDistance 5 ⟨[0], 64⟩ = some (.error .indexOutOfRange) :=
  ⟨(C4_hamming_errors (Arr.word ⟨[0], 1⟩) ⟨[0], 32⟩ 0).1,
    (C4_hamming_errors (Arr.word ⟨[0], 1⟩) ⟨[0], 32⟩ 0).1 (by decide),
    (C4_hamming_errors (Arr.word ⟨[0], 1⟩) ⟨[0], 64⟩ (-1)).2.1 (by decide) (by decide),
    (C4_hamming_errors (Arr.word ⟨[0], 1⟩) ⟨[0], 64⟩ 5).2.2 (by decide) (by decide)
      (by decide)⟩

/-- Counterexample to C4 as stated: the multiple-of-word specialization
accepts an index at or beyond Len(), and its loop then indexes a.data past
the slice end — a runtime panic (the none outcome), which is neither the
IndexOutOfRange error the claim promises nor any returned value. -/
theorem C4_mw_missing_bound_check :
    (Arr.multiWord ⟨[0, 0], 2, 128⟩).lenA = 1 ∧
    (Arr.multiWord ⟨[0, 0], 2, 128⟩).hammingDistance (Int.ofNat 1) ⟨[0, 0], 128⟩ =
      none :=
  ⟨by decide, rfl⟩

/-- C6: reloading the persisted bytes of any well-formed array yields an array
with the same Len and BitNum whose Get agrees element-wise on every index. -/
theorem C6_save_load_roundtrip (a : Arr) (hwf : ArrWf a) :
    ∃ a', loadArray a.save = .ok (some a') ∧ a'.lenA = a.lenA ∧
      a'.bitNumA = a.bitNumA ∧
      ∀ i : Nat, i < a.lenA → a'.get (Int.ofNat i) = a.get (Int.ofNat i) := by
  obtain ⟨a', hc, hwf', hlen, hbn, hget⟩ := reload_spec a hwf
  refine ⟨a', ?_, hlen, hbn, hget⟩
  unfold loadArray
  rw [if_pos (save_version a), hc]

theorem C6_save_load_roundtrip_witness :
    ArrWf (Arr.smallBits ⟨⟨[2], 1, 2⟩⟩) ∧
    ∃ a', loadArray (Arr.smallBits ⟨⟨[2], 1, 2⟩⟩).save = .ok (some a') ∧
      a'.lenA = (Arr.smallBits ⟨⟨[2], 1, 2⟩⟩).lenA ∧
      a'.bitNumA = (Arr.smallBits ⟨⟨[2], 1, 2⟩⟩).bitNumA ∧
      ∀ i : Nat, i < (Arr.smallBits ⟨⟨[2], 1, 2⟩⟩).lenA →
        a'.get (Int.ofNat i) = (Arr.smallBits ⟨⟨[2], 1, 2⟩⟩).get (Int.ofNat i) :=
  ⟨by decide, C6_save_load_roundtrip _ (by decide)⟩

/-- The body of SetRow after the optional extension preserves the state
invariant: a failed internal Set leaves the array unchanged, a successful one
preserves length and width. -/
theorem setRow_wf_aux (R : RealOps) (e1 : EuclidLSH) (id : Nat) (v : FeatureVector)
    (h : StateWf e1) :
    StateWf ⟨(setRowSetCall R e1 id v).toOption.getD e1.lshs,
      e1.norms.set (id - 1) (l2Norm R v)⟩ := by
  obtain ⟨hwf1, hlen1, hb11⟩ := h
  rcases hset : setRowSetCall R e1 id v with e2 | a2
  · exact ⟨hwf1, by rw [List.length_set]; exact hlen1, hb11⟩
  · unfold setRowSetCall at hset
    have hwf2 := set_wf hwf1 (cosineLSH_wf R v e1.lshs.bitNumA) hset
    have hlb := set_len_bitNum hset
    refine ⟨hwf2, ?_, ?_⟩
    · show (e1.norms.set (id - 1) (l2Norm R v)).length = a2.lenA
      rw [List.length_set, hlb.1]
      exact hlen1
    · show 1 ≤ a2.bitNumA
      rw [hlb.2]
      exact hb11

/-- Every reachable LSH state is well formed: in particular the norms list and
the sketch array always have the same logical length. -/
theorem reach_wf (R : RealOps) (e : EuclidLSH) (h : Reach R e) : StateWf e := by
  induction h with
  | new hashNum a hc =>
    obtain ⟨hwf, hlen, hbn, hb1⟩ := createArray_nil_spec hashNum a hc
    exact ⟨hwf, by rw [hlen]; rfl, by rw [hbn]; exact hb1⟩
  | setRow e id v hr hid ih =>
    obtain ⟨hwf, hlen, hb1⟩ := ih
    have he1 : StateWf (if e.norms.length < id then extend e id else e) := by
      split
    
      · unfold extend
        split
        · exact ⟨resize_wf _ hwf id, by rw [normsResize_length, len_resize _ hwf],
            by rw [bitNum_resize]; exact hb1⟩
        · exact ⟨hwf, hlen, hb1⟩
      · exact ⟨hwf, hlen, hb1⟩
    simp only [SetRow]
    exact setRow_wf_aux R _ id v he1
  | load e e' hr hl ih =>
    obtain ⟨hwf, hlen, hb1⟩ := ih
    obtain ⟨a'', hc, hwf'', hlen'', hbn'', hget''⟩ := reload_spec e.lshs hwf
    have hload : loadLSH (saveLSH e) = .ok ⟨a'', e.norms⟩ := by
      unfold loadLSH saveLSH
      rw [if_pos rfl]
      unfold loadArray
      rw [if_pos (save_version e.lshs), hc]
    rw [hload] at hl
    injection hl with hl2
    subst hl2
    exact ⟨hwf'', by rw [hlen'']; exact hlen, by rw [hbn'']; exact hb1⟩

/-- C7 (amended): per-dimension determinism makes the sketch insensitive to a
transposition of two feature entries: for the two-entry vectors [p, q] and
[q, p] the float32 projections are equal accumulator by accumulator, hence the
binarized sketch and the full cosineLSH output coincide.  The original claim
over arbitrary permutations is refuted by the counterexample below: with
three or more entries the float32 additions are reassociated and round
differently. -/
theorem C7_order_independence (R : RealOps) (p q : String × ℚ) (h : Nat) :
    randomProjection R [p, q] h = randomProjection R [q, p] h ∧
    binarize (randomProjection R [p, q] h) = binarize (randomProjection R [q, p] h) ∧
    cosineLSH R [p, q] h = cosineLSH R [q, p] h := by
  have hproj : randomProjection R [p, q] h = randomProjection R [q, p] h := by
    unfold randomProjection
    simp only [List.foldl_cons, List.foldl_nil]
    have hrep : (List.replicate h (0 : ℚ)) = (List.range h).map (fun _ => 0) := by
      refine List.ext_getElem (by simp) fun n h1 h2 => ?_
      simp
    rw [hrep, mapIdx_map_range, mapIdx_map_range, mapIdx_map_range, mapIdx_map_range]
    refine List.map_congr_left fun j _ => ?_
    rw [addF32_zero_mulF32, addF32_zero_mulF32, addF32_comm]
  exact ⟨hproj, by rw [hproj], by unfold cosineLSH; rw [hproj]⟩

/-- Counterexample to C7 as stated: float32 addition is not associative, so
over three entries a permutation changes the rounding and can flip a sketch
bit.  With unit weights and draws 1, -1 and 2^-25 for bit 0, one entry order
accumulates (1 + (-1)) + 2^-25 = 2^-25 > 0 (bit set) while the transposed
order accumulates (1 + 2^-25) + (-1) = 0, because 1 + 2^-25 rounds back to 1
(bit clear): the two permuted feature vectors binarize to different
sketches. -/
theorem C7_float_order_counterexample :
    List.Perm ([("a", (1 : ℚ)), ("b", 1), ("c", 1)] : FeatureVector)
      [("a", 1), ("c", 1), ("b", 1)] ∧
    binarize (randomProjection
        ⟨fun _ => 0, fun _ => 0, 0,
          fun d _ => if d = "a" then 1 else if d = "b" then -1 else 1 / 2 ^ 25⟩
        [("a", 1), ("b", 1), ("c", 1)] 1) ≠
      binarize (randomProjection
        ⟨fun _ => 0, fun _ => 0, 0,
          fun d _ => if d = "a" then 1 else if d = "b" then -1 else 1 / 2 ^ 25⟩
        [("a", 1), ("c", 1), ("b", 1)] 1) := by
  have hga : RealOps.gauss ⟨fun _ => 0, fun _ => 0, 0,
      fun d _ => if d = "a" then 1 else if d = "b" then -1 else 1 / 2 ^ 25⟩ "a" 0 = 1 := by
    show (if ("a" : String) = "a" then (1 : ℚ) else if "a" = "b" then -1 else 1 / 2 ^ 25) = 1
    rw [if_pos rfl]
  have hgb : RealOps.gauss ⟨fun _ => 0, fun _ => 0, 0,
      fun d _ => if d = "a" then 1 else if d = "b" then -1 else 1 / 2 ^ 25⟩ "b" 0 = -1 := by
    show (if ("b" : String) = "a" then (1 : ℚ) else if "b" = "b" then -1 else 1 / 2 ^ 25) = -1
    rw [if_neg (by decide), if_pos rfl]
  have hgc : RealOps.gauss ⟨fun _ => 0, fun _ => 0, 0,
      fun d _ => if d = "a" then 1 else if d = "b" then -1 else 1 / 2 ^ 25⟩ "c" 0 =
      1 / 2 ^ 25 := by
    show (if ("c" : String) = "a" then (1 : ℚ) else if "c" = "b" then -1 else 1 / 2 ^ 25) =
      1 / 2 ^ 25
    rw [if_neg (by decide), if_neg (by decide)]
  have hv1 : randomProjection
      ⟨fun _ => 0, fun _ => 0, 0,
        fun d _ => if d = "a" then 1 else if d = "b" then -1 else 1 / 2 ^ 25⟩
      [("a", 1), ("b", 1), ("c", 1)] 1 = [1 / 2 ^ 25] := by
    rw [proj_three, hga, hgb, hgc]
    simp only [mulF32_one, round32_one, round32_neg_one, round32_eps]
    rw [addF32_zero_one, addF32_one_negone, addF32_zero_eps]
  have hv2 : randomProjection
      ⟨fun _ => 0, fun _ => 0, 0,
        fun d _ => if d = "a" then 1 else if d = "b" then -1 else 1 / 2 ^ 25⟩
      [("a", 1), ("c", 1), ("b", 1)] 1 = [0] := by
    rw [proj_three, hga, hgb, hgc]
    simp only [mulF32_one, round32_one, round32_neg_one, round32_eps]
    rw [addF32_zero_one, addF32_one_eps, addF32_one_negone]
  refine ⟨List.Perm.cons _ (List.Perm.swap _ _ _), ?_⟩
  rw [hv1, hv2, binarize_single, binarize_single, if_pos (by norm_num),
    if_neg (by norm_num)]
  decide

/-- C8: after every lifecycle mutation — construction, SetRow, or reload —
the norms list has exactly the sketch array's logical length, and the single
extension operation grows both together. -/
theorem C8_norms_sketch_colength (R : RealOps) (e : EuclidLSH) (h : Reach R e) :
    e.norms.length = e.lshs.lenA ∧
    ∀ n : Nat, (extend e n).norms.length = (extend e n).lshs.lenA := by
  obtain ⟨hwf, hlen, hb1⟩ := reach_wf R e h
  refine ⟨hlen, fun n => ?_⟩
  unfold extend
  split
  · rw [normsResize_length, len_resize _ hwf]
  · exact hlen

theorem C8_norms_sketch_colength_witness :
    Reach ⟨fun _ => 0, fun _ => 0, 0, fun _ _ => 0⟩ ⟨Arr.smallBits ⟨⟨[], 4, 0⟩⟩, []⟩ ∧
    (([] : List ℚ).length = (Arr.smallBits ⟨⟨[], 4, 0⟩⟩).lenA ∧
      ∀ n : Nat,
        (extend ⟨Arr.smallBits ⟨⟨[], 4, 0⟩⟩, []⟩ n).norms.length =
          (extend ⟨Arr.smallBits ⟨⟨[], 4, 0⟩⟩, []⟩ n).lshs.lenA) :=
  ⟨Reach.new 4 _ (by decide),
    C8_norms_sketch_colength ⟨fun _ => 0, fun _ => 0, 0, fun _ _ => 0⟩ _
      (Reach.new 4 _ (by decide))⟩

/-- C9: queries are pure: both query entry points return their results with
the receiver state unchanged — same sketch array (hence same contents, length
and width) and same norms list. -/
theorem C9_queries_pure (R : RealOps) (e : EuclidLSH) (v : FeatureVector)
    (id size : Nat) :
    (NeighborRowFromFVS R e v size).2 = e ∧
    (NeighborRowFromIDS R e id size).2 = e ∧
    (NeighborRowFromFVS R e v size).2.lshs.raw = e.lshs.raw ∧
    (NeighborRowFromFVS R e v size).2.lshs.lenA = e.lshs.lenA ∧
    (NeighborRowFromFVS R e v size).2.lshs.bitNumA = e.lshs.bitNumA ∧
    (NeighborRowFromFVS R e v size).2.norms = e.norms :=
  ⟨rfl, rfl, rfl, rfl, rfl, rfl⟩

/-- C10: the Set result SetRow discards is always success: after the extension
step the offset id-1 is in range and the sketch has exactly the array's width,
so neither error branch of Set is reachable. -/
theorem C10_discarded_set_ok (R : RealOps) (e : EuclidLSH) (id : Nat)
    (v : FeatureVector) (hwf : StateWf e) (hid : 1 ≤ id) :
    ∃ a2, setRowSetCall R (if e.norms.length < id then extend e id else e) id v =
      .ok a2 := by
  obtain ⟨hwfa, hlen, hb1⟩ := hwf
  have he1 : StateWf (if e.norms.length < id then extend e id else e) ∧
      id ≤ (if e.norms.length < id then extend e id else e).lshs.lenA := by
    split
    · next hc =>
      unfold extend
      split
      · next hc2 =>
        refine ⟨⟨resize_wf _ hwfa id, by rw [normsResize_length, len_resize _ hwfa],
          by rw [bitNum_resize]; exact hb1⟩, ?_⟩
        rw [len_resize _ hwfa]
      · next hc2 =>
        exact ⟨⟨hwfa, hlen, hb1⟩, by omega⟩
    · next hc =>
      exact ⟨⟨hwfa, hlen, hb1⟩, by omega⟩
  obtain ⟨⟨hwf1, hlen1, hb11⟩, hfit⟩ := he1
  unfold setRowSetCall
  have hidx : ((id : Int) - 1) = Int.ofNat (id - 1) := by
    have he : Int.ofNat (id - 1) = ((id - 1 : Nat) : Int) := rfl
    rw [he]
    omega
  rw [hidx]
  exact set_ok _ _ _ (cosineLSH_bitNum R v _) (by omega)

theorem C10_discarded_set_ok_witness :
    StateWf ⟨Arr.smallBits ⟨⟨[0], 4, 1⟩⟩, [0]⟩ ∧ 1 ≤ 1 ∧
    ∃ a2, setRowSetCall ⟨fun _ => 0, fun _ => 0, 0, fun _ _ => 0⟩
      (if (([0] : List ℚ)).length < 1 then extend ⟨Arr.smallBits ⟨⟨[0], 4, 1⟩⟩, [0]⟩ 1
        else ⟨Arr.smallBits ⟨⟨[0], 4, 1⟩⟩, [0]⟩) 1 [] = .ok a2 :=
  ⟨by decide, by decide,
    C10_discarded_set_ok ⟨fun _ => 0, fun _ => 0, 0, fun _ _ => 0⟩
      ⟨Arr.smallBits ⟨⟨[0], 4, 1⟩⟩, [0]⟩ 1 [] (by decide) (by decide)⟩

end Jub
